import Mathlib

/-!
# Package and module discovery of `code-parse.go`

A shallow embedding of the package/module discovery code of the `code` package
(`collectPPackages`, `validateArgumentsAndSetOptions`, the graph-building part of
`ParsePackages`, `confirmPackageModules` and `confirmModuleReposotoryCommit`), followed by
theorems about it.

Conventions of the embedding.

* A Go `map[string]V` is an association list with pairwise distinct keys (`GoMap`).  Go leaves
  the order in which `range` visits a map unspecified; where the code ranges over a map that it
  built itself, the visiting order is an explicit argument (`shuffle`).
* A Go pointer is an index into the collection that owns the object: a `*packages.Package` is an
  index `Fin n` into the heap of objects delivered by the build oracle, a `*Package` is the
  position of the object in `packageList` (every `Package` is appended there when it is
  allocated), a `*Module` is a `ModulePtr`.
* A Go `string` is a `String`, compared and concatenated through its list of characters.
* A `panic` (or a nil dereference) is the result `none`.
* The values of an `Imports` map are a list; the two loops that range over it (lines 52 and
  310) visit it in the order of that list.
* `&d.nonToolchainModules[i]` is the index `i`: the embedding takes it that `append` never
  moves the slice, which is what its capacity (line 431) is chosen for.
* The goroutines of lines 524-531 each complete their own module; the embedding runs the
  callback on the listed modules one after the other.
-/

namespace Golds

/-! ## Go maps -/

/-- A Go `map[string]V`: an association list whose keys are pairwise distinct. -/
abbrev GoMap (V : Type) := List (String × V)

/-- The lookup `m[k]`, with `none` for an absent key. -/
def GoMap.get {V : Type} : GoMap V → String → Option V
  | [], _ => none
  | (k', v) :: r, k => if k' = k then some v else GoMap.get r k

/-- The assignment `m[k] = v`: overwrites the entry of `k`, or adds one. -/
def GoMap.set {V : Type} : GoMap V → String → V → GoMap V
  | [], k, v => [(k, v)]
  | (k', v') :: r, k, v => if k' = k then (k, v) :: r else (k', v') :: GoMap.set r k v

/-- The keys of a map. -/
def GoMap.keys {V : Type} (m : GoMap V) : List String := m.map Prod.fst

/-- In-place update of the object at position `i` of a list of objects (a write through a
pointer). -/
def modifyAt {α : Type} (f : α → α) : Nat → List α → List α
  | _, [] => []
  | 0, a :: l => f a :: l
  | i + 1, a :: l => a :: modifyAt f i l

/-! ## The build oracle's packages -/

/-- The fields of `packages.Package` that the code reads: `PkgPath`, and the values of the
`Imports` map in the order in which `range` visits them.  A `*packages.Package` is an index into
a heap of `n` such objects. -/
structure PPackage (n : Nat) where
  PkgPath : String
  Imports : List (Fin n)

/-- The closure `regPkgs` of `collectPPackages` (lines 46-55), with the map `allPPkgs` passed
explicitly and `fuel` bounding the depth of the recursion. -/
def regPkgs {n : Nat} (heap : Fin n → PPackage n) :
    Nat → GoMap (Fin n) → Fin n → Option (GoMap (Fin n))
  | 0, _, _ => none
  | fuel + 1, allPPkgs, ppkg =>
    match allPPkgs.get (heap ppkg).PkgPath with
    | some _ => some allPPkgs
    | none =>
      (heap ppkg).Imports.foldlM (fun acc p => regPkgs heap fuel acc p)
        (allPPkgs.set (heap ppkg).PkgPath ppkg)

/-- The function `collectPPackages` (lines 43-62).  The recursion is given the fuel `n + 1`, one
more than the number of package objects; `none` would mean that the fuel ran out. -/
def collectPPackages {n : Nat} (heap : Fin n → PPackage n) (ppkgs : List (Fin n)) :
    Option (GoMap (Fin n)) :=
  ppkgs.foldlM (fun acc p => regPkgs heap (n + 1) acc p) []

/-- Reachability in the import graph: the roots, and everything they import, transitively. -/
inductive Reachable {n : Nat} (heap : Fin n → PPackage n) (roots : List (Fin n)) : Fin n → Prop
  | root {p : Fin n} : p ∈ roots → Reachable heap roots p
  | step {p q : Fin n} : Reachable heap roots p → q ∈ (heap p).Imports → Reachable heap roots q

/-! ## The analyzer state -/

/-- A `*Module`: the standard module `d.stdModule`, the toolchain module allocated by
`confirmPackageModules` (line 423), or the address `&d.nonToolchainModules[i]`. -/
inductive ModulePtr where
  | std : ModulePtr
  | cmd : ModulePtr
  | ext (i : Nat) : ModulePtr
  deriving DecidableEq, Repr

/-- Modelled from the spec: the type `Module` is declared outside `code-parse.go`; these are the
fields that `code-parse.go` reads or writes (identity, version, directory, owned packages,
index, and the provenance fields). -/
structure Module where
  Path : String
  Version : String
  Dir : String
  Pkgs : List Nat
  Index : Nat
  RepositoryCommit : String
  RepositoryDir : String
  RepositoryURL : String
  ExtraPathInRepository : String
  deriving DecidableEq, Repr

/-- Modelled from the spec: the type `Package` is declared outside `code-parse.go`; these are the
fields that `code-parse.go` reads or writes.  `Deps` and `DepedBys` hold `*Package` pointers. -/
structure Package (n : Nat) where
  PPkg : Fin n
  Deps : List Nat
  DepedBys : List Nat
  Module : Option ModulePtr
  Directory : String
  deriving DecidableEq, Repr

/-- Modelled from the spec: the type `CodeAnalyzer` is declared outside `code-parse.go`; these
are the fields that `code-parse.go` reads or writes.  `toolchainModule` is the heap cell of the
module allocated at line 423, to which `ModulePtr.cmd` points. -/
structure CodeAnalyzer (n : Nat) where
  packageList : List (Package n)
  packageTable : GoMap Nat
  builtinPkg : Option Nat
  stdModule : Option Module
  wdModule : Option ModulePtr
  toolchainModule : Option Module
  nonToolchainModules : List Module
  modulesByPath : GoMap ModulePtr
  deriving DecidableEq, Repr

/-- The analyzer before `ParsePackages` has run. -/
def CodeAnalyzer.empty (n : Nat) : CodeAnalyzer n :=
  ⟨[], [], none, none, none, none, [], []⟩

/-- The object `&Package{PPkg: ppkg}` (line 288). -/
def newPackage {n : Nat} (ppkg : Fin n) : Package n := ⟨ppkg, [], [], none, ""⟩

/-! ## The graph-building part of `ParsePackages` -/

/-- One iteration of the loop of lines 283-303: the entry `path, ppkg` of `allPPkgs` either gets
a new `Package`, stored under `path` and appended to `packageList`, or replaces the `PPkg` of the
package already stored under its `PkgPath`. -/
def registerPackage {n : Nat} (heap : Fin n → PPackage n)
    (st : GoMap Nat × List (Package n)) (e : String × Fin n) : GoMap Nat × List (Package n) :=
  match st.1.get (heap e.2).PkgPath with
  | none => (st.1.set e.1 st.2.length, st.2 ++ [newPackage e.2])
  | some i => (st.1, modifyAt (fun pk => { pk with PPkg := e.2 }) i st.2)

/-- The inner loop of lines 310-318 for one package: resolves every import through
`packageTable` and appends it to `Deps`; a missing target is the panic of line 314.  (The counter
`pkgNumDepedBys` only sizes the `DepedBys` slices and is left out.) -/
def resolveDeps {n : Nat} (heap : Fin n → PPackage n) (table : GoMap Nat)
    (imports : List (Fin n)) : Option (List Nat) :=
  imports.foldlM (fun deps ppkg =>
    match table.get (heap ppkg).PkgPath with
    | none => none
    | some depPkg => some (deps ++ [depPkg])) []

/-- The loop of lines 307-319: every package of `packageList`, from the first to the last, gets
its `Deps`; the first missing import target stops the loop with the panic. -/
def buildDeps {n : Nat} (heap : Fin n → PPackage n) (table : GoMap Nat) :
    List (Package n) → Option (List (Package n))
  | [] => some []
  | pk :: l =>
    match resolveDeps heap table (heap pk.PPkg).Imports with
    | none => none
    | some deps =>
      match buildDeps heap table l with
      | none => none
      | some r => some ({ pk with Deps := deps } :: r)

/-- The statement `dep.DepedBys = append(dep.DepedBys, pkg)` (line 325), `pkg` being the package
at position `i`. -/
def addDepedBy {n : Nat} (l : List (Package n)) (i dep : Nat) : List (Package n) :=
  modifyAt (fun pk => { pk with DepedBys := pk.DepedBys ++ [i] }) dep l

/-- The loops of lines 320-327: every `DepedBys` is reset to an empty slice, then every package
is appended to the `DepedBys` of each of its `Deps`. -/
def buildDepedBys {n : Nat} (l : List (Package n)) : List (Package n) :=
  (List.range l.length).foldl (fun st i =>
    match st[i]? with
    | none => st
    | some pk => pk.Deps.foldl (fun st1 dep => addDepedBy st1 i dep) st)
    (l.map (fun pk => { pk with DepedBys := [] }))

/-- Lines 260-327 of `ParsePackages`: collect the oracle's packages, add the separately loaded
builtin package, create the package table and list, and build the forward and backward edges.
`shuffle` is the order in which `range allPPkgs` visits the map.  (`fillUnsafePackage` only
touches syntax and type information, which the embedding does not carry, or stops the
process.) -/
def buildPackageGraph {n : Nat} (heap : Fin n → PPackage n)
    (shuffle : GoMap (Fin n) → GoMap (Fin n)) (ppkgs : List (Fin n)) (builtinPPkg : Fin n)
    (d : CodeAnalyzer n) : Option (CodeAnalyzer n) :=
  match collectPPackages heap ppkgs with
  | none => none
  | some collected =>
    let allPPkgs := collected.set (heap builtinPPkg).PkgPath builtinPPkg
    let st := (shuffle allPPkgs).foldl (registerPackage heap) ([], [])
    match buildDeps heap st.1 st.2 with
    | none => none
    | some l =>
      some { d with
        packageList := buildDepedBys l
        packageTable := st.1
        builtinPkg := st.1.get "builtin" }

/-! ## Modules -/

/-- The module a `*Module` points to (`none` for a nil or dangling pointer). -/
def CodeAnalyzer.getModule {n : Nat} (d : CodeAnalyzer n) : ModulePtr → Option Module
  | .std => d.stdModule
  | .cmd => d.toolchainModule
  | .ext i => d.nonToolchainModules[i]?

/-- A write through a `*Module`. -/
def CodeAnalyzer.modifyModule {n : Nat} (d : CodeAnalyzer n) (f : Module → Module) :
    ModulePtr → CodeAnalyzer n
  | .std => { d with stdModule := d.stdModule.map f }
  | .cmd => { d with toolchainModule := d.toolchainModule.map f }
  | .ext i => { d with nonToolchainModules := modifyAt f i d.nonToolchainModules }

/-- A write through a `*Package`. -/
def CodeAnalyzer.modifyPackage {n : Nat} (d : CodeAnalyzer n) (f : Package n → Package n)
    (pk : Nat) : CodeAnalyzer n :=
  { d with packageList := modifyAt f pk d.packageList }

/-- The function `collectStdPackages` (lines 64-84); `loadStd` is the result of
`packages.Load(cfg, "std")`, `none` for an error. -/
def collectStdPackages {n : Nat} (heap : Fin n → PPackage n) (loadStd : Option (List (Fin n))) :
    Option (List String) :=
  match loadStd with
  | none => none
  | some ppkgs => some ("builtin" :: ppkgs.map (fun pp => (heap pp).PkgPath))

/-- Lines 334-347 of `ParsePackages`: the standard module is allocated and receives every table
package whose path is among `stdPkgs`. -/
def assignStdModule {n : Nat} (stdPkgs : List String) (d : CodeAnalyzer n) : CodeAnalyzer n :=
  stdPkgs.foldl (fun d1 path =>
    match d1.packageTable.get path with
    | none => d1
    | some pk =>
      (d1.modifyPackage (fun p => { p with Module := some ModulePtr.std }) pk).modifyModule
        (fun m => { m with Pkgs := m.Pkgs ++ [pk] }) ModulePtr.std)
    { d with stdModule := some ⟨"", "", "", [], 0, "", "", "", ""⟩ }

/-! ## The commit heuristic -/

/-- The pieces of the regular expressions used by the code: one character of a class, a greedy
repetition `c{min,}` of a class (`c*` is `min = 0`), and the two ends of the capture group. -/
inductive RegexItem where
  | one (cls : Char → Bool) : RegexItem
  | rep (cls : Char → Bool) (min : Nat) : RegexItem
  | capOpen : RegexItem
  | capClose : RegexItem

/-- The first success of `f j`, trying `j`, `j - 1`, ... down to `min`: the order in which a
greedy repetition gives characters back. -/
def firstFrom {R : Type} (f : Nat → Option R) (min : Nat) : Nat → Option R
  | 0 => if min = 0 then f 0 else none
  | j + 1 =>
    if j + 1 < min then none
    else
      match f (j + 1) with
      | some r => some r
      | none => firstFrom f min j

/-- Backtracking match of a sequence of items at the start of `s`, with the preferences of Go's
`regexp` (leftmost-first, greedy repetitions).  `opened` is the input that was left when the
group opened, `cap` the text of the group; the result is the input left after the match, and
the text of the group. -/
def matchItems : List RegexItem → List Char → List Char → List Char →
    Option (List Char × List Char)
  | [], s, _, cap => some (s, cap)
  | RegexItem.one _ :: _, [], _, _ => none
  | RegexItem.one cls :: r, c :: s, opened, cap =>
    if cls c then matchItems r s opened cap else none
  | RegexItem.rep cls min :: r, s, opened, cap =>
    firstFrom (fun j => matchItems r (s.drop j) opened cap) min (s.takeWhile cls).length
  | RegexItem.capOpen :: r, s, _, cap => matchItems r s s cap
  | RegexItem.capClose :: r, s, opened, _ =>
    matchItems r s opened (opened.take (opened.length - s.length))

/-- The leftmost match in `s`: the text of the whole match and the text of the group. -/
def findSubmatch (re : List RegexItem) : List Char → Option (List Char × List Char)
  | [] => (matchItems re [] [] []).map (fun r => ([], r.2))
  | c :: s =>
    match matchItems re (c :: s) [] [] with
    | some r => some ((c :: s).take ((c :: s).length - r.1.length), r.2)
    | none => findSubmatch re s

/-- The method `FindStringSubmatch` of a compiled expression with one group: the whole match
and the group, or the empty (nil) slice when nothing matches. -/
def FindStringSubmatch (re : List RegexItem) (s : String) : List String :=
  match findSubmatch re s.data with
  | none => []
  | some r => [String.mk r.1, String.mk r.2]

/-- The class `[0-9]`. -/
def isDigit (c : Char) : Bool := decide ('0' ≤ c ∧ c ≤ '9')

/-- The class `[0-9a-f]`. -/
def isHex (c : Char) : Bool := isDigit c || decide ('a' ≤ c ∧ c ≤ 'f')

/-- The class `\S`: everything but tab, newline, form feed, carriage return and space. -/
def isNonSpace (c : Char) : Bool :=
  !(c == '\t' || c == '\n' || c == '\x0c' || c == '\r' || c == ' ')

/-- The expression `v[0-9]\S*[0-9]{8,}-([0-9a-f]{6,})` (line 584). -/
def findCommentRegexp : List RegexItem :=
  [RegexItem.one (fun c => c == 'v'), RegexItem.one isDigit, RegexItem.rep isNonSpace 0,
   RegexItem.rep isDigit 8, RegexItem.one (fun c => c == '-'),
   RegexItem.capOpen, RegexItem.rep isHex 6, RegexItem.capClose]

/-- The function `strings.HasPrefix`. -/
def HasPrefix (s pre : String) : Bool := pre.data.isPrefixOf s.data

/-- The function `strings.HasSuffix`. -/
def HasSuffix (s suf : String) : Bool := suf.data.isSuffixOf s.data

/-- The slice `extra[1:]` taken when `extra` starts with `/`. -/
def dropFirst (s : String) : String := String.mk (s.data.drop 1)

/-- The function `confirmModuleReposotoryCommit` (lines 586-610). -/
def confirmModuleReposotoryCommit (m : Module) : Module :=
  let ms := FindStringSubmatch findCommentRegexp m.Version
  if ms.length ≥ 2 then { m with RepositoryCommit := ms.getD 1 "" }
  else if m.ExtraPathInRepository ≠ "" then
    let extra := m.ExtraPathInRepository
    let extra1 := if HasPrefix extra "/" then dropFirst extra else extra
    let extra2 := if HasPrefix extra1 "/" then dropFirst extra1 else extra1
    if HasSuffix extra2 "/" then { m with RepositoryCommit := extra2 ++ m.Version }
    else { m with RepositoryCommit := extra2 ++ "/" ++ m.Version }
  else { m with RepositoryCommit := m.Version }

/-! ## Argument normalisation -/

/-- The two errors `validateArgumentsAndSetOptions` can return. -/
inductive ArgError where
  | toolchainNotAlone : ArgError
  | chdirFailed : ArgError
  deriving DecidableEq, Repr

/-- The three results of `validateArgumentsAndSetOptions`; `args = none` is the nil slice
returned together with an error. -/
structure ArgsResult where
  args : Option (List String)
  hasToolchain : Bool
  err : Option ArgError
  deriving DecidableEq, Repr

/-- The variables of the loop of lines 102-121.  `args = args[:0]` shares its backing array with
`oldArgs`: `buf` is that array and `len` is `len(args)`, so `append` writes `buf[len]`. -/
structure ArgsLoop where
  buf : List String
  len : Nat
  hasToolchain : Bool
  hasOthers : Bool
  deriving DecidableEq, Repr

/-- One iteration of the loop of lines 102-121, reading `oldArgs[i]` from the shared array.
`statNotExist` says that `os.Stat(toolchainPath)` reports a missing directory. -/
def argsStep (statNotExist : Bool) (st : ArgsLoop) (i : Nat) : ArgsLoop :=
  let p := st.buf.getD i ""
  if p = "std" then
    { st with buf := st.buf.set st.len p, len := st.len + 1 }
  else if p = "toolchain" then
    if statNotExist then { st with hasToolchain := true }
    else { st with hasToolchain := true, buf := st.buf.set st.len "./...", len := st.len + 1 }
  else
    { st with hasOthers := true, buf := st.buf.set st.len p, len := st.len + 1 }

/-- The function `validateArgumentsAndSetOptions` (lines 86-133).  `statNotExist` and
`chdirFails` are the outcomes of `os.Stat` and `os.Chdir` on the toolchain path; the two
`os.Setenv` calls change nothing that is returned. -/
def validateArgumentsAndSetOptions (args : List String) (statNotExist chdirFails : Bool) :
    ArgsResult :=
  if args.length = 0 then ⟨some ["."], false, none⟩
  else
    let stdOnly := args.length == 1 && args.getD 0 "" == "std"
    if stdOnly then ⟨some args, false, none⟩
    else
      let st := (List.range args.length).foldl (argsStep statNotExist) ⟨args, 0, false, false⟩
      if st.hasToolchain then
        if st.hasOthers then ⟨none, st.hasToolchain, some ArgError.toolchainNotAlone⟩
        else if chdirFails then ⟨none, st.hasToolchain, some ArgError.chdirFailed⟩
        else ⟨some (st.buf.take st.len), st.hasToolchain, none⟩
      else ⟨some (st.buf.take st.len), st.hasToolchain, none⟩

/-! ## Reconciling the module listing -/

/-- The local type `pkg` of `confirmPackageModules` (lines 375-384): one record of the listing. -/
structure ListedPkg where
  ImportPath : String
  Dir : String
  Module : Module
  Goroot : Bool
  Standard : Bool
  deriving DecidableEq, Repr

/-- The zero value of a `Module`. -/
def Module.zero : Module := ⟨"", "", "", [], 0, "", "", "", ""⟩

/-- The zero value of a listing record, as `make([]pkg, count)` creates it. -/
def ListedPkg.zero : ListedPkg := ⟨"", "", Module.zero, false, false⟩

/-- What `confirmPackageModules` takes from its environment: `GOROOT`, the toolchain path
`GOROOT/src/cmd`, its parent directory `filepath.Dir(toolchainPath)`, the trimmed contents of
`GOROOT/VERSION` (`none` when the file cannot be read), and `json.Unmarshal` into a zero record
(`none` for an error). -/
structure Env where
  GOROOT : String
  toolchainPath : String
  stdDir : String
  goVersion : Option String
  unmarshal : List Char → Option ListedPkg

/-- The call `bytes.Index(output, newlineBrace)`, `none` standing for `-1`. -/
def indexNewlineBrace : List Char → Option Nat
  | [] => none
  | [_] => none
  | a :: b :: r =>
    if a = '\n' ∧ b = '\x7b' then some 0
    else (indexNewlineBrace (b :: r)).map (fun e => e + 1)

/-- The call `bytes.Count(output, newlineBrace)`. -/
def countNewlineBrace : List Char → Nat
  | [] => 0
  | [_] => 0
  | a :: b :: r =>
    if a = '\n' ∧ b = '\x7b' then countNewlineBrace r + 1
    else countNewlineBrace (b :: r)

/-- The variables of the first pass (lines 386-410): the records decoded so far, and the two
tallies. -/
structure Tally where
  pkgs : List ListedPkg
  numToolchainPkgs : Nat
  modulesNumPkgs : GoMap Nat
  deriving DecidableEq, Repr

/-- Lines 400-404: a record with a module path is counted for its module, otherwise a record
whose directory starts with the toolchain path is counted as a toolchain package. -/
def tallyRecord (toolchainPath : String) (t : Tally) (p : ListedPkg) : Tally :=
  if p.Module.Path ≠ "" then
    { t with pkgs := t.pkgs ++ [p]
             modulesNumPkgs :=
               t.modulesNumPkgs.set p.Module.Path ((t.modulesNumPkgs.get p.Module.Path).getD 0 + 1) }
  else if HasPrefix p.Dir toolchainPath then
    { t with pkgs := t.pkgs ++ [p], numToolchainPkgs := t.numToolchainPkgs + 1 }
  else { t with pkgs := t.pkgs ++ [p] }

/-- The loop of lines 389-410, `k` being the number of iterations left.  The result `none` is
the early return of line 398 (a record that does not decode). -/
def firstPass (env : Env) : Nat → List Char → Tally → Option Tally
  | 0, _, t => some t
  | k + 1, output, t =>
    let e := (indexNewlineBrace output).getD output.length
    match env.unmarshal (output.take e) with
    | none => none
    | some p =>
      if e = output.length then some (tallyRecord env.toolchainPath t p)
      else firstPass env k (output.drop (e + 1)) (tallyRecord env.toolchainPath t p)

/-- Lines 386-410: the slice `pkgs` has `count` entries, those the loop did not reach keeping
their zero value. -/
def decodeListing (env : Env) (output : List Char) : Option Tally :=
  let count := countNewlineBrace output + 1
  match firstPass env count output ⟨[], 0, []⟩ with
  | none => none
  | some t =>
    some { t with pkgs := t.pkgs ++ List.replicate (count - t.pkgs.length) ListedPkg.zero }

/-- Lines 412-442: decide whether there is a toolchain module, allocate the module tables and
register the standard module and the toolchain module.  The result carries the final value of
the flag `hasToolchain`. -/
def registerFixedModules {n : Nat} (env : Env) (hasToolchain : Bool) (t : Tally)
    (d : CodeAnalyzer n) : Option (Bool × CodeAnalyzer n) :=
  let hasToolchain1 :=
    if t.numToolchainPkgs = 0 then (if hasToolchain then false else hasToolchain)
    else (if !hasToolchain then true else hasToolchain)
  let d1 : CodeAnalyzer n :=
    if t.numToolchainPkgs = 0 then d
    else { d with wdModule := some ModulePtr.cmd
                  toolchainModule := some ⟨"cmd", "", env.toolchainPath, [], 0, "", "", "", ""⟩ }
  let d2 : CodeAnalyzer n := { d1 with nonToolchainModules := [], modulesByPath := [] }
  match d2.stdModule with
  | none => none
  | some _ =>
    let d3 := d2.modifyModule (fun m => { m with Index := d2.modulesByPath.length }) ModulePtr.std
    let d4 : CodeAnalyzer n := { d3 with modulesByPath := d3.modulesByPath.set "std" ModulePtr.std }
    if hasToolchain1 then
      match d4.wdModule with
      | none => none
      | some wd =>
        match d4.getModule wd with
        | none => none
        | some w =>
          let d5 := d4.modifyModule (fun m => { m with Index := d4.modulesByPath.length }) wd
          some (hasToolchain1, { d5 with modulesByPath := d5.modulesByPath.set w.Path wd })
    else some (hasToolchain1, d4)

/-- One iteration of the second pass (lines 444-481) for the record `p`.  (The counter
`numPackagesWithoutModule` only feeds a log message, and `modulesNumPkgs` only sizes the
`Pkgs` slices; both are left out.) -/
def reconcileRecord {n : Nat} (env : Env) (d : CodeAnalyzer n) (p : ListedPkg) :
    Option (CodeAnalyzer n) :=
  match d.packageTable.get p.ImportPath with
  | none => some d
  | some pk =>
    if p.Module.Path ≠ "" then
      let d1 := d.modifyPackage (fun q => { q with Directory := p.Dir }) pk
      let r : ModulePtr × CodeAnalyzer n :=
        match d1.modulesByPath.get p.Module.Path with
        | some m => (m, d1)
        | none =>
          let m := ModulePtr.ext d1.nonToolchainModules.length
          let d2 : CodeAnalyzer n :=
            { d1 with nonToolchainModules := d1.nonToolchainModules ++
                [{ p.Module with Index := d1.modulesByPath.length, Pkgs := [] }] }
          (m, { d2 with modulesByPath := d2.modulesByPath.set p.Module.Path m })
      let d3 := r.2.modifyPackage (fun q => { q with Module := some r.1 }) pk
      match d3.getModule r.1 with
      | none => none
      | some _ => some (d3.modifyModule (fun m => { m with Pkgs := m.Pkgs ++ [pk] }) r.1)
    else if HasPrefix p.Dir env.toolchainPath then
      match d.packageList[pk]? with
      | none => none
      | some q =>
        if q.Module ≠ none then some d
        else
          match d.wdModule with
          | none => none
          | some wd =>
            let d1 := d.modifyPackage (fun q1 => { q1 with Module := some wd }) pk
            match d1.getModule wd with
            | none => none
            | some _ => some (d1.modifyModule (fun m => { m with Pkgs := m.Pkgs ++ [pk] }) wd)
    else some d

/-- Lines 515-520: the last listed module without a version becomes `wdModule`. -/
def selectWdModule {n : Nat} (d : CodeAnalyzer n) : CodeAnalyzer n :=
  (List.range d.nonToolchainModules.length).foldl (fun d1 i =>
    match d1.nonToolchainModules[i]? with
    | none => d1
    | some m => if m.Version = "" then { d1 with wdModule := some (ModulePtr.ext i) } else d1) d

/-- The assignments of lines 495-500 and of lines 502-507 to a module: the toolchain version
as version and commit, the directory, the repository root, the repository URL and the
sub-path. -/
def fillModule (goVersion dir root extra : String) (m : Module) : Module :=
  { m with Version := goVersion, Dir := dir, RepositoryCommit := goVersion,
           RepositoryDir := root, RepositoryURL := "https://github.com/golang/go",
           ExtraPathInRepository := extra }

/-- Lines 489-513: the version and provenance of the standard module and, if there is one, of
the toolchain module, which is reached through `d.wdModule`. -/
def fillFixedModules {n : Nat} (env : Env) (goVersion : String) (hasToolchain : Bool)
    (d : CodeAnalyzer n) : Option (CodeAnalyzer n) :=
  match d.stdModule with
  | none => none
  | some _ =>
    let d1 := d.modifyModule (fillModule goVersion env.stdDir env.GOROOT "/src/") ModulePtr.std
    if hasToolchain then
      match d1.wdModule with
      | none => none
      | some wd =>
        match d1.getModule wd with
        | none => none
        | some _ =>
          some (d1.modifyModule (fillModule goVersion env.toolchainPath env.GOROOT "/src/cmd") wd)
    else some d1

/-- Lines 522-541: the caller's callback completes every listed module (the goroutines each
touch their own module, so they are run one after the other), then the commit of every listed
module with a version is derived. -/
def completeModules {n : Nat} (completeModuleInfo : Option (Module → Module))
    (d : CodeAnalyzer n) : CodeAnalyzer n :=
  let ms := match completeModuleInfo with
    | none => d.nonToolchainModules
    | some f => d.nonToolchainModules.map f
  { d with nonToolchainModules :=
      ms.map (fun m => if m.Version = "" then m else confirmModuleReposotoryCommit m) }

/-- The closure `printModuleInfo` (lines 545-552) reads `m.Pkgs[0].Directory`: it panics for a
module without packages. -/
def canPrintModuleInfo {n : Nat} (d : CodeAnalyzer n) (m : Option Module) : Bool :=
  match m with
  | none => false
  | some m1 =>
    match m1.Pkgs with
    | [] => false
    | pk :: _ => (d.packageList[pk]?).isSome

/-- Lines 544-561: with verbose logs the standard module, the module `wdModule` points to (if
`hasToolchain`) and the listed modules are printed; the result says that no print panics. -/
def verbosePrintOk {n : Nat} (hasToolchain : Bool) (d : CodeAnalyzer n) : Bool :=
  canPrintModuleInfo d d.stdModule &&
  (if hasToolchain then
    (match d.wdModule with
     | none => false
     | some wd => canPrintModuleInfo d (d.getModule wd))
   else true) &&
  d.nonToolchainModules.all (fun m => canPrintModuleInfo d (some m))

/-- The function `confirmPackageModules` (lines 363-580).  `listing` is the trimmed output of
the listing command, `none` when the command failed.  The result `none` is a panic; the early
returns of lines 371 and 398 give back the analyzer as it was. -/
def confirmPackageModules {n : Nat} (env : Env) (listing : Option (List Char))
    (hasToolchain : Bool) (completeModuleInfo : Option (Module → Module)) (verboseLogs : Bool)
    (d : CodeAnalyzer n) : Option (CodeAnalyzer n) :=
  match listing with
  | none => some d
  | some output =>
    match decodeListing env output with
    | none => some d
    | some t =>
      match registerFixedModules env hasToolchain t d with
      | none => none
      | some (hasToolchain1, d1) =>
        match t.pkgs.foldlM (reconcileRecord env) d1 with
        | none => none
        | some d2 =>
          if d2.nonToolchainModules.length ≠ t.modulesNumPkgs.length then none
          else
            match env.goVersion with
            | none => none
            | some goVersion =>
              match fillFixedModules env goVersion hasToolchain1 d2 with
              | none => none
              | some d3 =>
                let d4 := completeModules completeModuleInfo (selectWdModule d3)
                if verboseLogs && !verbosePrintOk hasToolchain1 d4 then none
                else some d4

/-! ## Predicates used in the statements -/

/-- The number of package objects whose path is not yet a key of `m`. -/
def unvisited {n : Nat} (heap : Fin n → PPackage n) (m : GoMap (Fin n)) : Nat :=
  (Finset.univ.filter (fun i : Fin n => m.get (heap i).PkgPath = none)).card

/-- The relation between the map before and after a call of `regPkgs`: old entries stay, every
new entry is stored under its own path, is reachable from the roots, and has all its imports
among the keys. -/
structure Grows {n : Nat} (heap : Fin n → PPackage n) (roots : List (Fin n))
    (m m' : GoMap (Fin n)) : Prop where
  mono : ∀ k p, m.get k = some p → m'.get k = some p
  fresh : ∀ k p, m'.get k = some p → m.get k = none →
    (heap p).PkgPath = k ∧ Reachable heap roots p ∧
      ∀ q ∈ (heap p).Imports, (m'.get (heap q).PkgPath).isSome

/-! ## Concrete inputs -/

/-- A cyclic import graph: `a` and `b` import each other, `b` also imports `c`; the fourth
object is the separately loaded builtin package. -/
def heapCycle : Fin 4 → PPackage 4 :=
  fun i => [⟨"a", [1]⟩, ⟨"b", [0, 2]⟩, ⟨"c", []⟩, ⟨"builtin", []⟩].get i

/-- Two package objects with the same path `a`, of which only the second imports `b`. -/
def heapAlias : Fin 3 → PPackage 3 :=
  fun i => [⟨"a", []⟩, ⟨"a", [2]⟩, ⟨"b", []⟩].get i

/-- The package table and the package list agree: every table entry points to a package of the
list whose path is the key, and every package of the list is stored under its own path. -/
structure TableInv {n : Nat} (heap : Fin n → PPackage n) (tb : GoMap Nat)
    (l : List (Package n)) : Prop where
  entry : ∀ k i, tb.get k = some i → ∃ pk, l[i]? = some pk ∧ (heap pk.PPkg).PkgPath = k
  listed : ∀ i pk, l[i]? = some pk → tb.get (heap pk.PPkg).PkgPath = some i

/-- Duplicate map values: the package `p` imports the same package `q` under two import
paths; the third object is the builtin package. -/
def heapDup : Fin 3 → PPackage 3 :=
  fun i => [⟨"p", [1, 1]⟩, ⟨"q", []⟩, ⟨"builtin", []⟩].get i

/-- Package `i` of the list imports package `j`: `j` is one of its `Deps`. -/
def CodeAnalyzer.hasDep {n : Nat} (d : CodeAnalyzer n) (i j : Nat) : Bool :=
  match d.packageList[i]? with
  | none => false
  | some P => decide (j ∈ P.Deps)

/-- The graph built from `heapCycle` with root `a`, the map being visited in insertion order. -/
def graphCycle : CodeAnalyzer 4 :=
  { CodeAnalyzer.empty 4 with
    packageList := [⟨0, [1], [1], none, ""⟩, ⟨1, [0, 2], [0], none, ""⟩,
      ⟨2, [], [1], none, ""⟩, ⟨3, [], [], none, ""⟩]
    packageTable := [("a", 0), ("b", 1), ("c", 2), ("builtin", 3)]
    builtinPkg := some 3 }

/-- The graph built from `heapDup` with root `p`. -/
def graphDup : CodeAnalyzer 3 :=
  { CodeAnalyzer.empty 3 with
    packageList := [⟨0, [1, 1], [], none, ""⟩, ⟨1, [], [0, 0], none, ""⟩, ⟨2, [], [], none, ""⟩]
    packageTable := [("p", 0), ("q", 1), ("builtin", 2)]
    builtinPkg := some 2 }

/-- The text `s` contains a match of the pseudo-version pattern: somewhere in it, the letter
`v`, a digit, a run of non-space characters, at least 8 digits, a `-` and at least 6
characters of `[0-9a-f]`. -/
def ContainsPseudoVersion (s : List Char) : Prop :=
  ∃ (pre : List Char) (d : Char) (S D H post : List Char),
    s = pre ++ 'v' :: d :: (S ++ (D ++ '-' :: (H ++ post))) ∧ isDigit d = true ∧
    (∀ c ∈ S, isNonSpace c = true) ∧ (∀ c ∈ D, isDigit c = true) ∧ 8 ≤ D.length ∧
    (∀ c ∈ H, isHex c = true) ∧ 6 ≤ H.length

/-- The text `s` without its leading `/` characters, of which at most `k` are removed. -/
def stripLeadingSlashes : Nat → List Char → List Char
  | 0, s => s
  | _ + 1, [] => []
  | k + 1, c :: s => if c = '/' then stripLeadingSlashes k s else c :: s

/-- A module with the given version and sub-path in its repository, the other fields zero. -/
def moduleAt (version extra : String) : Module :=
  { Module.zero with Version := version, ExtraPathInRepository := extra }

/-- The part `-([0-9a-f]{6,})` of the expression. -/
def reRevision : List RegexItem :=
  [RegexItem.one (fun c => c == '-'), RegexItem.capOpen, RegexItem.rep isHex 6,
   RegexItem.capClose]

/-- The part `[0-9]{8,}-([0-9a-f]{6,})` of the expression. -/
def reTimestamp : List RegexItem := RegexItem.rep isDigit 8 :: reRevision

/-- Puts a character in front of the first record. -/
def consHead (a : Char) : List (List Char) → List (List Char)
  | [] => [[a]]
  | h :: t => (a :: h) :: t

/-- The records of a listing: the text is cut at every newline that is followed by an opening
brace; the newline is dropped and the brace starts the next record. -/
def splitRecords : List Char → List (List Char)
  | [] => [[]]
  | [a] => [[a]]
  | a :: b :: r =>
    if a = '\n' ∧ b = '\x7b' then [] :: splitRecords (b :: r)
    else consHead a (splitRecords (b :: r))

/-- The statements `pkg.Module = m` and `m.Pkgs = append(m.Pkgs, pkg)` (lines 463-464 and
469-470) for the package at position `pk` and the module pointer `m`. -/
def assignModule {n : Nat} (d : CodeAnalyzer n) (pk : Nat) (m : ModulePtr) : CodeAnalyzer n :=
  (d.modifyPackage (fun q => { q with Module := some m }) pk).modifyModule
    (fun m1 => { m1 with Pkgs := m1.Pkgs ++ [pk] }) m

/-- The registration of a listed module (lines 457-461): the module of the record is appended
to `nonToolchainModules` with its index and an empty package list, and stored under its path. -/
def addExtModule {n : Nat} (d : CodeAnalyzer n) (m : Module) : CodeAnalyzer n :=
  { d with
    nonToolchainModules := d.nonToolchainModules ++
      [{ m with Index := d.modulesByPath.length, Pkgs := [] }]
    modulesByPath := d.modulesByPath.set m.Path (ModulePtr.ext d.nonToolchainModules.length) }

/-- The content of `modulesByPath` in registration order: the standard module, the toolchain
module if there is one, and the listed modules. -/
def moduleEntries (tc : Bool) (ms : List Module) : GoMap ModulePtr :=
  ("std", ModulePtr.std) :: ((if tc then [("cmd", ModulePtr.cmd)] else []) ++
    (ms.map Module.Path).enum.map (fun e => (e.2, ModulePtr.ext e.1)))

/-- The module tables are well formed: `modulesByPath` lists the registered modules in
registration order under pairwise distinct paths, and every module carries its position as
index. -/
structure ModInv {n : Nat} (tc : Bool) (d : CodeAnalyzer n) : Prop where
  table : d.modulesByPath = moduleEntries tc d.nonToolchainModules
  nodup : d.modulesByPath.keys.Nodup
  std : ∃ s, d.stdModule = some s ∧ s.Index = 0
  cmd : tc = true → ∃ w, d.toolchainModule = some w ∧ w.Path = "cmd" ∧ w.Index = 1
  ext : ∀ (i : Nat) (m : Module), d.nonToolchainModules[i]? = some m →
    m.Index = 1 + (if tc then 1 else 0) + i

/-- The packages are partitioned among the registered modules: the package list of a
registered module holds exactly the packages whose `Module` points to it, each once, and every
`Module` reference points to a registered module. -/
structure PartInv {n : Nat} (d : CodeAnalyzer n) : Prop where
  lists : ∀ (k : String) (ptr : ModulePtr), d.modulesByPath.get k = some ptr →
    ∃ M, d.getModule ptr = some M ∧ (∀ x ∈ M.Pkgs, x < d.packageList.length) ∧
      ∀ (i : Nat) (P : Package n), d.packageList[i]? = some P →
        M.Pkgs.count i = if P.Module = some ptr then 1 else 0
  owned : ∀ (i : Nat) (P : Package n) (ptr : ModulePtr), d.packageList[i]? = some P →
    P.Module = some ptr → ∃ k, d.modulesByPath.get k = some ptr

/-- The second state has the package table and, position by position, the `PPkg`, `Deps` and
`DepedBys` of the first. -/
structure CoreEq {n : Nat} (d d0 : CodeAnalyzer n) : Prop where
  table : d.packageTable = d0.packageTable
  length : d.packageList.length = d0.packageList.length
  core : ∀ (i : Nat) (P : Package n), d.packageList[i]? = some P →
    ∃ P0, d0.packageList[i]? = some P0 ∧ P.PPkg = P0.PPkg ∧ P.Deps = P0.Deps ∧
      P.DepedBys = P0.DepedBys

/-- What the callback and the commit heuristic together do to a listed module (lines
522-541). -/
def completeModule (completeModuleInfo : Option (Module → Module)) (m : Module) : Module :=
  let m1 := match completeModuleInfo with
    | none => m
    | some f => f m
  if m1.Version = "" then m1 else confirmModuleReposotoryCommit m1

/-- A sample environment: the toolchain lives in `/go/src/cmd`; three records decode, the
package `a` of the module `m`, the toolchain package `b` and the standard package `c`, and a
fourth gives the package `b` the module `m` although its directory is below the toolchain
path. -/
def envSample : Env :=
  { GOROOT := "/go"
    toolchainPath := "/go/src/cmd"
    stdDir := "/go/src"
    goVersion := some "go1.16"
    unmarshal := fun s =>
      if s = "\x7ba\x7d".data then
        some ⟨"a", "/w/a", { Module.zero with Path := "m", Version := "v1.2.3", Dir := "/w" },
          false, false⟩
      else if s = "\x7bb\x7d".data then some ⟨"b", "/go/src/cmd/b", Module.zero, true, false⟩
      else if s = "\x7bc\x7d".data then some ⟨"c", "/go/src/c", Module.zero, true, true⟩
      else if s = "\x7bt\x7d".data then
        some ⟨"b", "/go/src/cmd/b", { Module.zero with Path := "m", Version := "v1.2.3" },
          false, false⟩
      else none }

/-- The analyzer after the graph of `heapCycle` was built and the standard module received
the packages `builtin` and `c`. -/
def analyzerCycle : CodeAnalyzer 4 := assignStdModule ["builtin", "c"] graphCycle

/-- A listing with the records of `a`, `b` and `c`. -/
def listingSample : List Char := "\x7ba\x7d\n\x7bb\x7d\n\x7bc\x7d".data

/-- A callback that fills in the repository URL of a module. -/
def callbackSample : Module → Module :=
  fun m => { m with RepositoryURL := "https://example.org/" ++ m.Path }

/-- The analyzer after `confirmPackageModules` has reconciled `listingSample` with
`analyzerCycle`: the standard module, the toolchain module and the module `m`. -/
def analyzerDone : CodeAnalyzer 4 :=
  { packageList := [⟨0, [1], [1], some (ModulePtr.ext 0), "/w/a"⟩,
      ⟨1, [0, 2], [0], some ModulePtr.cmd, ""⟩, ⟨2, [], [1], some ModulePtr.std, ""⟩,
      ⟨3, [], [], some ModulePtr.std, ""⟩]
    packageTable := [("a", 0), ("b", 1), ("c", 2), ("builtin", 3)]
    builtinPkg := some 3
    stdModule := some ⟨"", "go1.16", "/go/src", [3, 2], 0, "go1.16", "/go",
      "https://github.com/golang/go", "/src/"⟩
    wdModule := some ModulePtr.cmd
    toolchainModule := some ⟨"cmd", "go1.16", "/go/src/cmd", [1], 1, "go1.16", "/go",
      "https://github.com/golang/go", "/src/cmd"⟩
    nonToolchainModules := [⟨"m", "v1.2.3", "/w", [0], 2, "v1.2.3", "", "https://example.org/m",
      ""⟩]
    modulesByPath := [("std", ModulePtr.std), ("cmd", ModulePtr.cmd), ("m", ModulePtr.ext 0)] }

/-- The record `p` is listed: it is what one of the records of the output decodes to. -/
def Listed (env : Env) (output : List Char) (p : ListedPkg) : Prop :=
  ∃ c ∈ splitRecords output, env.unmarshal c = some p

/-- The record counts as a toolchain package (lines 400-404): it has no module path and its
directory starts with the toolchain path. -/
def isToolchainRecord (toolchainPath : String) (p : ListedPkg) : Bool :=
  decide (p.Module.Path = "") && HasPrefix p.Dir toolchainPath

/-- A listing in which the package `b`, below the toolchain path, carries the module `m`. -/
def listingModuleUnderToolchain : List Char := "\x7ba\x7d\n\x7bt\x7d\n\x7bc\x7d".data

/-- The analyzer after `listingModuleUnderToolchain` was reconciled with `analyzerCycle`. -/
def analyzerNoToolchain : CodeAnalyzer 4 :=
  { packageList := [⟨0, [1], [1], some (ModulePtr.ext 0), "/w/a"⟩,
      ⟨1, [0, 2], [0], some (ModulePtr.ext 0), "/go/src/cmd/b"⟩,
      ⟨2, [], [1], some ModulePtr.std, ""⟩, ⟨3, [], [], some ModulePtr.std, ""⟩]
    packageTable := [("a", 0), ("b", 1), ("c", 2), ("builtin", 3)]
    builtinPkg := some 3
    stdModule := some ⟨"", "go1.16", "/go/src", [3, 2], 0, "go1.16", "/go",
      "https://github.com/golang/go", "/src/"⟩
    wdModule := none
    toolchainModule := none
    nonToolchainModules := [⟨"m", "v1.2.3", "/w", [0, 1], 1, "v1.2.3", "", "", ""⟩]
    modulesByPath := [("std", ModulePtr.std), ("m", ModulePtr.ext 0)] }

/-- The records of the listing that decode, in order. -/
def decodedRecords (env : Env) (output : List Char) : List ListedPkg :=
  (splitRecords output).filterMap env.unmarshal

/-- A listing that names the package `a` twice. -/
def listingTwice : List Char := "\x7ba\x7d\n\x7ba\x7d".data

/-- The analyzer after `listingTwice` was reconciled with `analyzerCycle`. -/
def analyzerTwice : CodeAnalyzer 4 :=
  { packageList := [⟨0, [1], [1], some (ModulePtr.ext 0), "/w/a"⟩,
      ⟨1, [0, 2], [0], none, ""⟩, ⟨2, [], [1], some ModulePtr.std, ""⟩,
      ⟨3, [], [], some ModulePtr.std, ""⟩]
    packageTable := [("a", 0), ("b", 1), ("c", 2), ("builtin", 3)]
    builtinPkg := some 3
    stdModule := some ⟨"", "go1.16", "/go/src", [3, 2], 0, "go1.16", "/go",
      "https://github.com/golang/go", "/src/"⟩
    wdModule := none
    toolchainModule := none
    nonToolchainModules := [⟨"m", "v1.2.3", "/w", [0, 0], 1, "v1.2.3", "", "", ""⟩]
    modulesByPath := [("std", ModulePtr.std), ("m", ModulePtr.ext 0)] }

/-- An environment of a workspace with two local modules: the records decode to the package
`a` of the module `m1`, the package `b` of the module `m2`, neither module with a version, and
the standard package `c`. -/
def envWorkspace : Env :=
  { GOROOT := "/go"
    toolchainPath := "/go/src/cmd"
    stdDir := "/go/src"
    goVersion := some "go1.16"
    unmarshal := fun s =>
      if s = "\x7ba\x7d".data then
        some ⟨"a", "/w/m1/a", { Module.zero with Path := "m1", Dir := "/w/m1" }, false, false⟩
      else if s = "\x7bb\x7d".data then
        some ⟨"b", "/w/m2/b", { Module.zero with Path := "m2", Dir := "/w/m2" }, false, false⟩
      else if s = "\x7bc\x7d".data then some ⟨"c", "/go/src/c", Module.zero, true, true⟩
      else none }

/-- The analyzer after `listingSample`, decoded by `envWorkspace`, was reconciled with
`analyzerCycle`: the standard module and the two local modules `m1` and `m2`. -/
def analyzerWorkspace : CodeAnalyzer 4 :=
  { packageList := [⟨0, [1], [1], some (ModulePtr.ext 0), "/w/m1/a"⟩,
      ⟨1, [0, 2], [0], some (ModulePtr.ext 1), "/w/m2/b"⟩,
      ⟨2, [], [1], some ModulePtr.std, ""⟩, ⟨3, [], [], some ModulePtr.std, ""⟩]
    packageTable := [("a", 0), ("b", 1), ("c", 2), ("builtin", 3)]
    builtinPkg := some 3
    stdModule := some ⟨"", "go1.16", "/go/src", [3, 2], 0, "go1.16", "/go",
      "https://github.com/golang/go", "/src/"⟩
    wdModule := some (ModulePtr.ext 1)
    toolchainModule := none
    nonToolchainModules := [⟨"m1", "", "/w/m1", [0], 1, "", "", "https://example.org/m1", ""⟩,
      ⟨"m2", "", "/w/m2", [1], 2, "", "", "https://example.org/m2", ""⟩]
    modulesByPath := [("std", ModulePtr.std), ("m1", ModulePtr.ext 0), ("m2", ModulePtr.ext 1)] }

/-- The number of distinct non-empty module paths among the records: the capacity of the
module array as the specification describes it, to be compared with `len(modulesNumPkgs)`
of line 431. -/
def distinctModulePaths (rs : List ListedPkg) : Nat :=
  (((rs.map (fun p => p.Module.Path)).filter (fun k => decide (k ≠ ""))).dedup).length

/-- The analyzer after the first `k` iterations of the second pass (lines 431-481): the module
tables are allocated for the tally `t` of the first pass, then `k` records are reconciled. -/
def secondPassPrefix {n : Nat} (env : Env) (hasToolchain : Bool) (t : Tally)
    (d : CodeAnalyzer n) (k : Nat) : Option (CodeAnalyzer n) :=
  match registerFixedModules env hasToolchain t d with
  | none => none
  | some r => (t.pkgs.take k).foldlM (reconcileRecord env) r.2

/-- The tally of the first pass over `listingSample` decoded by `envWorkspace`. -/
def tallyWorkspace : Tally :=
  { pkgs := [⟨"a", "/w/m1/a", { Module.zero with Path := "m1", Dir := "/w/m1" }, false, false⟩,
      ⟨"b", "/w/m2/b", { Module.zero with Path := "m2", Dir := "/w/m2" }, false, false⟩,
      ⟨"c", "/go/src/c", Module.zero, true, true⟩]
    numToolchainPkgs := 0
    modulesNumPkgs := [("m1", 1), ("m2", 1)] }

/-- The analyzer after the first iteration of the second pass over `tallyWorkspace`, started on
`analyzerCycle`: the module `m1` is registered and holds the package `a`. -/
def analyzerWorkspaceFirst : CodeAnalyzer 4 :=
  { packageList := [⟨0, [1], [1], some (ModulePtr.ext 0), "/w/m1/a"⟩,
      ⟨1, [0, 2], [0], none, ""⟩,
      ⟨2, [], [1], some ModulePtr.std, ""⟩, ⟨3, [], [], some ModulePtr.std, ""⟩]
    packageTable := [("a", 0), ("b", 1), ("c", 2), ("builtin", 3)]
    builtinPkg := some 3
    stdModule := some ⟨"", "", "", [3, 2], 0, "", "", "", ""⟩
    wdModule := none
    toolchainModule := none
    nonToolchainModules := [⟨"m1", "", "/w/m1", [0], 1, "", "", "", ""⟩]
    modulesByPath := [("std", ModulePtr.std), ("m1", ModulePtr.ext 0)] }

/-- The directory `dir` lies under the directory `root`: it is `root` itself or a path below
it, that is, `root` followed by a separator and more.  This is the reading of the
specification, to be compared with the test `strings.HasPrefix(p.Dir, toolchainPath)` of
lines 402 and 465. -/
def underDir (root dir : String) : Bool :=
  decide (dir = root) || HasPrefix dir (root ++ "/")

/-- A callback that writes the index of the module it receives. -/
def callbackResetIndex : Module → Module :=
  fun m => { m with Index := 0 }

/-- A callback that writes the path of the module it receives. -/
def callbackSamePath : Module → Module :=
  fun m => { m with Path := "x" }

/-- A listing that names the toolchain package `b` twice. -/
def listingToolchainTwice : List Char := "\x7bb\x7d\n\x7bb\x7d".data

/-! # Theorems -/

/-! ## Go maps -/

theorem GoMap.get_set_self {V : Type} (m : GoMap V) (k : String) (v : V) :
    (m.set k v).get k = some v := by
  induction m with
  | nil => simp [GoMap.set, GoMap.get]
  | cons e r ih =>
    obtain ⟨k', v'⟩ := e
    by_cases h : k' = k
    · simp [GoMap.set, GoMap.get, h]
    · simp [GoMap.set, GoMap.get, h, ih]

theorem GoMap.get_set_ne {V : Type} (m : GoMap V) (k k1 : String) (v : V) (h : k ≠ k1) :
    (m.set k v).get k1 = m.get k1 := by
  induction m with
  | nil => simp [GoMap.set, GoMap.get, h]
  | cons e r ih =>
    obtain ⟨k', v'⟩ := e
    by_cases h1 : k' = k
    · subst h1
      simp [GoMap.set, GoMap.get, h]
    · by_cases h2 : k' = k1
      · subst h2
        simp [GoMap.set, GoMap.get, h1]
      · simp [GoMap.set, GoMap.get, h1, h2, ih]

theorem GoMap.get_set {V : Type} (m : GoMap V) (k k1 : String) (v : V) :
    (m.set k v).get k1 = if k = k1 then some v else m.get k1 := by
  by_cases h : k = k1
  · subst h
    simp [GoMap.get_set_self]
  · simp [h, GoMap.get_set_ne m k k1 v h]

theorem GoMap.mem_keys_iff {V : Type} (m : GoMap V) (k : String) :
    k ∈ m.keys ↔ ∃ v, m.get k = some v := by
  induction m with
  | nil => simp [GoMap.keys, GoMap.get]
  | cons e r ih =>
    obtain ⟨k', v'⟩ := e
    simp only [GoMap.keys, List.map_cons, List.mem_cons, GoMap.get] at ih ⊢
    by_cases h : k' = k
    · simp [h]
    · simp only [h, if_false]
      rw [← ih]
      constructor
      · rintro (h1 | h1)
        · exact absurd h1.symm h
        · exact h1
      · intro h1
        exact Or.inr h1

theorem GoMap.not_mem_keys_iff {V : Type} (m : GoMap V) (k : String) :
    k ∉ m.keys ↔ m.get k = none := by
  rw [GoMap.mem_keys_iff]
  cases h : m.get k <;> simp

theorem GoMap.mem_of_get {V : Type} (m : GoMap V) (k : String) (v : V)
    (h : m.get k = some v) : (k, v) ∈ m := by
  induction m with
  | nil => simp [GoMap.get] at h
  | cons e r ih =>
    obtain ⟨k', v'⟩ := e
    by_cases h1 : k' = k
    · simp [GoMap.get, h1] at h
      simp [h1, h]
    · simp [GoMap.get, h1] at h
      exact List.mem_cons_of_mem _ (ih h)

theorem GoMap.get_of_mem {V : Type} (m : GoMap V) (hnd : m.keys.Nodup) (k : String) (v : V)
    (h : (k, v) ∈ m) : m.get k = some v := by
  induction m with
  | nil => simp at h
  | cons e r ih =>
    obtain ⟨k', v'⟩ := e
    simp only [GoMap.keys, List.map_cons, List.nodup_cons] at hnd
    rcases List.mem_cons.mp h with h1 | h1
    · simp only [Prod.mk.injEq] at h1
      simp [GoMap.get, h1.1, h1.2]
    · have hk : k' ≠ k := by
        intro hk
        apply hnd.1
        rw [hk]
        exact List.mem_map.mpr ⟨(k, v), h1, rfl⟩
      simp only [GoMap.get, hk, if_false]
      exact ih hnd.2 h1

theorem GoMap.keys_set {V : Type} (m : GoMap V) (k : String) (v : V) :
    (m.set k v).keys = if k ∈ m.keys then m.keys else m.keys ++ [k] := by
  induction m with
  | nil => simp [GoMap.set, GoMap.keys]
  | cons e r ih =>
    obtain ⟨k', v'⟩ := e
    simp only [GoMap.keys] at ih
    by_cases h : k' = k
    · simp [GoMap.set, GoMap.keys, h]
    · have h2 : ¬ k = k' := fun hh => h hh.symm
      simp only [GoMap.set, GoMap.keys, h, if_false, List.map_cons, List.mem_cons, h2, false_or,
        ih]
      split <;> simp

theorem GoMap.nodup_keys_set {V : Type} (m : GoMap V) (k : String) (v : V)
    (h : m.keys.Nodup) : (m.set k v).keys.Nodup := by
  rw [GoMap.keys_set]
  split
  · exact h
  · rename_i hk
    rw [List.nodup_append]
    refine ⟨h, List.nodup_singleton k, ?_⟩
    intro a ha hb
    simp only [List.mem_singleton] at hb
    exact hk (hb ▸ ha)

theorem GoMap.length_set {V : Type} (m : GoMap V) (k : String) (v : V) :
    (m.set k v).length = if k ∈ m.keys then m.length else m.length + 1 := by
  have h := congrArg List.length (GoMap.keys_set m k v)
  have h1 : (m.set k v).keys.length = (m.set k v).length := by simp [GoMap.keys]
  have h2 : m.keys.length = m.length := by simp [GoMap.keys]
  rw [← h1, h]
  split <;> simp [h2]

/-! ## The collection of the oracle's packages -/

theorem Grows.refl {n : Nat} (heap : Fin n → PPackage n) (roots : List (Fin n))
    (m : GoMap (Fin n)) : Grows heap roots m m :=
  ⟨fun _ _ h => h, fun k p h h0 => by rw [h0] at h; cases h⟩

theorem Grows.trans {n : Nat} {heap : Fin n → PPackage n} {roots : List (Fin n)}
    {m1 m2 m3 : GoMap (Fin n)} (h12 : Grows heap roots m1 m2) (h23 : Grows heap roots m2 m3) :
    Grows heap roots m1 m3 := by
  refine ⟨fun k p h => h23.mono k p (h12.mono k p h), ?_⟩
  intro k p h3 h1
  cases h2 : m2.get k with
  | none => exact h23.fresh k p h3 h2
  | some p2 =>
    have hp : p2 = p := by
      have := h23.mono k p2 h2
      rw [h3] at this
      exact (Option.some.inj this).symm
    subst hp
    obtain ⟨hk, hr, hi⟩ := h12.fresh k p2 h2 h1
    refine ⟨hk, hr, fun q hq => ?_⟩
    obtain ⟨x, hx⟩ := Option.isSome_iff_exists.mp (hi q hq)
    rw [h23.mono _ _ hx]
    rfl

theorem unvisited_le_of_mono {n : Nat} (heap : Fin n → PPackage n) (m m' : GoMap (Fin n))
    (h : ∀ k p, m.get k = some p → m'.get k = some p) :
    unvisited heap m' ≤ unvisited heap m := by
  apply Finset.card_le_card
  intro i hi
  simp only [Finset.mem_filter, Finset.mem_univ, true_and] at hi ⊢
  cases hm : m.get (heap i).PkgPath with
  | none => rfl
  | some p =>
    rw [h _ _ hm] at hi
    cases hi

theorem unvisited_set_lt {n : Nat} (heap : Fin n → PPackage n) (m : GoMap (Fin n)) (p : Fin n)
    (h : m.get (heap p).PkgPath = none) :
    unvisited heap (m.set (heap p).PkgPath p) < unvisited heap m := by
  apply Finset.card_lt_card
  rw [Finset.ssubset_iff_of_subset]
  · refine ⟨p, ?_, ?_⟩
    · simp [h]
    · simp [GoMap.get_set_self]
  · intro i hi
    simp only [Finset.mem_filter, Finset.mem_univ, true_and] at hi ⊢
    rw [GoMap.get_set] at hi
    split at hi
    · cases hi
    · exact hi

theorem unvisited_le {n : Nat} (heap : Fin n → PPackage n) (m : GoMap (Fin n)) :
    unvisited heap m ≤ n := by
  have h := Finset.card_filter_le (Finset.univ : Finset (Fin n))
    (fun i : Fin n => m.get (heap i).PkgPath = none)
  simpa [unvisited] using h

/-- The loop over the imports inside `regPkgs`, given that the recursive calls behave. -/
theorem regImports_spec {n : Nat} (heap : Fin n → PPackage n) (roots : List (Fin n))
    (fuel : Nat)
    (ih : ∀ (m : GoMap (Fin n)) (p : Fin n), unvisited heap m < fuel → Reachable heap roots p →
      ∃ m', regPkgs heap fuel m p = some m' ∧ Grows heap roots m m' ∧
        (m'.get (heap p).PkgPath).isSome)
    (qs : List (Fin n)) :
    ∀ (m : GoMap (Fin n)), unvisited heap m < fuel → (∀ q ∈ qs, Reachable heap roots q) →
      ∃ m', qs.foldlM (fun acc p => regPkgs heap fuel acc p) m = some m' ∧
        Grows heap roots m m' ∧ ∀ q ∈ qs, (m'.get (heap q).PkgPath).isSome := by
  induction qs with
  | nil =>
    intro m _ _
    exact ⟨m, by simp, Grows.refl heap roots m, by simp⟩
  | cons q qs ihq =>
    intro m hm hr
    obtain ⟨m1, h1, g1, s1⟩ := ih m q hm (hr q (List.mem_cons_self q qs))
    have hm1 : unvisited heap m1 < fuel :=
      lt_of_le_of_lt (unvisited_le_of_mono heap m m1 g1.mono) hm
    obtain ⟨m2, h2, g2, s2⟩ := ihq m1 hm1 (fun x hx => hr x (List.mem_cons_of_mem q hx))
    refine ⟨m2, ?_, g1.trans g2, ?_⟩
    · simp [List.foldlM_cons, h1, h2]
    · intro x hx
      rcases List.mem_cons.mp hx with hx | hx
      · subst hx
        obtain ⟨y, hy⟩ := Option.isSome_iff_exists.mp s1
        rw [g2.mono _ _ hy]
        rfl
      · exact s2 x hx

/-- A call of `regPkgs` with enough fuel returns, and its result extends the map by reachable
packages whose imports are all registered. -/
theorem regPkgs_spec {n : Nat} (heap : Fin n → PPackage n) (roots : List (Fin n)) (fuel : Nat) :
    ∀ (m : GoMap (Fin n)) (p : Fin n), unvisited heap m < fuel → Reachable heap roots p →
      ∃ m', regPkgs heap fuel m p = some m' ∧ Grows heap roots m m' ∧
        (m'.get (heap p).PkgPath).isSome := by
  induction fuel with
  | zero =>
    intro m p h
    exact absurd h (Nat.not_lt_zero _)
  | succ f ih =>
    intro m p hm hr
    cases hget : m.get (heap p).PkgPath with
    | some x =>
      refine ⟨m, ?_, Grows.refl heap roots m, ?_⟩
      · simp [regPkgs, hget]
      · simp [hget]
    | none =>
      have hlt : unvisited heap (m.set (heap p).PkgPath p) < f := by
        have := unvisited_set_lt heap m p hget
        omega
      obtain ⟨m', h1, g1, s1⟩ := regImports_spec heap roots f ih (heap p).Imports
        (m.set (heap p).PkgPath p) hlt (fun q hq => Reachable.step hr hq)
      have hp : m'.get (heap p).PkgPath = some p :=
        g1.mono _ _ (GoMap.get_set_self m _ p)
      refine ⟨m', ?_, ⟨?_, ?_⟩, ?_⟩
      · simp [regPkgs, hget, h1]
      · intro k x hx
        apply g1.mono
        rw [GoMap.get_set]
        split
        · rename_i hk
          rw [← hk, hget] at hx
          cases hx
        · exact hx
      · intro k x hx h0
        by_cases hk : (heap p).PkgPath = k
        · subst hk
          rw [hp] at hx
          cases hx
          exact ⟨rfl, hr, s1⟩
        · apply g1.fresh k x hx
          rw [GoMap.get_set_ne _ _ _ _ hk]
          exact h0
      · simp [hp]

/-- The function `collectPPackages` never runs out of fuel; the map it returns holds the roots,
only packages reachable from the roots, each under its own path, and all imports of every
package it holds. -/
theorem collectPPackages_spec {n : Nat} (heap : Fin n → PPackage n) (roots : List (Fin n)) :
    ∃ m, collectPPackages heap roots = some m ∧
      (∀ r ∈ roots, (m.get (heap r).PkgPath).isSome) ∧
      (∀ k p, m.get k = some p → (heap p).PkgPath = k ∧ Reachable heap roots p ∧
        ∀ q ∈ (heap p).Imports, (m.get (heap q).PkgPath).isSome) := by
  have key : ∀ (qs : List (Fin n)) (m : GoMap (Fin n)), (∀ q ∈ qs, Reachable heap roots q) →
      ∃ m', qs.foldlM (fun acc p => regPkgs heap (n + 1) acc p) m = some m' ∧
        Grows heap roots m m' ∧ ∀ q ∈ qs, (m'.get (heap q).PkgPath).isSome := by
    intro qs m hq
    exact regImports_spec heap roots (n + 1) (regPkgs_spec heap roots (n + 1)) qs m
      (Nat.lt_succ_of_le (unvisited_le heap m)) hq
  obtain ⟨m, h1, g, s⟩ := key roots [] (fun q hq => Reachable.root hq)
  exact ⟨m, h1, s, fun k p hk => g.fresh k p hk rfl⟩

theorem regPkgs_nodup {n : Nat} (heap : Fin n → PPackage n) (fuel : Nat) :
    ∀ (m : GoMap (Fin n)) (p : Fin n) (m' : GoMap (Fin n)), m.keys.Nodup →
      regPkgs heap fuel m p = some m' → m'.keys.Nodup := by
  induction fuel with
  | zero =>
    intro m p m' _ h
    simp [regPkgs] at h
  | succ f ih =>
    have loop : ∀ (qs : List (Fin n)) (m m' : GoMap (Fin n)), m.keys.Nodup →
        qs.foldlM (fun acc p => regPkgs heap f acc p) m = some m' → m'.keys.Nodup := by
      intro qs
      induction qs with
      | nil =>
        intro m m' hm h
        simp only [List.foldlM_nil, pure, Option.some.injEq] at h
        exact h ▸ hm
      | cons q qs ihq =>
        intro m m' hm h
        simp only [List.foldlM_cons] at h
        cases h1 : regPkgs heap f m q with
        | none => simp [h1] at h
        | some m1 =>
          rw [h1] at h
          exact ihq m1 m' (ih m q m1 hm h1) h
    intro m p m' hm h
    simp only [regPkgs] at h
    cases hget : m.get (heap p).PkgPath with
    | some x =>
      simp only [hget, Option.some.injEq] at h
      exact h ▸ hm
    | none =>
      simp only [hget] at h
      exact loop _ _ _ (GoMap.nodup_keys_set m _ p hm) h

theorem collectPPackages_nodup {n : Nat} (heap : Fin n → PPackage n) (roots : List (Fin n))
    (m : GoMap (Fin n)) (h : collectPPackages heap roots = some m) : m.keys.Nodup := by
  have loop : ∀ (qs : List (Fin n)) (m m' : GoMap (Fin n)), m.keys.Nodup →
      qs.foldlM (fun acc p => regPkgs heap (n + 1) acc p) m = some m' → m'.keys.Nodup := by
    intro qs
    induction qs with
    | nil =>
      intro m m' hm h
      simp only [List.foldlM_nil, pure, Option.some.injEq] at h
      exact h ▸ hm
    | cons q qs ihq =>
      intro m m' hm h
      simp only [List.foldlM_cons] at h
      cases h1 : regPkgs heap (n + 1) m q with
      | none => simp [h1] at h
      | some m1 =>
        rw [h1] at h
        exact ihq m1 m' (regPkgs_nodup heap (n + 1) m q m1 hm h1) h
  exact loop roots [] m (by simp [GoMap.keys]) h

/-- C3 (as amended).  For every list of roots over every finite import graph, cyclic or not,
in which no two distinct reachable package objects share a `PkgPath`, `collectPPackages`
returns a map whose keys are exactly the paths of the packages reachable from the roots (the
roots included), each key mapped to a package whose `PkgPath` is that key. -/
theorem collectPPackages_transitive_closure {n : Nat} (heap : Fin n → PPackage n)
    (roots : List (Fin n))
    (hinj : ∀ p q, Reachable heap roots p → Reachable heap roots q →
      (heap p).PkgPath = (heap q).PkgPath → p = q) :
    ∃ m, collectPPackages heap roots = some m ∧
      (∀ k, k ∈ m.keys ↔ ∃ p, Reachable heap roots p ∧ (heap p).PkgPath = k) ∧
      (∀ k p, m.get k = some p → (heap p).PkgPath = k) := by
  obtain ⟨m, hm, hroots, hent⟩ := collectPPackages_spec heap roots
  refine ⟨m, hm, ?_, fun k p h => (hent k p h).1⟩
  have hreach : ∀ p, Reachable heap roots p → m.get (heap p).PkgPath = some p := by
    intro p hp
    induction hp with
    | root hr =>
      rename_i r
      obtain ⟨x, hx⟩ := Option.isSome_iff_exists.mp (hroots r hr)
      obtain ⟨hk, hrx, _⟩ := hent _ _ hx
      rw [hx, hinj x r hrx (Reachable.root hr) hk]
    | step hp hq ih =>
      rename_i p q
      obtain ⟨x, hx⟩ := Option.isSome_iff_exists.mp ((hent _ _ ih).2.2 q hq)
      obtain ⟨hk, hrx, _⟩ := hent _ _ hx
      rw [hx, hinj x q hrx (Reachable.step hp hq) hk]
  intro k
  rw [GoMap.mem_keys_iff]
  constructor
  · rintro ⟨p, hp⟩
    exact ⟨p, (hent k p hp).2.1, (hent k p hp).1⟩
  · rintro ⟨p, hp, hk⟩
    exact ⟨p, hk ▸ hreach p hp⟩

/-- Witness of C3: the cyclic graph `heapCycle` with root `a`. -/
theorem collectPPackages_transitive_closure_witness :
    ∃ m, collectPPackages heapCycle [0] = some m ∧
      (∀ k, k ∈ m.keys ↔ ∃ p, Reachable heapCycle [0] p ∧ (heapCycle p).PkgPath = k) ∧
      (∀ k p, m.get k = some p → (heapCycle p).PkgPath = k) :=
  collectPPackages_transitive_closure heapCycle [0]
    (fun p q _ _ h =>
      (by decide : ∀ p q : Fin 4, (heapCycle p).PkgPath = (heapCycle q).PkgPath → p = q) p q h)

/-- Counterexample to C3 as stated: with two package objects of path `a` among the roots, only
the first is followed, and the path `b`, reachable through the second, is not a key. -/
theorem collectPPackages_alias_counterexample :
    collectPPackages heapAlias [0, 1] = some [("a", 0)] ∧
      Reachable heapAlias [0, 1] 2 ∧ (heapAlias 2).PkgPath = "b" ∧
      "b" ∉ GoMap.keys [("a", (0 : Fin 3))] := by
  refine ⟨by decide, ?_, by decide, by decide⟩
  exact Reachable.step (Reachable.root (p := (1 : Fin 3)) (by decide)) (by decide)

/-! ## Writes through pointers -/

theorem length_modifyAt {α : Type} (f : α → α) (i : Nat) (l : List α) :
    (modifyAt f i l).length = l.length := by
  induction l generalizing i with
  | nil => simp [modifyAt]
  | cons a l ih =>
    cases i with
    | zero => simp [modifyAt]
    | succ i => simp [modifyAt, ih]

theorem getElem?_modifyAt {α : Type} (f : α → α) (i j : Nat) (l : List α) :
    (modifyAt f i l)[j]? = if i = j then (l[j]?).map f else l[j]? := by
  induction l generalizing i j with
  | nil => simp [modifyAt]
  | cons a l ih =>
    cases i with
    | zero =>
      cases j with
      | zero => simp [modifyAt]
      | succ j => simp [modifyAt]
    | succ i =>
      cases j with
      | zero => simp [modifyAt]
      | succ j => simp [modifyAt, ih]

theorem getElem?_modifyAt_self {α : Type} (f : α → α) (i : Nat) (l : List α) :
    (modifyAt f i l)[i]? = (l[i]?).map f := by
  simp [getElem?_modifyAt]

theorem getElem?_modifyAt_ne {α : Type} (f : α → α) (i j : Nat) (l : List α) (h : i ≠ j) :
    (modifyAt f i l)[j]? = l[j]? := by
  simp [getElem?_modifyAt, h]

/-! ## The package table -/

theorem TableInv.nil {n : Nat} (heap : Fin n → PPackage n) :
    TableInv heap [] ([] : List (Package n)) :=
  ⟨fun k i h => by simp [GoMap.get] at h, fun i pk h => by simp at h⟩

theorem registerPackage_inv {n : Nat} (heap : Fin n → PPackage n)
    (st : GoMap Nat × List (Package n)) (e : String × Fin n)
    (hinv : TableInv heap st.1 st.2) (he : (heap e.2).PkgPath = e.1) :
    TableInv heap (registerPackage heap st e).1 (registerPackage heap st e).2 := by
  obtain ⟨tb, l⟩ := st
  obtain ⟨k0, p0⟩ := e
  simp only at he hinv
  subst he
  unfold registerPackage
  cases hget : tb.get (heap p0).PkgPath with
  | none =>
    simp only
    constructor
    · intro k i h
      rw [GoMap.get_set] at h
      split at h
      · rename_i hk
        cases h
        exact ⟨newPackage p0, by simp, by simpa [newPackage] using hk⟩
      · obtain ⟨pk, h1, h2⟩ := hinv.entry k i h
        refine ⟨pk, ?_, h2⟩
        have hlt : i < l.length := by
          rcases Nat.lt_or_ge i l.length with hlt | hge
          · exact hlt
          · rw [List.getElem?_eq_none hge] at h1
            cases h1
        rw [List.getElem?_append_left hlt]
        exact h1
    · intro i pk h
      rcases Nat.lt_or_ge i l.length with hlt | hge
      · rw [List.getElem?_append_left hlt] at h
        have h1 := hinv.listed i pk h
        rw [GoMap.get_set]
        split
        · rename_i hk
          rw [← hk, hget] at h1
          cases h1
        · exact h1
      · rw [List.getElem?_append_right hge] at h
        cases hi : i - l.length with
        | zero =>
          rw [hi] at h
          simp only [List.getElem?_cons_zero, Option.some.injEq] at h
          subst h
          have : i = l.length := by omega
          subst this
          simp [newPackage, GoMap.get_set_self]
        | succ j =>
          rw [hi] at h
          simp at h
  | some i0 =>
    simp only
    obtain ⟨pk0, h0, hp0⟩ := hinv.entry _ _ hget
    constructor
    · intro k i h
      obtain ⟨pk, h1, h2⟩ := hinv.entry k i h
      by_cases hi : i0 = i
      · subst hi
        rw [h0] at h1
        cases h1
        refine ⟨{ pk0 with PPkg := p0 }, ?_, ?_⟩
        · simp [getElem?_modifyAt, h0]
        · simp only
          rw [← h2, hp0]
      · exact ⟨pk, by simp [getElem?_modifyAt, hi, h1], h2⟩
    · intro i pk h
      rw [getElem?_modifyAt] at h
      split at h
      · rename_i hi
        subst hi
        rw [h0] at h
        simp only [Option.map_some', Option.some.injEq] at h
        subst h
        exact hget
      · exact hinv.listed i pk h

theorem registerPackage_mono {n : Nat} (heap : Fin n → PPackage n)
    (st : GoMap Nat × List (Package n)) (e : String × Fin n) (k : String)
    (he : (heap e.2).PkgPath = e.1)
    (h : ((st.1.get k).isSome ∨ k = e.1)) :
    ((registerPackage heap st e).1.get k).isSome := by
  unfold registerPackage
  cases hget : st.1.get (heap e.2).PkgPath with
  | none =>
    simp only
    rw [GoMap.get_set]
    split
    · rfl
    · rename_i hk
      rcases h with h | h
      · exact h
      · exact absurd h.symm hk
  | some i =>
    simp only
    rcases h with h | h
    · exact h
    · rw [h, ← he, hget]
      rfl

theorem registerPackages_spec {n : Nat} (heap : Fin n → PPackage n)
    (es : List (String × Fin n)) (hes : ∀ e ∈ es, (heap e.2).PkgPath = e.1) :
    ∀ (st : GoMap Nat × List (Package n)), TableInv heap st.1 st.2 →
      TableInv heap (es.foldl (registerPackage heap) st).1
        (es.foldl (registerPackage heap) st).2 ∧
      ∀ k, ((st.1.get k).isSome ∨ k ∈ es.map Prod.fst) →
        (((es.foldl (registerPackage heap) st).1).get k).isSome := by
  induction es with
  | nil =>
    intro st hinv
    refine ⟨hinv, fun k hk => ?_⟩
    simpa using hk
  | cons e es ih =>
    intro st hinv
    have he := hes e (List.mem_cons_self e es)
    obtain ⟨h1, h2⟩ := ih (fun x hx => hes x (List.mem_cons_of_mem e hx))
      (registerPackage heap st e) (registerPackage_inv heap st e hinv he)
    refine ⟨h1, fun k hk => ?_⟩
    apply h2
    simp only [List.map_cons, List.mem_cons] at hk
    rcases hk with hk | hk | hk
    · exact Or.inl (registerPackage_mono heap st e k he (Or.inl hk))
    · exact Or.inl (registerPackage_mono heap st e k he (Or.inr hk))
    · exact Or.inr hk

/-! ## The forward and backward edges -/

theorem resolveDeps_loop {n : Nat} (heap : Fin n → PPackage n) (tb : GoMap Nat)
    (imports : List (Fin n)) :
    ∀ (acc r : List Nat),
      imports.foldlM (fun deps ppkg =>
        match tb.get (heap ppkg).PkgPath with
        | none => none
        | some depPkg => some (deps ++ [depPkg])) acc = some r →
      ∃ ds, r = acc ++ ds ∧
        ds.map some = imports.map (fun q => tb.get (heap q).PkgPath) := by
  induction imports with
  | nil =>
    intro acc r h
    simp only [List.foldlM_nil, pure, Option.some.injEq] at h
    exact ⟨[], by simp [h], by simp⟩
  | cons q qs ih =>
    intro acc r h
    simp only [List.foldlM_cons] at h
    cases hq : tb.get (heap q).PkgPath with
    | none => simp [hq] at h
    | some dep =>
      simp only [hq, Option.some_bind, Option.bind_eq_bind] at h
      obtain ⟨ds, h1, h2⟩ := ih (acc ++ [dep]) r h
      exact ⟨dep :: ds, by simp [h1], by simp [hq, h2]⟩

theorem resolveDeps_eq {n : Nat} (heap : Fin n → PPackage n) (tb : GoMap Nat)
    (imports : List (Fin n)) (ds : List Nat) (h : resolveDeps heap tb imports = some ds) :
    ds.map some = imports.map (fun q => tb.get (heap q).PkgPath) := by
  obtain ⟨ds1, h1, h2⟩ := resolveDeps_loop heap tb imports [] ds h
  simp only [List.nil_append] at h1
  rw [h1]
  exact h2

/-- When every import is a key of the table, the panic of line 314 does not fire. -/
theorem resolveDeps_isSome {n : Nat} (heap : Fin n → PPackage n) (tb : GoMap Nat)
    (imports : List (Fin n)) (h : ∀ q ∈ imports, (tb.get (heap q).PkgPath).isSome) :
    (resolveDeps heap tb imports).isSome := by
  have key : ∀ (qs : List (Fin n)) (acc : List Nat),
      (∀ q ∈ qs, (tb.get (heap q).PkgPath).isSome) →
      (qs.foldlM (fun deps ppkg =>
        match tb.get (heap ppkg).PkgPath with
        | none => none
        | some depPkg => some (deps ++ [depPkg])) acc).isSome := by
    intro qs
    induction qs with
    | nil =>
      intro acc _
      simp
    | cons q qs ih =>
      intro acc hq
      obtain ⟨x, hx⟩ := Option.isSome_iff_exists.mp (hq q (List.mem_cons_self q qs))
      simp only [List.foldlM_cons, hx, Option.some_bind, Option.bind_eq_bind]
      exact ih _ (fun y hy => hq y (List.mem_cons_of_mem q hy))
  exact key imports [] h

theorem buildDeps_spec {n : Nat} (heap : Fin n → PPackage n) (tb : GoMap Nat)
    (l : List (Package n)) :
    ∀ (r : List (Package n)), buildDeps heap tb l = some r →
      r.length = l.length ∧
      ∀ (i : Nat) (pk : Package n), l[i]? = some pk → ∃ ds,
        resolveDeps heap tb (heap pk.PPkg).Imports = some ds ∧
        r[i]? = some { pk with Deps := ds } := by
  induction l with
  | nil =>
    intro r h
    simp only [buildDeps, Option.some.injEq] at h
    subst h
    simp
  | cons a l ih =>
    intro r h
    simp only [buildDeps] at h
    cases ha : resolveDeps heap tb (heap a.PPkg).Imports with
    | none => simp [ha] at h
    | some ds =>
      cases hl : buildDeps heap tb l with
      | none => simp [ha, hl] at h
      | some r1 =>
        simp only [ha, hl, Option.some.injEq] at h
        subst h
        obtain ⟨h1, h2⟩ := ih r1 hl
        refine ⟨by simp [h1], ?_⟩
        intro i pk hi
        cases i with
        | zero =>
          simp only [List.getElem?_cons_zero, Option.some.injEq] at hi
          subst hi
          exact ⟨ds, ha, by simp⟩
        | succ i =>
          simp only [List.getElem?_cons_succ] at hi
          obtain ⟨ds1, h3, h4⟩ := h2 i pk hi
          exact ⟨ds1, h3, by simpa using h4⟩

theorem buildDeps_isSome {n : Nat} (heap : Fin n → PPackage n) (tb : GoMap Nat)
    (l : List (Package n))
    (h : ∀ pk ∈ l, ∀ q ∈ (heap pk.PPkg).Imports, (tb.get (heap q).PkgPath).isSome) :
    (buildDeps heap tb l).isSome := by
  induction l with
  | nil => simp [buildDeps]
  | cons a l ih =>
    obtain ⟨ds, hds⟩ := Option.isSome_iff_exists.mp
      (resolveDeps_isSome heap tb (heap a.PPkg).Imports (h a (List.mem_cons_self a l)))
    obtain ⟨r, hr⟩ := Option.isSome_iff_exists.mp
      (ih (fun pk hpk => h pk (List.mem_cons_of_mem a hpk)))
    simp [buildDeps, hds, hr]

theorem addDepedBys_spec {n : Nat} (k : Nat) (ds : List Nat) :
    ∀ (st : List (Package n)),
      (ds.foldl (fun st1 dep => addDepedBy st1 k dep) st).length = st.length ∧
      ∀ (i : Nat) (pk : Package n), st[i]? = some pk →
        (ds.foldl (fun st1 dep => addDepedBy st1 k dep) st)[i]? =
          some { pk with DepedBys := pk.DepedBys ++ List.replicate (ds.count i) k } := by
  induction ds with
  | nil =>
    intro st
    refine ⟨rfl, fun i pk h => ?_⟩
    simp [h]
  | cons dep ds ih =>
    intro st
    obtain ⟨h1, h2⟩ := ih (addDepedBy st k dep)
    simp only [List.foldl_cons]
    refine ⟨by rw [h1]; simp [addDepedBy, length_modifyAt], fun i pk h => ?_⟩
    by_cases hd : dep = i
    · subst hd
      have h3 : (addDepedBy st k dep)[dep]? =
          some { pk with DepedBys := pk.DepedBys ++ [k] } := by
        simp [addDepedBy, getElem?_modifyAt, h]
      rw [h2 dep _ h3]
      simp [List.replicate_succ]
    · have h3 : (addDepedBy st k dep)[i]? = some pk := by
        simp [addDepedBy, getElem?_modifyAt, hd, h]
      rw [h2 i _ h3]
      simp [List.count_cons, hd]

theorem buildDepedBys_loop {n : Nat} (l : List (Package n)) (k : Nat) (hk : k ≤ l.length) :
    ((List.range k).foldl (fun st i =>
        match st[i]? with
        | none => st
        | some pk => pk.Deps.foldl (fun st1 dep => addDepedBy st1 i dep) st)
      (l.map (fun pk => { pk with DepedBys := [] }))).length = l.length ∧
    ∀ (i : Nat) (pk : Package n), l[i]? = some pk → ∃ bys,
      ((List.range k).foldl (fun st i =>
        match st[i]? with
        | none => st
        | some pk => pk.Deps.foldl (fun st1 dep => addDepedBy st1 i dep) st)
      (l.map (fun pk => { pk with DepedBys := [] })))[i]? =
        some { pk with DepedBys := bys } ∧
      (∀ (j : Nat) (pj : Package n), l[j]? = some pj →
        bys.count j = if j < k then pj.Deps.count i else 0) ∧
      ∀ x ∈ bys, x < k := by
  induction k with
  | zero =>
    refine ⟨by simp, fun i pk h => ⟨[], by simp [h], fun j pj _ => by simp, by simp⟩⟩
  | succ k ih =>
    obtain ⟨h1, h2⟩ := ih (Nat.le_of_succ_le hk)
    rw [List.range_succ, List.foldl_append]
    simp only [List.foldl_cons, List.foldl_nil]
    have hkl : k < l.length := hk
    obtain ⟨bk, hbk, _⟩ := h2 k l[k] (List.getElem?_eq_getElem hkl)
    rw [hbk]
    simp only
    obtain ⟨h3, h4⟩ := addDepedBys_spec (n := n) k l[k].Deps
      ((List.range k).foldl (fun st i =>
        match st[i]? with
        | none => st
        | some pk => pk.Deps.foldl (fun st1 dep => addDepedBy st1 i dep) st)
      (l.map (fun pk => { pk with DepedBys := [] })))
    refine ⟨by rw [h3, h1], fun i pk h => ?_⟩
    obtain ⟨bys, hb1, hb2, hb3⟩ := h2 i pk h
    refine ⟨bys ++ List.replicate (l[k].Deps.count i) k, ?_, ?_, ?_⟩
    · rw [h4 i _ hb1]
    · intro j pj hj
      rw [List.count_append, hb2 j pj hj, List.count_replicate]
      by_cases hjk : j = k
      · subst hjk
        have : pj = l[j] := by
          rw [List.getElem?_eq_getElem hkl] at hj
          exact (Option.some.inj hj).symm
        subst this
        simp
      · have hne : ¬ k = j := fun hh => hjk hh.symm
        by_cases hlt : j < k
        · have : j < k + 1 := Nat.lt_succ_of_lt hlt
          simp [hlt, this, hne]
        · have : ¬ j < k + 1 := by omega
          simp [hlt, this, hne]
    · intro x hx
      rcases List.mem_append.mp hx with hx | hx
      · exact Nat.lt_succ_of_lt (hb3 x hx)
      · rw [(List.mem_replicate.mp hx).2]
        exact Nat.lt_succ_self k

theorem buildDepedBys_spec {n : Nat} (l : List (Package n)) :
    (buildDepedBys l).length = l.length ∧
    ∀ (i : Nat) (pk : Package n), l[i]? = some pk → ∃ bys,
      (buildDepedBys l)[i]? = some { pk with DepedBys := bys } ∧
      (∀ (j : Nat) (pj : Package n), l[j]? = some pj → bys.count j = pj.Deps.count i) ∧
      ∀ x ∈ bys, x < l.length := by
  obtain ⟨h1, h2⟩ := buildDepedBys_loop l l.length (Nat.le_refl _)
  refine ⟨h1, fun i pk h => ?_⟩
  obtain ⟨bys, hb1, hb2, hb3⟩ := h2 i pk h
  refine ⟨bys, hb1, fun j pj hj => ?_, hb3⟩
  rw [hb2 j pj hj]
  have hlt : j < l.length := by
    rcases Nat.lt_or_ge j l.length with hlt | hge
    · exact hlt
    · rw [List.getElem?_eq_none hge] at hj
      cases hj
  simp [hlt]

/-! ## The package graph -/

theorem registerPackage_fresh {n : Nat} (heap : Fin n → PPackage n)
    (es : List (String × Fin n)) :
    ∀ (st : GoMap Nat × List (Package n)),
      (∀ (i : Nat) (pk : Package n), st.2[i]? = some pk → pk.Module = none ∧ pk.Directory = "") →
      ∀ (i : Nat) (pk : Package n), (es.foldl (registerPackage heap) st).2[i]? = some pk →
        pk.Module = none ∧ pk.Directory = "" := by
  induction es with
  | nil =>
    intro st h
    exact h
  | cons e es ih =>
    intro st h
    apply ih
    intro i pk hi
    unfold registerPackage at hi
    cases hget : st.1.get (heap e.2).PkgPath with
    | none =>
      simp only [hget] at hi
      rcases Nat.lt_or_ge i st.2.length with hlt | hge
      · rw [List.getElem?_append_left hlt] at hi
        exact h i pk hi
      · rw [List.getElem?_append_right hge] at hi
        cases hj : i - st.2.length with
        | zero =>
          rw [hj] at hi
          simp only [List.getElem?_cons_zero, Option.some.injEq] at hi
          subst hi
          simp [newPackage]
        | succ j =>
          rw [hj] at hi
          simp at hi
    | some i0 =>
      simp only [hget] at hi
      rw [getElem?_modifyAt] at hi
      split at hi
      · cases hx : st.2[i]? with
        | none => simp [hx] at hi
        | some x =>
          simp only [hx, Option.map_some', Option.some.injEq] at hi
          subst hi
          exact h i x hx
      · exact h i pk hi

/-- What the graph-building step leaves behind: the table and the list agree, every key of
`allPPkgs` is in the table, the packages carry no module and no directory, every `Deps` is the
list of the table entries of the imports, and `DepedBys` mirrors `Deps` with multiplicities. -/
theorem buildPackageGraph_spec {n : Nat} (heap : Fin n → PPackage n)
    (shuffle : GoMap (Fin n) → GoMap (Fin n)) (ppkgs : List (Fin n)) (builtinPPkg : Fin n)
    (d0 d : CodeAnalyzer n) (hperm : ∀ m, (shuffle m).Perm m)
    (h : buildPackageGraph heap shuffle ppkgs builtinPPkg d0 = some d) :
    TableInv heap d.packageTable d.packageList ∧
    (∀ (i : Nat) (pk : Package n), d.packageList[i]? = some pk →
      pk.Module = none ∧ pk.Directory = "" ∧
      pk.Deps.map some =
        (heap pk.PPkg).Imports.map (fun q => d.packageTable.get (heap q).PkgPath)) ∧
    (∀ (i j : Nat) (P Q : Package n), d.packageList[i]? = some P → d.packageList[j]? = some Q →
      Q.DepedBys.count i = P.Deps.count j) ∧
    (∀ (j : Nat) (Q : Package n), d.packageList[j]? = some Q →
      ∀ x ∈ Q.DepedBys, x < d.packageList.length) ∧
    (∃ m, collectPPackages heap ppkgs = some m ∧
      ∀ k, (k ∈ m.keys ∨ k = (heap builtinPPkg).PkgPath) → (d.packageTable.get k).isSome) ∧
    d.stdModule = d0.stdModule ∧ d.wdModule = d0.wdModule ∧
    d.toolchainModule = d0.toolchainModule ∧
    d.nonToolchainModules = d0.nonToolchainModules ∧ d.modulesByPath = d0.modulesByPath := by
  unfold buildPackageGraph at h
  obtain ⟨m, hm, _, hent⟩ := collectPPackages_spec heap ppkgs
  have hnd := collectPPackages_nodup heap ppkgs m hm
  rw [hm] at h
  simp only at h
  have hes : ∀ e ∈ shuffle (m.set (heap builtinPPkg).PkgPath builtinPPkg),
      (heap e.2).PkgPath = e.1 := by
    intro e he
    have he1 := (hperm _).mem_iff.mp he
    have he2 := GoMap.get_of_mem _ (GoMap.nodup_keys_set m _ builtinPPkg hnd) e.1 e.2 he1
    rw [GoMap.get_set] at he2
    split at he2
    · rename_i hk
      cases he2
      exact hk
    · exact (hent _ _ he2).1
  obtain ⟨hinv, hkeys⟩ := registerPackages_spec heap _ hes ([], []) (TableInv.nil heap)
  have hfresh := registerPackage_fresh heap
    (shuffle (m.set (heap builtinPPkg).PkgPath builtinPPkg)) ([], [])
    (fun i pk hi => by simp at hi)
  generalize (shuffle (m.set (heap builtinPPkg).PkgPath builtinPPkg)).foldl
    (registerPackage heap) ([], []) = st at h hinv hkeys hfresh
  obtain ⟨tb, l0⟩ := st
  simp only at h hinv hkeys hfresh
  cases hl : buildDeps heap tb l0 with
  | none => simp [hl] at h
  | some l =>
    simp only [hl, Option.some.injEq] at h
    subst h
    obtain ⟨hlen1, hdeps⟩ := buildDeps_spec heap tb l0 l hl
    obtain ⟨hlen2, hbys⟩ := buildDepedBys_spec l
    have view : ∀ (i : Nat) (pk : Package n), (buildDepedBys l)[i]? = some pk →
        ∃ pk0 ds bys, l0[i]? = some pk0 ∧
          resolveDeps heap tb (heap pk0.PPkg).Imports = some ds ∧
          l[i]? = some { pk0 with Deps := ds } ∧
          pk = { pk0 with Deps := ds, DepedBys := bys } ∧
          (∀ (j : Nat) (pj : Package n), l[j]? = some pj → bys.count j = pj.Deps.count i) ∧
          ∀ x ∈ bys, x < l.length := by
      intro i pk hi
      have hlt : i < l0.length := by
        rcases Nat.lt_or_ge i l0.length with hlt | hge
        · exact hlt
        · rw [List.getElem?_eq_none (by omega)] at hi
          cases hi
      obtain ⟨ds, hds, hli⟩ := hdeps i l0[i] (List.getElem?_eq_getElem hlt)
      obtain ⟨bys, hb1, hb2, hb3⟩ := hbys i _ hli
      rw [hb1] at hi
      exact ⟨l0[i], ds, bys, List.getElem?_eq_getElem hlt, hds, hli, (Option.some.inj hi).symm,
        hb2, hb3⟩
    refine ⟨⟨?_, ?_⟩, ?_, ?_, ?_, ⟨m, hm, ?_⟩, rfl, rfl, rfl, rfl, rfl⟩
    · intro k i hk
      obtain ⟨pk0, h0, hp0⟩ := hinv.entry k i hk
      obtain ⟨ds, _, hli⟩ := hdeps i pk0 h0
      obtain ⟨bys, hb1, _⟩ := hbys i _ hli
      exact ⟨_, hb1, hp0⟩
    · intro i pk hi
      obtain ⟨pk0, ds, bys, h0, _, _, hpk, _⟩ := view i pk hi
      subst hpk
      exact hinv.listed i pk0 h0
    · intro i pk hi
      obtain ⟨pk0, ds, bys, h0, hds, _, hpk, _⟩ := view i pk hi
      subst hpk
      exact ⟨(hfresh i pk0 h0).1, (hfresh i pk0 h0).2, resolveDeps_eq heap tb _ ds hds⟩
    · intro i j P Q hP hQ
      obtain ⟨p0, dsP, bysP, _, _, hlP, hPeq, _⟩ := view i P hP
      obtain ⟨q0, dsQ, bysQ, _, _, _, hQeq, hcQ, _⟩ := view j Q hQ
      subst hPeq
      subst hQeq
      simp only
      rw [hcQ i _ hlP]
    · intro j Q hQ x hx
      obtain ⟨q0, dsQ, bysQ, _, _, _, hQeq, _, hlt⟩ := view j Q hQ
      subst hQeq
      rw [hlen2]
      exact hlt x hx
    · intro k hk
      apply hkeys
      right
      have : k ∈ (m.set (heap builtinPPkg).PkgPath builtinPPkg).keys := by
        rw [GoMap.keys_set]
        rcases hk with hk | hk
        · split
          · exact hk
          · exact List.mem_append_left _ hk
        · subst hk
          split
          · assumption
          · simp
      obtain ⟨v, hv⟩ := (GoMap.mem_keys_iff _ k).mp this
      have hmem := (hperm _).mem_iff.mpr (GoMap.mem_of_get _ k v hv)
      exact List.mem_map.mpr ⟨(k, v), hmem, rfl⟩

/-- C1.  Closure: when the graph-building step of `ParsePackages` completes, the package table
and the package list hold the same packages, each stored under its own import path, and every
element of the `Deps` of every such package is a package stored in the table under its
own import path. -/
theorem deps_closed_in_table {n : Nat} (heap : Fin n → PPackage n)
    (shuffle : GoMap (Fin n) → GoMap (Fin n)) (ppkgs : List (Fin n)) (builtinPPkg : Fin n)
    (d0 d : CodeAnalyzer n) (hperm : ∀ m, (shuffle m).Perm m)
    (h : buildPackageGraph heap shuffle ppkgs builtinPPkg d0 = some d) :
    (∀ (k : String) (i : Nat), d.packageTable.get k = some i →
      ∃ P, d.packageList[i]? = some P ∧ (heap P.PPkg).PkgPath = k) ∧
    (∀ (i : Nat) (P : Package n), d.packageList[i]? = some P →
      d.packageTable.get (heap P.PPkg).PkgPath = some i ∧
      ∀ q ∈ P.Deps, ∃ Q, d.packageList[q]? = some Q ∧
        d.packageTable.get (heap Q.PPkg).PkgPath = some q) := by
  obtain ⟨hinv, hpk, _⟩ := buildPackageGraph_spec heap shuffle ppkgs builtinPPkg d0 d hperm h
  refine ⟨hinv.entry, fun i P hP => ⟨hinv.listed i P hP, fun q hq => ?_⟩⟩
  have hmem : some q ∈ P.Deps.map some := List.mem_map.mpr ⟨q, hq, rfl⟩
  rw [(hpk i P hP).2.2] at hmem
  obtain ⟨imp, _, himp⟩ := List.mem_map.mp hmem
  obtain ⟨Q, hQ, _⟩ := hinv.entry _ _ himp
  exact ⟨Q, hQ, hinv.listed q Q hQ⟩

/-- Witness of C1: the cyclic graph `heapCycle` with root `a`. -/
theorem deps_closed_in_table_witness :
    (∀ m : GoMap (Fin 4), (id m).Perm m) ∧
    buildPackageGraph heapCycle id [0] 3 (CodeAnalyzer.empty 4) = some graphCycle ∧
    (∀ (k : String) (i : Nat), graphCycle.packageTable.get k = some i →
      ∃ P, graphCycle.packageList[i]? = some P ∧ (heapCycle P.PPkg).PkgPath = k) ∧
    (∀ (i : Nat) (P : Package 4), graphCycle.packageList[i]? = some P →
      graphCycle.packageTable.get (heapCycle P.PPkg).PkgPath = some i ∧
      ∀ q ∈ P.Deps, ∃ Q, graphCycle.packageList[q]? = some Q ∧
        graphCycle.packageTable.get (heapCycle Q.PPkg).PkgPath = some q) :=
  ⟨fun m => List.Perm.refl m, by decide,
    deps_closed_in_table heapCycle id [0] 3 (CodeAnalyzer.empty 4) graphCycle
      (fun m => List.Perm.refl m) (by decide)⟩

/-- C2 (as amended).  Edge symmetry: after `ParsePackages` has built `Deps` and `DepedBys`, for
all packages `P` and `Q` of the list, `P` occurs in `Q.DepedBys` as often as `Q` occurs in
`P.Deps`, so `Q` is in `P.Deps` if and only if `P` is in `Q.DepedBys`; and when the imports of
every package have pairwise distinct package paths, no `Deps` and no `DepedBys` holds a package
twice, and the length of `Q.DepedBys` is the number of packages that import `Q`. -/
theorem edge_symmetry {n : Nat} (heap : Fin n → PPackage n)
    (shuffle : GoMap (Fin n) → GoMap (Fin n)) (ppkgs : List (Fin n)) (builtinPPkg : Fin n)
    (d0 d : CodeAnalyzer n) (hperm : ∀ m, (shuffle m).Perm m)
    (h : buildPackageGraph heap shuffle ppkgs builtinPPkg d0 = some d) :
    (∀ (i j : Nat) (P Q : Package n), d.packageList[i]? = some P → d.packageList[j]? = some Q →
      Q.DepedBys.count i = P.Deps.count j ∧ (j ∈ P.Deps ↔ i ∈ Q.DepedBys)) ∧
    ((∀ (i : Nat) (P : Package n), d.packageList[i]? = some P →
        ((heap P.PPkg).Imports.map (fun q => (heap q).PkgPath)).Nodup) →
      ∀ (j : Nat) (Q : Package n), d.packageList[j]? = some Q →
        Q.Deps.Nodup ∧ Q.DepedBys.Nodup ∧
        Q.DepedBys.length =
          ((List.range d.packageList.length).filter (fun i => d.hasDep i j)).length) := by
  obtain ⟨hinv, hpk, hcount, hrange, _⟩ :=
    buildPackageGraph_spec heap shuffle ppkgs builtinPPkg d0 d hperm h
  refine ⟨fun i j P Q hP hQ => ⟨hcount i j P Q hP hQ, ?_⟩, fun hnd => ?_⟩
  · rw [← List.count_pos_iff (a := j), ← List.count_pos_iff (a := i), hcount i j P Q hP hQ]
  · have hdeps : ∀ (i : Nat) (P : Package n), d.packageList[i]? = some P → P.Deps.Nodup := by
      intro i P hP
      have h1 : (P.Deps.map some).Nodup := by
        rw [(hpk i P hP).2.2]
        have h2 := hnd i P hP
        have e : (heap P.PPkg).Imports.map (fun q => d.packageTable.get (heap q).PkgPath) =
            ((heap P.PPkg).Imports.map (fun q => (heap q).PkgPath)).map
              (fun k => d.packageTable.get k) := by
          rw [List.map_map]
          rfl
        rw [e]
        refine List.Nodup.map_on ?_ h2
        intro k1 hk1 k2 hk2 hk
        obtain ⟨q1, hq1, rfl⟩ := List.mem_map.mp hk1
        have hs : ∃ x, d.packageTable.get (heap q1).PkgPath = some x := by
          have hm : d.packageTable.get (heap q1).PkgPath ∈ P.Deps.map some := by
            rw [(hpk i P hP).2.2]
            exact List.mem_map.mpr ⟨q1, hq1, rfl⟩
          obtain ⟨x, _, hx⟩ := List.mem_map.mp hm
          exact ⟨x, hx.symm⟩
        obtain ⟨x, hx⟩ := hs
        obtain ⟨X, _, hX1⟩ := hinv.entry _ _ hx
        rw [hx] at hk
        obtain ⟨X2, hX2, hX3⟩ := hinv.entry _ _ hk.symm
        have hXX : d.packageList[x]? = some X := by assumption
        rw [hXX] at hX2
        cases hX2
        rw [← hX1, hX3]
      exact List.Nodup.of_map some h1
    intro j Q hQ
    have hbys : Q.DepedBys.Nodup := by
      rw [List.nodup_iff_count_le_one]
      intro i
      cases hP : d.packageList[i]? with
      | none =>
        have : i ∉ Q.DepedBys := by
          intro hi
          have hlt := hrange j Q hQ i hi
          rw [List.getElem?_eq_getElem hlt] at hP
          cases hP
        rw [List.count_eq_zero_of_not_mem this]
        exact Nat.zero_le 1
      | some P =>
        rw [hcount i j P Q hP hQ]
        exact List.nodup_iff_count_le_one.mp (hdeps i P hP) j
    refine ⟨hdeps j Q hQ, hbys, ?_⟩
    apply List.Perm.length_eq
    rw [List.perm_ext_iff_of_nodup hbys (List.Nodup.filter _ (List.nodup_range _))]
    intro i
    simp only [List.mem_filter, List.mem_range, CodeAnalyzer.hasDep]
    constructor
    · intro hi
      have hlt := hrange j Q hQ i hi
      refine ⟨hlt, ?_⟩
      rw [List.getElem?_eq_getElem hlt]
      simp only [decide_eq_true_eq]
      have := hcount i j d.packageList[i] Q (List.getElem?_eq_getElem hlt) hQ
      rw [← List.count_pos_iff, ← this, List.count_pos_iff]
      exact hi
    · rintro ⟨hlt, hd⟩
      rw [List.getElem?_eq_getElem hlt] at hd
      simp only [decide_eq_true_eq] at hd
      have := hcount i j d.packageList[i] Q (List.getElem?_eq_getElem hlt) hQ
      rw [← List.count_pos_iff, this, List.count_pos_iff]
      exact hd

/-- Witness of C2: the cyclic graph `heapCycle` with root `a`, in which no package imports a
path twice. -/
theorem edge_symmetry_witness :
    (∀ m : GoMap (Fin 4), (id m).Perm m) ∧
    buildPackageGraph heapCycle id [0] 3 (CodeAnalyzer.empty 4) = some graphCycle ∧
    (∀ p : Fin 4, ((heapCycle p).Imports.map (fun q => (heapCycle q).PkgPath)).Nodup) ∧
    (∀ (i j : Nat) (P Q : Package 4), graphCycle.packageList[i]? = some P →
      graphCycle.packageList[j]? = some Q →
      Q.DepedBys.count i = P.Deps.count j ∧ (j ∈ P.Deps ↔ i ∈ Q.DepedBys)) ∧
    (∀ (j : Nat) (Q : Package 4), graphCycle.packageList[j]? = some Q →
      Q.Deps.Nodup ∧ Q.DepedBys.Nodup ∧
      Q.DepedBys.length =
        ((List.range graphCycle.packageList.length).filter
          (fun i => graphCycle.hasDep i j)).length) :=
  ⟨fun m => List.Perm.refl m, by decide, by decide,
    (edge_symmetry heapCycle id [0] 3 (CodeAnalyzer.empty 4) graphCycle
      (fun m => List.Perm.refl m) (by decide)).1,
    (edge_symmetry heapCycle id [0] 3 (CodeAnalyzer.empty 4) graphCycle
      (fun m => List.Perm.refl m) (by decide)).2
      (fun _ P _ =>
        (by decide : ∀ p : Fin 4,
          ((heapCycle p).Imports.map (fun q => (heapCycle q).PkgPath)).Nodup) P.PPkg)⟩

/-- Counterexample to C2 as stated: the package `p` of `heapDup` imports `q` under two import
paths, so `q` occurs twice in the `Deps` of `p` and `p` occurs twice in the `DepedBys` of `q`,
whose length is 2 although one package imports `q`. -/
theorem edge_multiplicity_counterexample :
    buildPackageGraph heapDup id [0] 2 (CodeAnalyzer.empty 3) = some graphDup ∧
    ∃ P Q : Package 3, graphDup.packageList[0]? = some P ∧ graphDup.packageList[1]? = some Q ∧
      P.Deps.count 1 = 2 ∧ Q.DepedBys.count 0 = 2 ∧ Q.DepedBys.length = 2 ∧
      ((List.range graphDup.packageList.length).filter
        (fun i => graphDup.hasDep i 1)).length = 1 :=
  ⟨by decide, ⟨0, [1, 1], [], none, ""⟩, ⟨1, [], [0, 0], none, ""⟩, by decide, by decide,
    by decide, by decide, by decide, by decide⟩

/-! ## The commit heuristic -/

theorem firstFrom_eq {R : Type} (f : Nat → Option R) (min j0 : Nat) (hmin : min ≤ j0)
    (hsome : (f j0).isSome) :
    ∀ (N : Nat), j0 ≤ N → (∀ j, j0 < j → j ≤ N → f j = none) → firstFrom f min N = f j0 := by
  intro N
  induction N with
  | zero =>
    intro h0 _
    have hj : j0 = 0 := Nat.le_zero.mp h0
    subst hj
    have : min = 0 := Nat.le_zero.mp hmin
    simp [firstFrom, this]
  | succ N ih =>
    intro hN hnone
    by_cases hj : j0 = N + 1
    · subst hj
      obtain ⟨r, hr⟩ := Option.isSome_iff_exists.mp hsome
      have hlt : ¬ N + 1 < min := by omega
      simp [firstFrom, hlt, hr]
    · have hle : j0 ≤ N := by omega
      have hlt : ¬ N + 1 < min := by omega
      have hf : f (N + 1) = none := hnone (N + 1) (by omega) (Nat.le_refl _)
      simp only [firstFrom, hlt, if_false, hf]
      exact ih hle (fun j h1 h2 => hnone j h1 (Nat.le_succ_of_le h2))

theorem firstFrom_none {R : Type} (f : Nat → Option R) (min : Nat) :
    ∀ (N : Nat), (∀ j, min ≤ j → j ≤ N → f j = none) → firstFrom f min N = none := by
  intro N
  induction N with
  | zero =>
    intro h
    by_cases hm : min = 0
    · simp [firstFrom, hm, h 0 (by omega) (Nat.le_refl _)]
    · simp [firstFrom, hm]
  | succ N ih =>
    intro h
    by_cases hlt : N + 1 < min
    · simp [firstFrom, hlt]
    · have hf : f (N + 1) = none := h (N + 1) (by omega) (Nat.le_refl _)
      simp only [firstFrom, hlt, if_false, hf]
      exact ih (fun j h1 h2 => h j h1 (Nat.le_succ_of_le h2))

theorem firstFrom_some {R : Type} (f : Nat → Option R) (min : Nat) (r : R) :
    ∀ (N : Nat), firstFrom f min N = some r → ∃ j, min ≤ j ∧ j ≤ N ∧ f j = some r := by
  intro N
  induction N with
  | zero =>
    intro h
    by_cases hm : min = 0
    · simp only [firstFrom, hm, if_true] at h
      exact ⟨0, by omega, Nat.le_refl _, h⟩
    · simp [firstFrom, hm] at h
  | succ N ih =>
    intro h
    by_cases hlt : N + 1 < min
    · simp [firstFrom, hlt] at h
    · simp only [firstFrom, hlt, if_false] at h
      cases hf : f (N + 1) with
      | some x =>
        rw [hf] at h
        exact ⟨N + 1, by omega, Nat.le_refl _, by rw [hf]; exact h⟩
      | none =>
        rw [hf] at h
        obtain ⟨j, h1, h2, h3⟩ := ih h
        exact ⟨j, h1, Nat.le_succ_of_le h2, h3⟩

theorem isNonSpace_of_isDigit (c : Char) (h : isDigit c = true) : isNonSpace c = true := by
  have h1 : c ≠ '\t' := by rintro rfl; revert h; decide
  have h2 : c ≠ '\n' := by rintro rfl; revert h; decide
  have h3 : c ≠ '\x0c' := by rintro rfl; revert h; decide
  have h4 : c ≠ '\r' := by rintro rfl; revert h; decide
  have h5 : c ≠ ' ' := by rintro rfl; revert h; decide
  simp [isNonSpace, h1, h2, h3, h4, h5]

theorem isNonSpace_of_isHex (c : Char) (h : isHex c = true) : isNonSpace c = true := by
  have h1 : c ≠ '\t' := by rintro rfl; revert h; decide
  have h2 : c ≠ '\n' := by rintro rfl; revert h; decide
  have h3 : c ≠ '\x0c' := by rintro rfl; revert h; decide
  have h4 : c ≠ '\r' := by rintro rfl; revert h; decide
  have h5 : c ≠ ' ' := by rintro rfl; revert h; decide
  simp [isNonSpace, h1, h2, h3, h4, h5]

theorem isHex_of_isDigit (c : Char) (h : isDigit c = true) : isHex c = true := by
  simp [isHex, h]

theorem not_dash_of_isHex (c : Char) (h : isHex c = true) : (c == '-') = false := by
  have h1 : c ≠ '-' := by rintro rfl; revert h; decide
  simp [h1]

theorem takeWhile_eq_self {p : Char → Bool} (l : List Char) (h : ∀ c ∈ l, p c = true) :
    l.takeWhile p = l := by
  induction l with
  | nil => rfl
  | cons a l ih =>
    have ha := h a (List.mem_cons_self a l)
    simp [List.takeWhile_cons, ha, ih (fun c hc => h c (List.mem_cons_of_mem a hc))]

theorem takeWhile_append_stop {p : Char → Bool} (l r : List Char) (x : Char)
    (h : ∀ c ∈ l, p c = true) (hx : p x = false) :
    (l ++ x :: r).takeWhile p = l := by
  induction l with
  | nil => simp [List.takeWhile_cons, hx]
  | cons a l ih =>
    have ha := h a (List.mem_cons_self a l)
    simp [List.takeWhile_cons, ha, ih (fun c hc => h c (List.mem_cons_of_mem a hc))]

theorem mem_take_takeWhile {p : Char → Bool} (l : List Char) (j : Nat)
    (hj : j ≤ (l.takeWhile p).length) : ∀ c ∈ l.take j, p c = true := by
  induction l generalizing j with
  | nil => simp
  | cons a l ih =>
    cases j with
    | zero => simp
    | succ j =>
      by_cases ha : p a = true
      · simp only [List.takeWhile_cons, ha, if_true, List.length_cons] at hj
        intro c hc
        simp only [List.take_succ_cons, List.mem_cons] at hc
        rcases hc with hc | hc
        · rw [hc]
          exact ha
        · exact ih j (by omega) c hc
      · simp [List.takeWhile_cons, ha] at hj

theorem matchItems_one_cons (cls : Char → Bool) (r : List RegexItem) (c : Char)
    (s opened cap : List Char) :
    matchItems (RegexItem.one cls :: r) (c :: s) opened cap =
      if cls c then matchItems r s opened cap else none := by
  simp only [matchItems]

theorem matchItems_one_nil (cls : Char → Bool) (r : List RegexItem) (opened cap : List Char) :
    matchItems (RegexItem.one cls :: r) [] opened cap = none := by
  simp only [matchItems]

theorem matchItems_rep (cls : Char → Bool) (min : Nat) (r : List RegexItem)
    (s opened cap : List Char) :
    matchItems (RegexItem.rep cls min :: r) s opened cap =
      firstFrom (fun j => matchItems r (s.drop j) opened cap) min (s.takeWhile cls).length := by
  simp only [matchItems]

theorem matchItems_capOpen (r : List RegexItem) (s opened cap : List Char) :
    matchItems (RegexItem.capOpen :: r) s opened cap = matchItems r s s cap := by
  simp only [matchItems]

theorem matchItems_capClose (r : List RegexItem) (s opened cap : List Char) :
    matchItems (RegexItem.capClose :: r) s opened cap =
      matchItems r s opened (opened.take (opened.length - s.length)) := by
  simp only [matchItems]

theorem matchItems_nil (s opened cap : List Char) :
    matchItems [] s opened cap = some (s, cap) := by
  simp only [matchItems]

theorem matchItems_reRevision (H opened cap : List Char) (hH : ∀ c ∈ H, isHex c = true)
    (hlen : 6 ≤ H.length) :
    matchItems reRevision ('-' :: H) opened cap = some ([], H) := by
  have hlast : matchItems [RegexItem.capClose] (H.drop H.length) H cap = some ([], H) := by
    rw [matchItems_capClose, matchItems_nil]
    simp
  rw [reRevision, matchItems_one_cons, if_pos (by decide), matchItems_capOpen, matchItems_rep,
    takeWhile_eq_self H hH,
    firstFrom_eq _ 6 H.length hlen (by rw [hlast]; rfl) H.length (Nat.le_refl _)
      (fun j h1 h2 => by omega)]
  exact hlast

theorem matchItems_reTimestamp (D8 H opened cap : List Char)
    (hD : ∀ c ∈ D8, isDigit c = true) (hD8 : D8.length = 8)
    (hH : ∀ c ∈ H, isHex c = true) (hlen : 6 ≤ H.length) :
    matchItems reTimestamp (D8 ++ '-' :: H) opened cap = some ([], H) := by
  have h8 : (D8 ++ '-' :: H).drop D8.length = '-' :: H := by simp
  have hlast : matchItems reRevision ((D8 ++ '-' :: H).drop D8.length) opened cap =
      some ([], H) := by
    rw [h8]
    exact matchItems_reRevision H opened cap hH hlen
  rw [reTimestamp, matchItems_rep, takeWhile_append_stop D8 H '-' hD (by decide),
    firstFrom_eq _ 8 D8.length (by omega) (by rw [hlast]; rfl) D8.length (Nat.le_refl _)
      (fun j h1 h2 => by omega)]
  exact hlast

theorem matchItems_reTimestamp_short (X R opened cap : List Char)
    (hX : ∀ c ∈ X, isDigit c = true) (hlen : X.length < 8) :
    matchItems reTimestamp (X ++ '-' :: R) opened cap = none := by
  rw [reTimestamp, matchItems_rep, takeWhile_append_stop X R '-' hX (by decide)]
  apply firstFrom_none
  intro j h1 h2
  omega

theorem matchItems_reTimestamp_hex (U opened cap : List Char)
    (hU : ∀ c ∈ U, isHex c = true) :
    matchItems reTimestamp U opened cap = none := by
  rw [reTimestamp, matchItems_rep]
  apply firstFrom_none
  intro j _ _
  show matchItems reRevision (U.drop j) opened cap = none
  cases hd : U.drop j with
  | nil => rw [reRevision, matchItems_one_nil]
  | cons c r =>
    have hc : c ∈ U := List.mem_of_mem_drop (by rw [hd]; exact List.mem_cons_self c r)
    rw [reRevision, matchItems_one_cons, if_neg]
    rw [not_dash_of_isHex c (hU c hc)]
    exact Bool.false_ne_true

/-- On a text of the pseudo-version shape the expression matches at the start, and its group
is the final hexadecimal run. -/
theorem matchItems_findCommentRegexp (d : Char) (S D H : List Char)
    (hd : isDigit d = true) (hS : ∀ c ∈ S, isNonSpace c = true)
    (hD : ∀ c ∈ D, isDigit c = true) (hD8 : 8 ≤ D.length)
    (hH : ∀ c ∈ H, isHex c = true) (hlen : 6 ≤ H.length) :
    matchItems findCommentRegexp ('v' :: d :: (S ++ (D ++ '-' :: H))) [] [] = some ([], H) := by
  have hre : findCommentRegexp = RegexItem.one (fun c => c == 'v') :: RegexItem.one isDigit ::
      RegexItem.rep isNonSpace 0 :: reTimestamp := rfl
  rw [hre, matchItems_one_cons, if_pos (by decide), matchItems_one_cons, if_pos hd,
    matchItems_rep]
  have hall : ∀ c ∈ S ++ (D ++ '-' :: H), isNonSpace c = true := by
    intro c hc
    rcases List.mem_append.mp hc with hc | hc
    · exact hS c hc
    · rcases List.mem_append.mp hc with hc | hc
      · exact isNonSpace_of_isDigit c (hD c hc)
      · rcases List.mem_cons.mp hc with hc | hc
        · rw [hc]
          decide
        · exact isNonSpace_of_isHex c (hH c hc)
  rw [takeWhile_eq_self _ hall]
  -- the split of `D` into the digits given back to `\S*` and the last eight
  have hsplit : D = D.take (D.length - 8) ++ D.drop (D.length - 8) :=
    (List.take_append_drop _ D).symm
  have hD8len : (D.drop (D.length - 8)).length = 8 := by
    rw [List.length_drop]
    omega
  have hD8dig : ∀ c ∈ D.drop (D.length - 8), isDigit c = true :=
    fun c hc => hD c (List.mem_of_mem_drop hc)
  have hj0 : (S ++ (D ++ '-' :: H)).drop (S.length + (D.length - 8)) =
      D.drop (D.length - 8) ++ '-' :: H := by
    rw [List.drop_append_eq_append_drop, List.drop_of_length_le (by omega), List.nil_append]
    have : S.length + (D.length - 8) - S.length = D.length - 8 := by omega
    rw [this, List.drop_append_eq_append_drop]
    have h0 : D.length - 8 - D.length = 0 := by omega
    rw [h0, List.drop_zero]
  have hval : matchItems reTimestamp
      ((S ++ (D ++ '-' :: H)).drop (S.length + (D.length - 8))) [] [] = some ([], H) := by
    rw [hj0]
    exact matchItems_reTimestamp _ H [] [] hD8dig hD8len hH hlen
  rw [firstFrom_eq _ 0 (S.length + (D.length - 8)) (Nat.zero_le _) (by rw [hval]; rfl)
    (S ++ (D ++ '-' :: H)).length (by simp; omega)]
  · exact hval
  · intro j h1 h2
    -- a later start leaves fewer than eight digits before the dash, or only the revision
    have hdrop : (S ++ (D ++ '-' :: H)).drop j =
        (D.drop (D.length - 8) ++ '-' :: H).drop (j - (S.length + (D.length - 8))) := by
      rw [← hj0, List.drop_drop]
      congr 1
      omega
    rw [hdrop]
    by_cases ht : j - (S.length + (D.length - 8)) ≤ 8
    · rw [List.drop_append_eq_append_drop]
      have h0 : j - (S.length + (D.length - 8)) - (D.drop (D.length - 8)).length = 0 := by
        rw [hD8len]
        omega
      rw [h0, List.drop_zero]
      apply matchItems_reTimestamp_short
      · exact fun c hc => hD8dig c (List.mem_of_mem_drop hc)
      · rw [List.length_drop, hD8len]
        omega
    · apply matchItems_reTimestamp_hex
      intro c hc
      have hc1 := hc
      rw [List.drop_append_eq_append_drop, List.drop_of_length_le (by rw [hD8len]; omega),
        List.nil_append] at hc1
      have hc2 := List.mem_of_mem_drop hc1
      rcases List.mem_cons.mp hc2 with hc3 | hc3
      · exfalso
        -- the dash itself is dropped
        rw [hD8len] at hc1
        have h9 : j - (S.length + (D.length - 8)) - 8 =
            (j - (S.length + (D.length - 8)) - 9) + 1 := by omega
        rw [h9, List.drop_succ_cons] at hc1
        have hc4 := List.mem_of_mem_drop hc1
        subst hc3
        have := hH _ hc4
        revert this
        decide
      · exact hH c hc3

theorem takeWhile_length_le_length (p : Char → Bool) (l : List Char) :
    (l.takeWhile p).length ≤ l.length := by
  induction l with
  | nil => simp
  | cons a l ih =>
    by_cases ha : p a = true
    · simp only [List.takeWhile_cons, ha, if_true, List.length_cons]
      omega
    · simp [List.takeWhile_cons, ha]

/-- A match of the expression at the start of a text has the pseudo-version shape. -/
theorem matchItems_findCommentRegexp_sound (u : List Char) (r : List Char × List Char)
    (h : matchItems findCommentRegexp u [] [] = some r) :
    ∃ (d : Char) (S D H post : List Char),
      u = 'v' :: d :: (S ++ (D ++ '-' :: (H ++ post))) ∧ isDigit d = true ∧
      (∀ c ∈ S, isNonSpace c = true) ∧ (∀ c ∈ D, isDigit c = true) ∧ 8 ≤ D.length ∧
      (∀ c ∈ H, isHex c = true) ∧ 6 ≤ H.length := by
  have hre : findCommentRegexp = RegexItem.one (fun c => c == 'v') :: RegexItem.one isDigit ::
      RegexItem.rep isNonSpace 0 :: reTimestamp := rfl
  rw [hre] at h
  cases u with
  | nil => rw [matchItems_one_nil] at h; cases h
  | cons c u1 =>
    rw [matchItems_one_cons] at h
    by_cases hc : (c == 'v') = true
    · rw [if_pos hc] at h
      have hcv : c = 'v' := by simpa using hc
      subst hcv
      cases u1 with
      | nil => rw [matchItems_one_nil] at h; cases h
      | cons d rest =>
        rw [matchItems_one_cons] at h
        by_cases hd : isDigit d = true
        · rw [if_pos hd, matchItems_rep] at h
          obtain ⟨j, _, hj, h2⟩ := firstFrom_some _ 0 r _ h
          rw [reTimestamp, matchItems_rep] at h2
          obtain ⟨j2, hj2min, hj2, h3⟩ := firstFrom_some _ 8 r _ h2
          cases hu3 : (rest.drop j).drop j2 with
          | nil =>
            rw [hu3, reRevision, matchItems_one_nil] at h3
            cases h3
          | cons c3 u4 =>
            rw [hu3, reRevision, matchItems_one_cons] at h3
            by_cases hc3 : (c3 == '-') = true
            · rw [if_pos hc3, matchItems_capOpen, matchItems_rep] at h3
              have hdash : c3 = '-' := by simpa using hc3
              subst hdash
              obtain ⟨j3, hj3min, hj3, _⟩ := firstFrom_some _ 6 r _ h3
              have hlen2 : j2 ≤ (rest.drop j).length :=
                le_trans hj2 (takeWhile_length_le_length _ _)
              have hlen3 : j3 ≤ u4.length := le_trans hj3 (takeWhile_length_le_length _ _)
              refine ⟨d, rest.take j, (rest.drop j).take j2, u4.take j3, u4.drop j3, ?_, hd,
                mem_take_takeWhile rest j hj, mem_take_takeWhile (rest.drop j) j2 hj2, ?_,
                mem_take_takeWhile u4 j3 hj3, ?_⟩
              · rw [List.take_append_drop, ← hu3, List.take_append_drop, List.take_append_drop]
              · rw [List.length_take]
                omega
              · rw [List.length_take]
                omega
            · rw [if_neg hc3] at h3
              cases h3
        · rw [if_neg hd] at h
          cases h
    · rw [if_neg hc] at h
      cases h

theorem findSubmatch_findCommentRegexp_sound (s : List Char) (r : List Char × List Char)
    (h : findSubmatch findCommentRegexp s = some r) : ContainsPseudoVersion s := by
  induction s with
  | nil =>
    simp only [findSubmatch] at h
    cases hm : matchItems findCommentRegexp [] [] [] with
    | none => rw [hm] at h; cases h
    | some x =>
      obtain ⟨d, S, D, H, post, hu, _⟩ := matchItems_findCommentRegexp_sound [] x hm
      cases hu
  | cons c s ih =>
    simp only [findSubmatch] at h
    cases hm : matchItems findCommentRegexp (c :: s) [] [] with
    | some x =>
      obtain ⟨d, S, D, H, post, hu, h1, h2, h3, h4, h5, h6⟩ :=
        matchItems_findCommentRegexp_sound (c :: s) x hm
      exact ⟨[], d, S, D, H, post, by simpa using hu, h1, h2, h3, h4, h5, h6⟩
    | none =>
      rw [hm] at h
      obtain ⟨pre, d, S, D, H, post, hu, h1, h2, h3, h4, h5, h6⟩ := ih h
      exact ⟨c :: pre, d, S, D, H, post, by simp [hu], h1, h2, h3, h4, h5, h6⟩

theorem length_of_containsPseudoVersion (s : List Char) (h : ContainsPseudoVersion s) :
    17 ≤ s.length := by
  obtain ⟨pre, d, S, D, H, post, hu, _, _, _, h4, _, h6⟩ := h
  rw [hu]
  simp only [List.length_append, List.length_cons]
  omega

theorem string_eq_empty_iff (s : String) : s = "" ↔ s.data = [] := by
  constructor
  · intro h
    rw [h]
  · intro h
    exact String.ext h

theorem isSuffixOf_slash (l : List Char) :
    List.isSuffixOf ['/'] l = true ↔ l.getLast? = some '/' := by
  rw [← List.head?_reverse]
  unfold List.isSuffixOf
  cases l.reverse with
  | nil => simp [List.isPrefixOf]
  | cons a t =>
    simp only [List.reverse_cons, List.reverse_nil, List.nil_append, List.isPrefixOf,
      List.head?_cons, Option.some.injEq, Bool.and_true, beq_iff_eq]
    exact eq_comm

theorem strip_code_eq (extra : String) :
    (if HasPrefix (if HasPrefix extra "/" then dropFirst extra else extra) "/"
      then dropFirst (if HasPrefix extra "/" then dropFirst extra else extra)
      else (if HasPrefix extra "/" then dropFirst extra else extra)) =
    String.mk (stripLeadingSlashes 2 extra.data) := by
  obtain ⟨l⟩ := extra
  cases l with
  | nil => simp [HasPrefix, dropFirst, stripLeadingSlashes, List.isPrefixOf]
  | cons a t =>
    by_cases ha : a = '/'
    · subst ha
      cases t with
      | nil => simp [HasPrefix, dropFirst, stripLeadingSlashes, List.isPrefixOf]
      | cons b t2 =>
        by_cases hb : b = '/'
        · subst hb
          simp [HasPrefix, dropFirst, stripLeadingSlashes, List.isPrefixOf]
        · have hb1 : ¬ '/' = b := fun hh => hb hh.symm
          simp [HasPrefix, dropFirst, stripLeadingSlashes, List.isPrefixOf, hb, hb1]
    · have ha1 : ¬ '/' = a := fun hh => ha hh.symm
      simp [HasPrefix, dropFirst, stripLeadingSlashes, List.isPrefixOf, ha, ha1]

/-- C4.  Pseudo-version extraction: for every module whose `Version` consists of the letter
`v`, a digit, a run of non-space characters, at least 8 digits, a `-` and a final run of at
least 6 characters of `[0-9a-f]`, `confirmModuleReposotoryCommit` sets `RepositoryCommit` to that
final run, whatever the other fields (`ExtraPathInRepository` among them) are. -/
theorem pseudo_version_commit (m : Module) (d : Char) (S D H : List Char)
    (hv : m.Version.data = 'v' :: d :: (S ++ (D ++ '-' :: H)))
    (hd : isDigit d = true) (hS : ∀ c ∈ S, isNonSpace c = true)
    (hD : ∀ c ∈ D, isDigit c = true) (hD8 : 8 ≤ D.length)
    (hH : ∀ c ∈ H, isHex c = true) (hlen : 6 ≤ H.length) :
    (confirmModuleReposotoryCommit m).RepositoryCommit = String.mk H := by
  have hm := matchItems_findCommentRegexp d S D H hd hS hD hD8 hH hlen
  have hf : FindStringSubmatch findCommentRegexp m.Version =
      [String.mk (m.Version.data.take (m.Version.data.length - 0)), String.mk H] := by
    unfold FindStringSubmatch
    rw [hv]
    simp only [findSubmatch, hm, List.length_nil]
  unfold confirmModuleReposotoryCommit
  simp only [hf]
  simp

/-- Witness of C4: the two versions quoted in the source. -/
theorem pseudo_version_commit_witness :
    (confirmModuleReposotoryCommit
      (moduleAt "v0.0.0-20180917221912-90fa682c2a6e" "")).RepositoryCommit = "90fa682c2a6e" ∧
    (confirmModuleReposotoryCommit
      (moduleAt "v0.4.2-0.20210302225053-d515b24adc21" "/sub")).RepositoryCommit =
        "d515b24adc21" :=
  ⟨pseudo_version_commit (moduleAt "v0.0.0-20180917221912-90fa682c2a6e" "") '0'
      ".0.0-".data "20180917221912".data "90fa682c2a6e".data rfl (by decide) (by decide)
      (by decide) (by decide) (by decide) (by decide),
    pseudo_version_commit (moduleAt "v0.4.2-0.20210302225053-d515b24adc21" "/sub") '0'
      ".4.2-0.".data "20210302225053".data "d515b24adc21".data rfl (by decide) (by decide)
      (by decide) (by decide) (by decide) (by decide)⟩

/-- C5.  Fallback tiers: for every module whose `Version` contains no match of the
pseudo-version pattern, `confirmModuleReposotoryCommit` sets `RepositoryCommit` to `Version`
when `ExtraPathInRepository` is empty, and otherwise to `e ++ Version` when `e` ends with `/`
and to `e ++ "/" ++ Version` when it does not, `e` being `ExtraPathInRepository` without its
leading `/` characters, of which at most two are removed. -/
theorem commit_fallback (m : Module) (h : ¬ ContainsPseudoVersion m.Version.data) :
    (confirmModuleReposotoryCommit m).RepositoryCommit =
      if m.ExtraPathInRepository = "" then m.Version
      else if (stripLeadingSlashes 2 m.ExtraPathInRepository.data).getLast? = some '/' then
        String.mk (stripLeadingSlashes 2 m.ExtraPathInRepository.data) ++ m.Version
      else String.mk (stripLeadingSlashes 2 m.ExtraPathInRepository.data) ++ "/" ++ m.Version := by
  have hf : FindStringSubmatch findCommentRegexp m.Version = [] := by
    unfold FindStringSubmatch
    cases hs : findSubmatch findCommentRegexp m.Version.data with
    | none => rfl
    | some r => exact absurd (findSubmatch_findCommentRegexp_sound _ r hs) h
  unfold confirmModuleReposotoryCommit
  simp only [hf, List.length_nil, ge_iff_le, Nat.not_succ_le_zero, if_false, ne_eq, ite_not]
  by_cases he : m.ExtraPathInRepository = ""
  · simp [he]
  · simp only [he, if_false, strip_code_eq]
    by_cases hs : (stripLeadingSlashes 2 m.ExtraPathInRepository.data).getLast? = some '/'
    · have : HasSuffix (String.mk (stripLeadingSlashes 2 m.ExtraPathInRepository.data)) "/" =
          true := by
        unfold HasSuffix
        exact (isSuffixOf_slash _).mpr hs
      simp [this, hs]
    · have : HasSuffix (String.mk (stripLeadingSlashes 2 m.ExtraPathInRepository.data)) "/" =
          false := by
        unfold HasSuffix
        cases hx : List.isSuffixOf "/".data (stripLeadingSlashes 2 m.ExtraPathInRepository.data)
        · rfl
        · exact absurd ((isSuffixOf_slash _).mp hx) hs
      simp [this, hs]

/-- Witness of C5: the version `v1.2.3` without a sub-path and with the sub-path `/sub/dir/`. -/
theorem commit_fallback_witness :
    ¬ ContainsPseudoVersion "v1.2.3".data ∧
    (confirmModuleReposotoryCommit (moduleAt "v1.2.3" "")).RepositoryCommit = "v1.2.3" ∧
    (confirmModuleReposotoryCommit (moduleAt "v1.2.3" "/sub/dir/")).RepositoryCommit =
      "sub/dir/v1.2.3" :=
  ⟨fun hc => absurd (length_of_containsPseudoVersion _ hc) (by decide),
    (commit_fallback (moduleAt "v1.2.3" "")
      (fun hc => absurd (length_of_containsPseudoVersion _ hc) (by decide))).trans (by decide),
    (commit_fallback (moduleAt "v1.2.3" "/sub/dir/")
      (fun hc => absurd (length_of_containsPseudoVersion _ hc) (by decide))).trans (by decide)⟩

/-! ## Argument normalisation -/

theorem argsLoop_inv (statNotExist : Bool) (args : List String) (k : Nat)
    (hk : k ≤ args.length) :
    ((List.range k).foldl (argsStep statNotExist) ⟨args, 0, false, false⟩).len ≤ k ∧
    (∀ j, k ≤ j →
      ((List.range k).foldl (argsStep statNotExist) ⟨args, 0, false, false⟩).buf.getD j "" =
        args.getD j "") ∧
    ((List.range k).foldl (argsStep statNotExist) ⟨args, 0, false, false⟩).hasToolchain =
      (args.take k).any (fun a => a == "toolchain") ∧
    ((List.range k).foldl (argsStep statNotExist) ⟨args, 0, false, false⟩).hasOthers =
      (args.take k).any (fun a => a != "std" && a != "toolchain") := by
  induction k with
  | zero => simp
  | succ k ih =>
    obtain ⟨h1, h2, h3, h4⟩ := ih (Nat.le_of_succ_le hk)
    have hlt : k < args.length := hk
    rw [List.range_succ, List.foldl_append]
    simp only [List.foldl_cons, List.foldl_nil]
    generalize (List.range k).foldl (argsStep statNotExist) ⟨args, 0, false, false⟩ = st
      at h1 h2 h3 h4
    have hp : st.buf.getD k "" = args[k] := by
      rw [h2 k (Nat.le_refl _)]
      simp [List.getD_eq_getElem?_getD, List.getElem?_eq_getElem hlt]
    have htake : args.take (k + 1) = args.take k ++ [args[k]] := by
      rw [List.take_succ, List.getElem?_eq_getElem hlt]
      rfl
    have hset : ∀ (x : String) (j : Nat), k + 1 ≤ j →
        (st.buf.set st.len x).getD j "" = args.getD j "" := by
      intro x j hj
      rw [← h2 j (by omega)]
      simp only [List.getD_eq_getElem?_getD]
      rw [List.getElem?_set_ne (by omega)]
    rw [htake, List.any_append, List.any_append, ← h3, ← h4]
    unfold argsStep
    rw [hp]
    by_cases hstd : args[k] = "std"
    · simp only [hstd, if_true]
      refine ⟨by omega, fun j hj => hset _ j hj, by simp, by simp⟩
    · by_cases htc : args[k] = "toolchain"
      · simp only [htc, if_true]
        cases statNotExist
        · refine ⟨by simp; omega, fun j hj => ?_, by simp, by simp⟩
          simpa using hset "./..." j hj
        · refine ⟨by simp; omega, fun j hj => ?_, by simp, by simp⟩
          simpa using h2 j (by omega)
      · simp only [hstd, htc, if_false]
        refine ⟨by omega, fun j hj => hset _ j hj, by simp [htc], by simp [hstd, htc]⟩

/-- C10.  Toolchain exclusivity: `validateArgumentsAndSetOptions` returns the mutual-exclusion
error if and only if the arguments contain the token `toolchain` together with an argument
that is neither `std` nor `toolchain`, whether or not the toolchain directory exists (and
whatever `os.Chdir` does); an empty argument list gives `["."]`, no toolchain and no error. -/
theorem toolchain_exclusive (args : List String) (statNotExist chdirFails : Bool) :
    ((validateArgumentsAndSetOptions args statNotExist chdirFails).err =
        some ArgError.toolchainNotAlone ↔
      ("toolchain" ∈ args ∧ ∃ a ∈ args, a ≠ "std" ∧ a ≠ "toolchain")) ∧
    validateArgumentsAndSetOptions [] statNotExist chdirFails = ⟨some ["."], false, none⟩ := by
  refine ⟨?_, by simp [validateArgumentsAndSetOptions]⟩
  unfold validateArgumentsAndSetOptions
  by_cases h0 : args.length = 0
  · have : args = [] := List.length_eq_zero.mp h0
    subst this
    simp
  · simp only [h0, if_false]
    by_cases hstd : (args.length == 1 && args.getD 0 "" == "std") = true
    · simp only [hstd, if_true]
      have h1 : args = ["std"] := by
        simp only [Bool.and_eq_true, beq_iff_eq] at hstd
        obtain ⟨hl, hs⟩ := hstd
        match args, hl, hs with
        | [a], _, hs =>
          simp at hs
          rw [hs]
      subst h1
      simp
    · simp only [hstd]
      obtain ⟨_, _, h3, h4⟩ := argsLoop_inv statNotExist args args.length (Nat.le_refl _)
      rw [List.take_length] at h3 h4
      generalize (List.range args.length).foldl (argsStep statNotExist) ⟨args, 0, false, false⟩
        = st at h3 h4
      have ht : st.hasToolchain = true ↔ "toolchain" ∈ args := by
        rw [h3]
        simp [List.any_eq_true]
      have ho : st.hasOthers = true ↔ ∃ a ∈ args, a ≠ "std" ∧ a ≠ "toolchain" := by
        rw [h4]
        simp [List.any_eq_true]
      rw [← ht, ← ho]
      cases h5 : st.hasToolchain <;> cases h6 : st.hasOthers <;> cases chdirFails <;> simp

/-! ## The records of the listing -/

theorem splitRecords_ne_nil (output : List Char) : splitRecords output ≠ [] := by
  match output with
  | [] => simp [splitRecords]
  | [a] => simp [splitRecords]
  | a :: b :: r =>
    have ih := splitRecords_ne_nil (b :: r)
    simp only [splitRecords]
    split
    · simp
    · cases h : splitRecords (b :: r) with
      | nil => exact absurd h ih
      | cons x t => simp [consHead]

theorem splitRecords_of_index_none (output : List Char)
    (h : indexNewlineBrace output = none) : splitRecords output = [output] := by
  match output with
  | [] => simp [splitRecords]
  | [a] => simp [splitRecords]
  | a :: b :: r =>
    simp only [indexNewlineBrace] at h
    split at h
    · cases h
    · rename_i hab
      have h1 : indexNewlineBrace (b :: r) = none := by
        cases hi : indexNewlineBrace (b :: r) with
        | none => rfl
        | some e => rw [hi] at h; cases h
      have ih := splitRecords_of_index_none (b :: r) h1
      simp [splitRecords, hab, ih, consHead]

theorem splitRecords_of_index_some (output : List Char) (e : Nat)
    (h : indexNewlineBrace output = some e) :
    e + 1 < output.length ∧
    splitRecords output = output.take e :: splitRecords (output.drop (e + 1)) := by
  match output with
  | [] => simp [indexNewlineBrace] at h
  | [a] => simp [indexNewlineBrace] at h
  | a :: b :: r =>
    simp only [indexNewlineBrace] at h
    split at h
    · rename_i hab
      cases h
      simp [splitRecords, hab]
    · rename_i hab
      cases hi : indexNewlineBrace (b :: r) with
      | none => rw [hi] at h; cases h
      | some e1 =>
        rw [hi] at h
        simp only [Option.map_some', Option.some.injEq] at h
        subst h
        obtain ⟨h1, h2⟩ := splitRecords_of_index_some (b :: r) e1 hi
        refine ⟨by simp at h1 ⊢; omega, ?_⟩
        simp only [splitRecords, hab, if_false, h2, consHead, List.take_succ_cons,
          List.drop_succ_cons]

theorem countNewlineBrace_eq (output : List Char) :
    countNewlineBrace output + 1 = (splitRecords output).length := by
  match output with
  | [] => simp [splitRecords, countNewlineBrace]
  | [a] => simp [splitRecords, countNewlineBrace]
  | a :: b :: r =>
    simp only [splitRecords, countNewlineBrace]
    split
    · rename_i hab
      -- after a separator the brace cannot start another separator
      have hb : b = '\x7b' := hab.2
      subst hb
      match r with
      | [] => simp [splitRecords, countNewlineBrace]
      | c :: r2 =>
        have ih := countNewlineBrace_eq (c :: r2)
        have hne : ¬ ('\x7b' = '\n' ∧ c = '\x7b') := by
          intro hh
          exact absurd hh.1 (by decide)
        simp only [splitRecords, hne, if_false, List.length_cons]
        cases hs : splitRecords (c :: r2) with
        | nil => exact absurd hs (splitRecords_ne_nil _)
        | cons x t =>
          rw [hs] at ih
          simp only [consHead, List.length_cons]
          simp only [List.length_cons] at ih
          omega
    · have ih := countNewlineBrace_eq (b :: r)
      cases hs : splitRecords (b :: r) with
      | nil => exact absurd hs (splitRecords_ne_nil _)
      | cons x t =>
        rw [hs] at ih
        simp only [consHead, List.length_cons]
        simp only [List.length_cons] at ih
        omega

/-- The first pass decodes the records one after the other and stops at the first one that
does not decode. -/
theorem firstPass_eq (env : Env) (k : Nat) :
    ∀ (output : List Char) (t : Tally), (splitRecords output).length ≤ k →
      firstPass env k output t =
        (splitRecords output).foldlM
          (fun t1 c => (env.unmarshal c).map (tallyRecord env.toolchainPath t1)) t := by
  induction k with
  | zero =>
    intro output t h
    have := splitRecords_ne_nil output
    cases hs : splitRecords output with
    | nil => exact absurd hs this
    | cons x l => rw [hs] at h; simp at h
  | succ k ih =>
    intro output t h
    simp only [firstPass]
    cases hi : indexNewlineBrace output with
    | none =>
      rw [splitRecords_of_index_none output hi]
      simp only [Option.getD_none, List.take_length, if_true, List.foldlM_cons,
        List.foldlM_nil]
      cases env.unmarshal output <;> simp
    | some e =>
      obtain ⟨h1, h2⟩ := splitRecords_of_index_some output e hi
      rw [h2] at h ⊢
      simp only [Option.getD_some, List.foldlM_cons]
      have hne : ¬ e = output.length := by omega
      cases hu : env.unmarshal (output.take e) with
      | none => simp
      | some p =>
        simp only [hne, if_false, Option.map_some', Option.some_bind, Option.bind_eq_bind]
        exact ih _ _ (by simpa using h)

theorem foldlM_tally_length (env : Env) (cs : List (List Char)) :
    ∀ (t t' : Tally),
      cs.foldlM (fun t1 c => (env.unmarshal c).map (tallyRecord env.toolchainPath t1)) t
        = some t' →
      t'.pkgs.length = t.pkgs.length + cs.length := by
  induction cs with
  | nil =>
    intro t t' h
    simp only [List.foldlM_nil, pure, Option.some.injEq] at h
    subst h
    simp
  | cons c cs ih =>
    intro t t' h
    simp only [List.foldlM_cons] at h
    cases hu : env.unmarshal c with
    | none => simp [hu] at h
    | some p =>
      simp only [hu, Option.map_some', Option.some_bind, Option.bind_eq_bind] at h
      rw [ih _ _ h]
      have : (tallyRecord env.toolchainPath t p).pkgs.length = t.pkgs.length + 1 := by
        unfold tallyRecord
        split
        · simp
        · split <;> simp
      rw [this, List.length_cons]
      omega

theorem foldlM_tally_none (env : Env) (cs : List (List Char))
    (h : ∃ c ∈ cs, env.unmarshal c = none) :
    ∀ (t : Tally),
      cs.foldlM (fun t1 c => (env.unmarshal c).map (tallyRecord env.toolchainPath t1)) t
        = none := by
  induction cs with
  | nil =>
    obtain ⟨c, hc, _⟩ := h
    simp at hc
  | cons c cs ih =>
    intro t
    simp only [List.foldlM_cons]
    cases hu : env.unmarshal c with
    | none => simp
    | some p =>
      simp only [Option.map_some', Option.some_bind, Option.bind_eq_bind]
      apply ih
      obtain ⟨c1, hc1, hn⟩ := h
      rcases List.mem_cons.mp hc1 with hc1 | hc1
      · subst hc1
        rw [hu] at hn
        cases hn
      · exact ⟨c1, hc1, hn⟩

/-- The slice `pkgs` is filled completely: decoding succeeds exactly when every record
decodes, and then the tallies are those of all records, in order. -/
theorem decodeListing_eq (env : Env) (output : List Char) :
    decodeListing env output =
      (splitRecords output).foldlM
        (fun t1 c => (env.unmarshal c).map (tallyRecord env.toolchainPath t1)) ⟨[], 0, []⟩ := by
  unfold decodeListing
  simp only
  rw [firstPass_eq env _ output _ (by rw [countNewlineBrace_eq])]
  cases hf : (splitRecords output).foldlM
      (fun t1 c => (env.unmarshal c).map (tallyRecord env.toolchainPath t1)) ⟨[], 0, []⟩ with
  | none => rfl
  | some t =>
    have hl := foldlM_tally_length env _ _ _ hf
    simp only [List.length_nil, Nat.zero_add] at hl
    simp only [Option.some.injEq]
    rw [countNewlineBrace_eq, hl, Nat.sub_self]
    simp

/-- C9.  Degraded mode: if the listing command fails, or any record of the listing fails to
decode, `confirmPackageModules` returns normally and leaves the analyzer exactly as it was:
the package table, the package list with every `Deps` and `DepedBys`, the directories, the
module references, the module tables and the provenance fields. -/
theorem degraded_mode_unchanged {n : Nat} (env : Env) (listing : Option (List Char))
    (hasToolchain : Bool) (completeModuleInfo : Option (Module → Module)) (verboseLogs : Bool)
    (d : CodeAnalyzer n)
    (h : listing = none ∨
      ∃ output, listing = some output ∧ ∃ c ∈ splitRecords output, env.unmarshal c = none) :
    confirmPackageModules env listing hasToolchain completeModuleInfo verboseLogs d = some d := by
  rcases h with h | ⟨output, h, hc⟩
  · subst h
    rfl
  · subst h
    have : decodeListing env output = none := by
      rw [decodeListing_eq]
      exact foldlM_tally_none env _ hc _
    simp [confirmPackageModules, this]

/-! ## Writes to modules and packages -/

theorem getModule_modifyModule {n : Nat} (d : CodeAnalyzer n) (f : Module → Module)
    (p q : ModulePtr) :
    (d.modifyModule f p).getModule q =
      if p = q then (d.getModule q).map f else d.getModule q := by
  cases p <;> cases q <;>
    simp [CodeAnalyzer.modifyModule, CodeAnalyzer.getModule, getElem?_modifyAt]

theorem getModule_modifyPackage {n : Nat} (d : CodeAnalyzer n) (f : Package n → Package n)
    (pk : Nat) (q : ModulePtr) : (d.modifyPackage f pk).getModule q = d.getModule q := by
  cases q <;> rfl

theorem packageList_modifyModule {n : Nat} (d : CodeAnalyzer n) (f : Module → Module)
    (p : ModulePtr) : (d.modifyModule f p).packageList = d.packageList := by
  cases p <;> rfl

theorem packageTable_modifyModule {n : Nat} (d : CodeAnalyzer n) (f : Module → Module)
    (p : ModulePtr) : (d.modifyModule f p).packageTable = d.packageTable := by
  cases p <;> rfl

theorem modulesByPath_modifyModule {n : Nat} (d : CodeAnalyzer n) (f : Module → Module)
    (p : ModulePtr) : (d.modifyModule f p).modulesByPath = d.modulesByPath := by
  cases p <;> rfl

theorem wdModule_modifyModule {n : Nat} (d : CodeAnalyzer n) (f : Module → Module)
    (p : ModulePtr) : (d.modifyModule f p).wdModule = d.wdModule := by
  cases p <;> rfl

theorem reconcileRecord_cases {n : Nat} (env : Env) (d d' : CodeAnalyzer n) (p : ListedPkg)
    (h : reconcileRecord env d p = some d') :
    d' = d ∨
    (∃ pk ptr, d.packageTable.get p.ImportPath = some pk ∧ p.Module.Path ≠ "" ∧
      d.modulesByPath.get p.Module.Path = some ptr ∧
      d' = assignModule (d.modifyPackage (fun q => { q with Directory := p.Dir }) pk) pk ptr) ∨
    (∃ pk, d.packageTable.get p.ImportPath = some pk ∧ p.Module.Path ≠ "" ∧
      d.modulesByPath.get p.Module.Path = none ∧
      d' = assignModule
        (addExtModule (d.modifyPackage (fun q => { q with Directory := p.Dir }) pk) p.Module)
        pk (ModulePtr.ext d.nonToolchainModules.length)) ∨
    (∃ pk P wd, d.packageTable.get p.ImportPath = some pk ∧ p.Module.Path = "" ∧
      HasPrefix p.Dir env.toolchainPath = true ∧ d.packageList[pk]? = some P ∧
      P.Module = none ∧ d.wdModule = some wd ∧ (d.getModule wd).isSome ∧
      d' = assignModule d pk wd) := by
  unfold reconcileRecord at h
  cases hpk : d.packageTable.get p.ImportPath with
  | none =>
    simp only [hpk, Option.some.injEq] at h
    exact Or.inl h.symm
  | some pk =>
    simp only [hpk] at h
    by_cases hpath : p.Module.Path = ""
    · simp only [hpath, ne_eq, not_true_eq_false, if_false] at h
      by_cases hpre : HasPrefix p.Dir env.toolchainPath = true
      · simp only [hpre, if_true] at h
        cases hP : d.packageList[pk]? with
        | none => simp [hP] at h
        | some P =>
          simp only [hP] at h
          by_cases hm : P.Module = none
          · simp only [hm, ne_eq, not_true_eq_false, if_false] at h
            cases hwd : d.wdModule with
            | none => simp [hwd] at h
            | some wd =>
              simp only [hwd] at h
              cases hg : (d.modifyPackage (fun q1 => { q1 with Module := some wd })
                  pk).getModule wd with
              | none => simp [hg] at h
              | some M =>
                simp only [hg, Option.some.injEq] at h
                rw [getModule_modifyPackage] at hg
                refine Or.inr (Or.inr (Or.inr ⟨pk, P, wd, rfl, hpath, hpre, hP, hm, rfl, ?_,
                  h.symm⟩))
                rw [hg]
                rfl
          · simp only [ne_eq, hm, not_false_eq_true, if_true, Option.some.injEq] at h
            exact Or.inl h.symm
      · simp only [hpre, if_false] at h
        simp only [Bool.false_eq_true, if_false, Option.some.injEq] at h
        exact Or.inl h.symm
    · simp only [ne_eq, hpath, not_false_eq_true, if_true] at h
      cases hget : d.modulesByPath.get p.Module.Path with
      | some ptr =>
        have hget1 : (d.modifyPackage (fun q => { q with Directory := p.Dir })
            pk).modulesByPath.get p.Module.Path = some ptr := hget
        simp only [hget1] at h
        split at h
        · cases h
        · simp only [Option.some.injEq] at h
          exact Or.inr (Or.inl ⟨pk, ptr, rfl, hpath, rfl, h.symm⟩)
      | none =>
        have hget1 : (d.modifyPackage (fun q => { q with Directory := p.Dir })
            pk).modulesByPath.get p.Module.Path = none := hget
        simp only [hget1] at h
        split at h
        · cases h
        · simp only [Option.some.injEq] at h
          exact Or.inr (Or.inr (Or.inl ⟨pk, rfl, hpath, rfl, h.symm⟩))

/-! ## The module tables during the second pass -/

theorem GoMap.set_of_get_none {V : Type} (m : GoMap V) (k : String) (v : V)
    (h : m.get k = none) : m.set k v = m ++ [(k, v)] := by
  induction m with
  | nil => rfl
  | cons e r ih =>
    obtain ⟨k', v'⟩ := e
    by_cases hk : k' = k
    · simp [GoMap.get, hk] at h
    · simp only [GoMap.get, hk, if_false] at h
      simp [GoMap.set, hk, ih h]

theorem map_modifyAt {α β : Type} (f : α → α) (g : α → β) (i : Nat) (l : List α)
    (h : ∀ a, g (f a) = g a) : (modifyAt f i l).map g = l.map g := by
  induction l generalizing i with
  | nil => simp [modifyAt]
  | cons a l ih =>
    cases i with
    | zero => simp [modifyAt, h]
    | succ i => simp [modifyAt, ih]

theorem moduleEntries_append (tc : Bool) (ms : List Module) (m : Module) :
    moduleEntries tc (ms ++ [m]) = moduleEntries tc ms ++ [(m.Path, ModulePtr.ext ms.length)] := by
  simp [moduleEntries, List.enum_append, List.enumFrom_singleton]

theorem length_moduleEntries (tc : Bool) (ms : List Module) :
    (moduleEntries tc ms).length = 1 + (if tc then 1 else 0) + ms.length := by
  cases tc <;> simp [moduleEntries] <;> omega

theorem mem_moduleEntries (tc : Bool) (ms : List Module) (k : String) (ptr : ModulePtr) :
    (k, ptr) ∈ moduleEntries tc ms ↔
      (k = "std" ∧ ptr = ModulePtr.std) ∨ (tc = true ∧ k = "cmd" ∧ ptr = ModulePtr.cmd) ∨
      ∃ (i : Nat) (m : Module), ms[i]? = some m ∧ k = m.Path ∧ ptr = ModulePtr.ext i := by
  have hext : (k, ptr) ∈ (ms.map Module.Path).enum.map (fun e => (e.2, ModulePtr.ext e.1)) ↔
      ∃ (i : Nat) (m : Module), ms[i]? = some m ∧ k = m.Path ∧ ptr = ModulePtr.ext i := by
    simp only [List.mem_map, Prod.mk.injEq, Prod.exists]
    constructor
    · rintro ⟨i, x, hmem, hx, hi⟩
      have h1 := List.mk_mem_enum_iff_getElem?.mp hmem
      rw [List.getElem?_map] at h1
      cases hm : ms[i]? with
      | none => simp [hm] at h1
      | some m =>
        simp only [hm, Option.map_some', Option.some.injEq] at h1
        exact ⟨i, m, hm, by rw [← hx, ← h1], hi.symm⟩
    · rintro ⟨i, m, hm, hk, hp⟩
      refine ⟨i, m.Path, ?_, hk.symm, hp.symm⟩
      apply List.mk_mem_enum_iff_getElem?.mpr
      rw [List.getElem?_map, hm]
      rfl
  unfold moduleEntries
  rw [List.mem_cons, List.mem_append, hext]
  cases tc <;> simp

theorem ModInv.get_iff {n : Nat} {tc : Bool} {d : CodeAnalyzer n} (h : ModInv tc d)
    (k : String) (ptr : ModulePtr) :
    d.modulesByPath.get k = some ptr ↔
      (k = "std" ∧ ptr = ModulePtr.std) ∨ (tc = true ∧ k = "cmd" ∧ ptr = ModulePtr.cmd) ∨
      ∃ (i : Nat) (m : Module), d.nonToolchainModules[i]? = some m ∧ k = m.Path ∧
        ptr = ModulePtr.ext i := by
  rw [← mem_moduleEntries, ← h.table]
  exact ⟨GoMap.mem_of_get _ k ptr, GoMap.get_of_mem _ h.nodup k ptr⟩

theorem ModInv.modifyPackage {n : Nat} {tc : Bool} {d : CodeAnalyzer n} (h : ModInv tc d)
    (f : Package n → Package n) (pk : Nat) : ModInv tc (d.modifyPackage f pk) :=
  ⟨h.table, h.nodup, h.std, h.cmd, h.ext⟩

theorem ModInv.modifyModule {n : Nat} {tc : Bool} {d : CodeAnalyzer n} (h : ModInv tc d)
    (f : Module → Module) (ptr : ModulePtr)
    (hf : ∀ m, (f m).Path = m.Path ∧ (f m).Index = m.Index) :
    ModInv tc (d.modifyModule f ptr) := by
  cases ptr with
  | std =>
    refine ⟨h.table, h.nodup, ?_, h.cmd, h.ext⟩
    obtain ⟨s, hs, hi⟩ := h.std
    exact ⟨f s, by simp [CodeAnalyzer.modifyModule, hs], by rw [(hf s).2, hi]⟩
  | cmd =>
    refine ⟨h.table, h.nodup, h.std, ?_, h.ext⟩
    intro htc
    obtain ⟨w, hw, hp, hi⟩ := h.cmd htc
    exact ⟨f w, by simp [CodeAnalyzer.modifyModule, hw], by rw [(hf w).1, hp],
      by rw [(hf w).2, hi]⟩
  | ext i =>
    refine ⟨?_, h.nodup, h.std, h.cmd, ?_⟩
    · show d.modulesByPath = moduleEntries tc (modifyAt f i d.nonToolchainModules)
      rw [h.table]
      unfold moduleEntries
      rw [map_modifyAt f Module.Path i _ (fun a => (hf a).1)]
    · intro j m hm
      have hm1 : (modifyAt f i d.nonToolchainModules)[j]? = some m := hm
      rw [getElem?_modifyAt] at hm1
      split at hm1
      · cases hx : d.nonToolchainModules[j]? with
        | none => simp [hx] at hm1
        | some x =>
          simp only [hx, Option.map_some', Option.some.injEq] at hm1
          rw [← hm1, (hf x).2]
          exact h.ext j x hx
      · exact h.ext j m hm1

theorem ModInv.assignModule {n : Nat} {tc : Bool} {d : CodeAnalyzer n} (h : ModInv tc d)
    (pk : Nat) (ptr : ModulePtr) : ModInv tc (assignModule d pk ptr) :=
  (h.modifyPackage _ pk).modifyModule _ ptr (fun _ => ⟨rfl, rfl⟩)

theorem ModInv.addExtModule {n : Nat} {tc : Bool} {d : CodeAnalyzer n} (h : ModInv tc d)
    (m : Module) (hget : d.modulesByPath.get m.Path = none) : ModInv tc (addExtModule d m) := by
  refine ⟨?_, ?_, h.std, h.cmd, ?_⟩
  · show d.modulesByPath.set m.Path (ModulePtr.ext d.nonToolchainModules.length) =
      moduleEntries tc (d.nonToolchainModules ++
        [{ m with Index := d.modulesByPath.length, Pkgs := [] }])
    rw [GoMap.set_of_get_none _ _ _ hget, moduleEntries_append, ← h.table]
  · exact GoMap.nodup_keys_set _ _ _ h.nodup
  · intro i x hx
    have hx1 : (d.nonToolchainModules ++
        [{ m with Index := d.modulesByPath.length, Pkgs := [] }])[i]? = some x := hx
    rcases Nat.lt_or_ge i d.nonToolchainModules.length with hlt | hge
    · rw [List.getElem?_append_left hlt] at hx1
      exact h.ext i x hx1
    · rw [List.getElem?_append_right hge] at hx1
      cases hj : i - d.nonToolchainModules.length with
      | zero =>
        rw [hj] at hx1
        simp only [List.getElem?_cons_zero, Option.some.injEq] at hx1
        rw [← hx1]
        simp only
        rw [h.table, length_moduleEntries]
        omega
      | succ j =>
        rw [hj] at hx1
        simp at hx1

/-- Every step of the second pass keeps the module tables well formed. -/
theorem reconcileRecord_modInv {n : Nat} (env : Env) (tc : Bool) (d d' : CodeAnalyzer n)
    (p : ListedPkg) (h : reconcileRecord env d p = some d') (hinv : ModInv tc d) :
    ModInv tc d' := by
  rcases reconcileRecord_cases env d d' p h with h1 | ⟨pk, ptr, _, _, _, h1⟩ |
    ⟨pk, _, _, hget, h1⟩ | ⟨pk, P, wd, _, _, _, _, _, _, _, h1⟩
  · rw [h1]
    exact hinv
  · rw [h1]
    exact (hinv.modifyPackage _ pk).assignModule pk ptr
  · rw [h1]
    exact ((hinv.modifyPackage _ pk).addExtModule p.Module hget).assignModule pk _
  · rw [h1]
    exact hinv.assignModule pk wd

theorem secondPass_modInv {n : Nat} (env : Env) (tc : Bool) (rs : List ListedPkg) :
    ∀ (d d' : CodeAnalyzer n), rs.foldlM (reconcileRecord env) d = some d' → ModInv tc d →
      ModInv tc d' := by
  induction rs with
  | nil =>
    intro d d' h hinv
    simp only [List.foldlM_nil, pure, Option.some.injEq] at h
    exact h ▸ hinv
  | cons p rs ih =>
    intro d d' h hinv
    simp only [List.foldlM_cons] at h
    cases h1 : reconcileRecord env d p with
    | none => simp [h1] at h
    | some d1 =>
      rw [h1] at h
      exact ih d1 d' h (reconcileRecord_modInv env tc d d1 p h1 hinv)

/-! ## The stages of `confirmPackageModules` -/

theorem registerFixedModules_spec {n : Nat} (env : Env) (hasToolchain : Bool) (t : Tally)
    (d d1 : CodeAnalyzer n) (tc : Bool)
    (h : registerFixedModules env hasToolchain t d = some (tc, d1)) :
    tc = decide (t.numToolchainPkgs ≠ 0) ∧ ModInv tc d1 ∧
    d1.packageList = d.packageList ∧ d1.packageTable = d.packageTable ∧
    d1.nonToolchainModules = [] ∧
    (∃ s, d.stdModule = some s ∧ d1.stdModule = some { s with Index := 0 }) ∧
    (tc = true → d1.wdModule = some ModulePtr.cmd ∧
      d1.toolchainModule = some ⟨"cmd", "", env.toolchainPath, [], 1, "", "", "", ""⟩) ∧
    (tc = false → d1.wdModule = d.wdModule ∧ d1.toolchainModule = d.toolchainModule) := by
  unfold registerFixedModules at h
  cases hs : d.stdModule with
  | none =>
    by_cases h0 : t.numToolchainPkgs = 0 <;> simp [h0, hs] at h
  | some s =>
    by_cases h0 : t.numToolchainPkgs = 0
    · simp only [h0, if_true, hs] at h
      have hh : (if hasToolchain = true then false else hasToolchain) = false := by
        cases hasToolchain <;> rfl
      simp only [hh, Bool.false_eq_true, if_false, Option.some.injEq, Prod.mk.injEq] at h
      obtain ⟨h1, h2⟩ := h
      subst h1
      subst h2
      refine ⟨by simp [h0], ⟨rfl, by simp [GoMap.set, GoMap.keys, CodeAnalyzer.modifyModule],
        ⟨{ s with Index := 0 }, by simp [CodeAnalyzer.modifyModule, hs], rfl⟩, by simp, by
          intro i m hm
          simp [CodeAnalyzer.modifyModule] at hm⟩, rfl, rfl, rfl,
        ⟨s, rfl, by simp [CodeAnalyzer.modifyModule, hs]⟩, by simp, fun _ => ⟨rfl, rfl⟩⟩
    · simp only [h0, if_false, hs] at h
      have hh : (if (!hasToolchain) = true then true else hasToolchain) = true := by
        cases hasToolchain <;> rfl
      simp only [hh, if_true, CodeAnalyzer.modifyModule, CodeAnalyzer.getModule,
        Option.some.injEq, Prod.mk.injEq] at h
      obtain ⟨h1, h2⟩ := h
      subst h1
      subst h2
      refine ⟨by simp [h0], ⟨?_, ?_, ⟨{ s with Index := 0 }, by simp [hs], rfl⟩, ?_, ?_⟩,
        rfl, rfl, rfl,
        ⟨s, rfl, by simp [hs]⟩, ?_, by simp⟩
      · simp [GoMap.set, moduleEntries]
      · simp [GoMap.set, GoMap.keys]
      · intro _
        exact ⟨_, rfl, rfl, by simp [GoMap.set]⟩
      · intro i m hm
        simp at hm
      · intro _
        exact ⟨rfl, by simp [GoMap.set]⟩

theorem reconcileRecord_wdModule {n : Nat} (env : Env) (d d' : CodeAnalyzer n)
    (p : ListedPkg) (h : reconcileRecord env d p = some d') : d'.wdModule = d.wdModule := by
  rcases reconcileRecord_cases env d d' p h with h1 | ⟨pk, ptr, _, _, _, h1⟩ |
    ⟨pk, _, _, hget, h1⟩ | ⟨pk, P, wd, _, _, _, _, _, _, _, h1⟩
  · rw [h1]
  · rw [h1]
    simp [assignModule, wdModule_modifyModule, CodeAnalyzer.modifyPackage]
  · rw [h1]
    simp [assignModule, wdModule_modifyModule, CodeAnalyzer.modifyPackage, addExtModule]
  · rw [h1]
    simp [assignModule, wdModule_modifyModule, CodeAnalyzer.modifyPackage]

theorem secondPass_wdModule {n : Nat} (env : Env) (rs : List ListedPkg) :
    ∀ (d d' : CodeAnalyzer n), rs.foldlM (reconcileRecord env) d = some d' →
      d'.wdModule = d.wdModule := by
  induction rs with
  | nil =>
    intro d d' h
    simp only [List.foldlM_nil, pure, Option.some.injEq] at h
    rw [h]
  | cons p rs ih =>
    intro d d' h
    simp only [List.foldlM_cons] at h
    cases h1 : reconcileRecord env d p with
    | none => simp [h1] at h
    | some d1 =>
      rw [h1] at h
      rw [ih d1 d' h, reconcileRecord_wdModule env d d1 p h1]

theorem confirmPackageModules_cases {n : Nat} (env : Env) (listing : Option (List Char))
    (hasToolchain : Bool) (completeModuleInfo : Option (Module → Module)) (verboseLogs : Bool)
    (d d' : CodeAnalyzer n)
    (h : confirmPackageModules env listing hasToolchain completeModuleInfo verboseLogs d
      = some d') :
    ((listing = none ∨ ∃ output, listing = some output ∧ decodeListing env output = none) ∧
      d' = d) ∨
    ∃ output t tc d1 d2 goVersion d3, listing = some output ∧
      decodeListing env output = some t ∧
      registerFixedModules env hasToolchain t d = some (tc, d1) ∧
      t.pkgs.foldlM (reconcileRecord env) d1 = some d2 ∧
      d2.nonToolchainModules.length = t.modulesNumPkgs.length ∧
      env.goVersion = some goVersion ∧
      fillFixedModules env goVersion tc d2 = some d3 ∧
      d' = completeModules completeModuleInfo (selectWdModule d3) := by
  unfold confirmPackageModules at h
  cases listing with
  | none =>
    simp only [Option.some.injEq] at h
    exact Or.inl ⟨Or.inl rfl, h.symm⟩
  | some output =>
    simp only at h
    cases ht : decodeListing env output with
    | none =>
      simp only [ht, Option.some.injEq] at h
      exact Or.inl ⟨Or.inr ⟨output, rfl, ht⟩, h.symm⟩
    | some t =>
      simp only [ht] at h
      cases hr : registerFixedModules env hasToolchain t d with
      | none => simp [hr] at h
      | some r =>
        obtain ⟨tc, d1⟩ := r
        simp only [hr] at h
        cases h2 : t.pkgs.foldlM (reconcileRecord env) d1 with
        | none => simp [h2] at h
        | some d2 =>
          simp only [h2] at h
          by_cases hlen : d2.nonToolchainModules.length = t.modulesNumPkgs.length
          · simp only [hlen, ne_eq, not_true_eq_false, if_false] at h
            cases hv : env.goVersion with
            | none => simp [hv] at h
            | some gv =>
              simp only [hv] at h
              cases h3 : fillFixedModules env gv tc d2 with
              | none => simp [h3] at h
              | some d3 =>
                simp only [h3] at h
                split at h
                · cases h
                · simp only [Option.some.injEq] at h
                  exact Or.inr ⟨output, t, tc, d1, d2, gv, d3, rfl, ht, hr, h2, hlen, rfl, h3,
                    h.symm⟩
          · simp [hlen] at h

theorem completeModules_eq {n : Nat} (completeModuleInfo : Option (Module → Module))
    (d : CodeAnalyzer n) :
    completeModules completeModuleInfo d =
      { d with nonToolchainModules :=
          d.nonToolchainModules.map (completeModule completeModuleInfo) } := by
  unfold completeModules completeModule
  cases completeModuleInfo <;> simp [List.map_map, Function.comp_def]

theorem selectWdModule_frame {n : Nat} (d : CodeAnalyzer n) :
    (selectWdModule d).packageList = d.packageList ∧
    (selectWdModule d).packageTable = d.packageTable ∧
    (selectWdModule d).stdModule = d.stdModule ∧
    (selectWdModule d).toolchainModule = d.toolchainModule ∧
    (selectWdModule d).nonToolchainModules = d.nonToolchainModules ∧
    (selectWdModule d).modulesByPath = d.modulesByPath ∧
    (selectWdModule d).builtinPkg = d.builtinPkg := by
  unfold selectWdModule
  generalize List.range d.nonToolchainModules.length = is
  have key : ∀ (is : List Nat) (d1 : CodeAnalyzer n),
      let r := is.foldl (fun d1 i =>
        match d1.nonToolchainModules[i]? with
        | none => d1
        | some m => if m.Version = "" then { d1 with wdModule := some (ModulePtr.ext i) }
          else d1) d1
      r.packageList = d1.packageList ∧ r.packageTable = d1.packageTable ∧
      r.stdModule = d1.stdModule ∧ r.toolchainModule = d1.toolchainModule ∧
      r.nonToolchainModules = d1.nonToolchainModules ∧ r.modulesByPath = d1.modulesByPath ∧
      r.builtinPkg = d1.builtinPkg := by
    intro is
    induction is with
    | nil =>
      intro d1
      simp
    | cons i is ih =>
      intro d1
      simp only [List.foldl_cons]
      cases hm : d1.nonToolchainModules[i]? with
      | none => exact ih d1
      | some m =>
        simp only
        by_cases hv : m.Version = ""
        · simp only [hv, if_true]
          have := ih { d1 with wdModule := some (ModulePtr.ext i) }
          simpa using this
        · simp only [hv, if_false]
          exact ih d1
  exact key is d

theorem fillFixedModules_spec {n : Nat} (env : Env) (goVersion : String) (tc : Bool)
    (d2 d3 : CodeAnalyzer n) (h : fillFixedModules env goVersion tc d2 = some d3)
    (hwd : tc = true → d2.wdModule = some ModulePtr.cmd) :
    d3.packageList = d2.packageList ∧ d3.packageTable = d2.packageTable ∧
    d3.modulesByPath = d2.modulesByPath ∧ d3.builtinPkg = d2.builtinPkg ∧
    d3.nonToolchainModules = d2.nonToolchainModules ∧
    d3.stdModule = d2.stdModule.map (fillModule goVersion env.stdDir env.GOROOT "/src/") ∧
    d3.toolchainModule =
      (if tc then
        d2.toolchainModule.map (fillModule goVersion env.toolchainPath env.GOROOT "/src/cmd")
      else d2.toolchainModule) := by
  unfold fillFixedModules at h
  cases hs : d2.stdModule with
  | none => simp [hs] at h
  | some s =>
    simp only [hs] at h
    cases tc with
    | false =>
      simp only [Bool.false_eq_true, if_false, Option.some.injEq] at h
      subst h
      simp [CodeAnalyzer.modifyModule, hs]
    | true =>
      have hw : (d2.modifyModule (fillModule goVersion env.stdDir env.GOROOT "/src/")
          ModulePtr.std).wdModule = some ModulePtr.cmd := by
        rw [wdModule_modifyModule]
        exact hwd rfl
      simp only [if_true, hw] at h
      split at h
      · cases h
      · simp only [Option.some.injEq] at h
        subst h
        simp [CodeAnalyzer.modifyModule, hs]

/-- The steps after the second pass leave the package list, the package table and
`modulesByPath` alone and rewrite every module in place. -/
theorem finish_spec {n : Nat} (env : Env) (goVersion : String) (tc : Bool)
    (completeModuleInfo : Option (Module → Module)) (d2 d3 : CodeAnalyzer n)
    (h : fillFixedModules env goVersion tc d2 = some d3)
    (hwd : tc = true → d2.wdModule = some ModulePtr.cmd) :
    (completeModules completeModuleInfo (selectWdModule d3)).packageList = d2.packageList ∧
    (completeModules completeModuleInfo (selectWdModule d3)).packageTable = d2.packageTable ∧
    (completeModules completeModuleInfo (selectWdModule d3)).modulesByPath
      = d2.modulesByPath ∧
    (completeModules completeModuleInfo (selectWdModule d3)).stdModule =
      d2.stdModule.map (fillModule goVersion env.stdDir env.GOROOT "/src/") ∧
    (completeModules completeModuleInfo (selectWdModule d3)).toolchainModule =
      (if tc then
        d2.toolchainModule.map (fillModule goVersion env.toolchainPath env.GOROOT "/src/cmd")
      else d2.toolchainModule) ∧
    (completeModules completeModuleInfo (selectWdModule d3)).nonToolchainModules =
      d2.nonToolchainModules.map (completeModule completeModuleInfo) := by
  obtain ⟨f1, f2, f3, _, f5, f6, f7⟩ := fillFixedModules_spec env goVersion tc d2 d3 h hwd
  obtain ⟨s1, s2, s3, s4, s5, s6, _⟩ := selectWdModule_frame d3
  rw [completeModules_eq]
  simp only
  exact ⟨s1.trans f1, s2.trans f2, s6.trans f3, s3.trans f6, s4.trans f7, by rw [s5, f5]⟩

theorem getElem?_moduleEntries (tc : Bool) (ms : List Module) (j : Nat) (k : String)
    (ptr : ModulePtr) (h : (moduleEntries tc ms)[j]? = some (k, ptr)) :
    (j = 0 ∧ k = "std" ∧ ptr = ModulePtr.std) ∨
    (tc = true ∧ j = 1 ∧ k = "cmd" ∧ ptr = ModulePtr.cmd) ∨
    ∃ (i : Nat) (m : Module), j = 1 + (if tc then 1 else 0) + i ∧ ms[i]? = some m ∧
      k = m.Path ∧ ptr = ModulePtr.ext i := by
  have hext : ∀ (i : Nat),
      ((ms.map Module.Path).enum.map (fun e => (e.2, ModulePtr.ext e.1)))[i]? = some (k, ptr) →
      ∃ (m : Module), ms[i]? = some m ∧ k = m.Path ∧ ptr = ModulePtr.ext i := by
    intro i hi
    rw [List.getElem?_map, List.getElem?_enum, List.getElem?_map] at hi
    cases hm : ms[i]? with
    | none => simp [hm] at hi
    | some m =>
      simp only [hm, Option.map_some', Option.some.injEq, Prod.mk.injEq] at hi
      exact ⟨m, rfl, hi.1.symm, hi.2.symm⟩
  unfold moduleEntries at h
  cases j with
  | zero =>
    simp only [List.getElem?_cons_zero, Option.some.injEq, Prod.mk.injEq] at h
    exact Or.inl ⟨rfl, h.1.symm, h.2.symm⟩
  | succ j =>
    rw [List.getElem?_cons_succ] at h
    cases tc with
    | false =>
      simp only [Bool.false_eq_true, if_false, List.nil_append] at h
      obtain ⟨m, h1, h2, h3⟩ := hext j h
      exact Or.inr (Or.inr ⟨j, m, by simp; omega, h1, h2, h3⟩)
    | true =>
      simp only [if_true, List.singleton_append] at h
      cases j with
      | zero =>
        simp only [List.getElem?_cons_zero, Option.some.injEq, Prod.mk.injEq] at h
        exact Or.inr (Or.inl ⟨rfl, rfl, h.1.symm, h.2.symm⟩)
      | succ j =>
        rw [List.getElem?_cons_succ] at h
        obtain ⟨m, h1, h2, h3⟩ := hext j h
        exact Or.inr (Or.inr ⟨j, m, by simp; omega, h1, h2, h3⟩)

/-- The commit heuristic writes `RepositoryCommit` and nothing else. -/
theorem confirmModuleReposotoryCommit_frame (m : Module) :
    (confirmModuleReposotoryCommit m).Index = m.Index ∧
    (confirmModuleReposotoryCommit m).Pkgs = m.Pkgs ∧
    (confirmModuleReposotoryCommit m).Path = m.Path ∧
    (confirmModuleReposotoryCommit m).Version = m.Version ∧
    (confirmModuleReposotoryCommit m).ExtraPathInRepository = m.ExtraPathInRepository := by
  unfold confirmModuleReposotoryCommit
  dsimp only
  split_ifs <;> exact ⟨rfl, rfl, rfl, rfl, rfl⟩

theorem completeModule_index (completeModuleInfo : Option (Module → Module))
    (hcb : ∀ f, completeModuleInfo = some f → ∀ m, (f m).Index = m.Index) (m : Module) :
    (completeModule completeModuleInfo m).Index = m.Index := by
  unfold completeModule
  cases hc : completeModuleInfo with
  | none =>
    dsimp only
    split_ifs
    · rfl
    · exact (confirmModuleReposotoryCommit_frame m).1
  | some f =>
    dsimp only
    split_ifs
    · exact hcb f hc m
    · rw [(confirmModuleReposotoryCommit_frame (f m)).1]
      exact hcb f hc m

theorem completeModule_pkgs (completeModuleInfo : Option (Module → Module))
    (hcb : ∀ f, completeModuleInfo = some f → ∀ m, (f m).Pkgs = m.Pkgs) (m : Module) :
    (completeModule completeModuleInfo m).Pkgs = m.Pkgs := by
  unfold completeModule
  cases hc : completeModuleInfo with
  | none =>
    dsimp only
    split_ifs
    · rfl
    · exact (confirmModuleReposotoryCommit_frame m).2.1
  | some f =>
    dsimp only
    split_ifs
    · exact hcb f hc m
    · rw [(confirmModuleReposotoryCommit_frame (f m)).2.1]
      exact hcb f hc m

/-- C8 (as amended).  Index uniqueness: when `confirmPackageModules` completes on a listing that
decodes, and the caller's callback leaves the index of a module alone, every module registered in
`modulesByPath` has as index the number of modules registered before it (its position in
registration order), the standard module is the first with index 0, a toolchain module is
the second with index 1, and no two distinct registered modules share an index. -/
theorem module_index_unique {n : Nat} (env : Env) (output : List Char)
    (hasToolchain : Bool) (completeModuleInfo : Option (Module → Module)) (verboseLogs : Bool)
    (d d' : CodeAnalyzer n)
    (hcb : ∀ f, completeModuleInfo = some f → ∀ m, (f m).Index = m.Index)
    (ht : (decodeListing env output).isSome = true)
    (h : confirmPackageModules env (some output) hasToolchain completeModuleInfo verboseLogs d
      = some d') :
    (∀ (j : Nat) (k : String) (ptr : ModulePtr), d'.modulesByPath[j]? = some (k, ptr) →
      ∃ M, d'.getModule ptr = some M ∧ M.Index = j) ∧
    (d'.modulesByPath[0]? = some ("std", ModulePtr.std) ∧
      ∃ s, d'.stdModule = some s ∧ s.Index = 0) ∧
    (∀ (j : Nat) (k : String), d'.modulesByPath[j]? = some (k, ModulePtr.cmd) →
      j = 1 ∧ k = "cmd" ∧ ∃ w, d'.toolchainModule = some w ∧ w.Index = 1) ∧
    (∀ (j1 j2 : Nat) (k1 k2 : String) (p1 p2 : ModulePtr) (M1 M2 : Module),
      d'.modulesByPath[j1]? = some (k1, p1) → d'.modulesByPath[j2]? = some (k2, p2) →
      d'.getModule p1 = some M1 → d'.getModule p2 = some M2 → p1 ≠ p2 →
      M1.Index ≠ M2.Index) := by
  rcases confirmPackageModules_cases env (some output) hasToolchain completeModuleInfo
    verboseLogs d d' h with ⟨hdeg, _⟩ | ⟨output1, t1, tc, d1, d2, gv, d3, ho, ht1, hr, h2, _, _,
      h3, hd'⟩
  · rcases hdeg with hdeg | ⟨o, ho, hn⟩
    · cases hdeg
    · cases ho
      rw [hn] at ht
      cases ht
  · cases ho
    obtain ⟨_, hinv1, _, _, _, _, hwd1, _⟩ := registerFixedModules_spec env hasToolchain t1 d d1
      tc hr
    have hinv2 := secondPass_modInv env tc t1.pkgs d1 d2 h2 hinv1
    have hwd2 : tc = true → d2.wdModule = some ModulePtr.cmd := by
      intro htc
      rw [secondPass_wdModule env t1.pkgs d1 d2 h2]
      exact (hwd1 htc).1
    obtain ⟨_, _, f3, f4, f5, f6⟩ := finish_spec env gv tc completeModuleInfo d2 d3 h3 hwd2
    rw [← hd'] at f3 f4 f5 f6
    have hidx : ∀ m, (completeModule completeModuleInfo m).Index = m.Index :=
      fun m => completeModule_index completeModuleInfo hcb m
    have pos : ∀ (j : Nat) (k : String) (ptr : ModulePtr),
        d'.modulesByPath[j]? = some (k, ptr) → ∃ M, d'.getModule ptr = some M ∧ M.Index = j := by
      intro j k ptr hj
      rw [f3, hinv2.table] at hj
      rcases getElem?_moduleEntries tc _ j k ptr hj with ⟨h0, _, hp⟩ | ⟨htc, h1, _, hp⟩ |
        ⟨i, m, hji, hm, _, hp⟩
      · obtain ⟨s, hs, hi⟩ := hinv2.std
        subst hp
        refine ⟨fillModule gv env.stdDir env.GOROOT "/src/" s, ?_, ?_⟩
        · simp [CodeAnalyzer.getModule, f4, hs]
        · rw [h0]
          exact hi
      · obtain ⟨w, hw, _, hi⟩ := hinv2.cmd htc
        subst hp
        refine ⟨fillModule gv env.toolchainPath env.GOROOT "/src/cmd" w, ?_, ?_⟩
        · simp [CodeAnalyzer.getModule, f5, hw, htc]
        · rw [h1]
          exact hi
      · subst hp
        refine ⟨completeModule completeModuleInfo m, ?_, ?_⟩
        · simp [CodeAnalyzer.getModule, f6, hm]
        · rw [hidx, hinv2.ext i m hm, hji]
    refine ⟨pos, ⟨?_, ?_⟩, ?_, ?_⟩
    · rw [f3, hinv2.table]
      simp [moduleEntries]
    · obtain ⟨s, hs, hi⟩ := hinv2.std
      exact ⟨fillModule gv env.stdDir env.GOROOT "/src/" s, by simp [f4, hs], hi⟩
    · intro j k hj
      have hj1 := hj
      rw [f3, hinv2.table] at hj1
      rcases getElem?_moduleEntries tc _ j k _ hj1 with ⟨_, _, hp⟩ | ⟨htc, h1, hk, _⟩ |
        ⟨i, m, _, _, _, hp⟩
      · cases hp
      · obtain ⟨w, hw, _, hi⟩ := hinv2.cmd htc
        exact ⟨h1, hk, fillModule gv env.toolchainPath env.GOROOT "/src/cmd" w,
          by simp [f5, hw, htc], hi⟩
      · cases hp
    · intro j1 j2 k1 k2 p1 p2 M1 M2 hj1 hj2 hM1 hM2 hne heq
      obtain ⟨X1, hX1, hi1⟩ := pos j1 k1 p1 hj1
      obtain ⟨X2, hX2, hi2⟩ := pos j2 k2 p2 hj2
      rw [hM1] at hX1
      rw [hM2] at hX2
      cases hX1
      cases hX2
      have hjj : j1 = j2 := by rw [← hi1, ← hi2, heq]
      subst hjj
      rw [hj1] at hj2
      cases hj2
      exact hne rfl

/-- Witness of C8: the sample listing, reconciled with a callback that fills in the URL. -/
theorem module_index_unique_witness :
    (∀ f, some callbackSample = some f → ∀ m, (f m).Index = m.Index) ∧
    (decodeListing envSample listingSample).isSome = true ∧
    confirmPackageModules envSample (some listingSample) false (some callbackSample) true
      analyzerCycle = some analyzerDone ∧
    ((∀ (j : Nat) (k : String) (ptr : ModulePtr),
        analyzerDone.modulesByPath[j]? = some (k, ptr) →
        ∃ M, analyzerDone.getModule ptr = some M ∧ M.Index = j) ∧
      (analyzerDone.modulesByPath[0]? = some ("std", ModulePtr.std) ∧
        ∃ s, analyzerDone.stdModule = some s ∧ s.Index = 0) ∧
      (∀ (j : Nat) (k : String), analyzerDone.modulesByPath[j]? = some (k, ModulePtr.cmd) →
        j = 1 ∧ k = "cmd" ∧ ∃ w, analyzerDone.toolchainModule = some w ∧ w.Index = 1) ∧
      (∀ (j1 j2 : Nat) (k1 k2 : String) (p1 p2 : ModulePtr) (M1 M2 : Module),
        analyzerDone.modulesByPath[j1]? = some (k1, p1) →
        analyzerDone.modulesByPath[j2]? = some (k2, p2) →
        analyzerDone.getModule p1 = some M1 → analyzerDone.getModule p2 = some M2 → p1 ≠ p2 →
        M1.Index ≠ M2.Index)) :=
  ⟨fun f hf m => by cases hf; rfl, by decide, by decide,
    module_index_unique envSample listingSample false (some callbackSample) true analyzerCycle
      analyzerDone (fun f hf m => by cases hf; rfl) (by decide) (by decide)⟩

/-- Counterexample to C8 as stated: the caller's callback writes the index of the module it
receives; the run completes, and the module `m`, registered third, has the index 0 of the
standard module. -/
theorem module_index_counterexample :
    ∃ (d' : CodeAnalyzer 4) (s M : Module),
      confirmPackageModules envSample (some listingSample) false (some callbackResetIndex)
        false analyzerCycle = some d' ∧
      d'.modulesByPath = [("std", ModulePtr.std), ("cmd", ModulePtr.cmd),
        ("m", ModulePtr.ext 0)] ∧
      d'.getModule ModulePtr.std = some s ∧ d'.getModule (ModulePtr.ext 0) = some M ∧
      s.Index = 0 ∧ M.Index = 0 :=
  ⟨{ analyzerDone with
      nonToolchainModules := [⟨"m", "v1.2.3", "/w", [0], 0, "v1.2.3", "", "", ""⟩] },
    ⟨"", "go1.16", "/go/src", [3, 2], 0, "go1.16", "/go", "https://github.com/golang/go",
      "/src/"⟩,
    ⟨"m", "v1.2.3", "/w", [0], 0, "v1.2.3", "", "", ""⟩,
    by decide, rfl, rfl, rfl, rfl, rfl⟩

/-- Witness of C9: the second record of the listing does not decode. -/
theorem degraded_mode_unchanged_witness :
    (∃ c ∈ splitRecords "\x7ba\x7d\n\x7bzz".data, envSample.unmarshal c = none) ∧
    confirmPackageModules envSample (some "\x7ba\x7d\n\x7bzz".data) true none true
      analyzerCycle = some analyzerCycle :=
  ⟨⟨"\x7bzz".data, by decide, by decide⟩,
    degraded_mode_unchanged envSample (some "\x7ba\x7d\n\x7bzz".data) true none true
      analyzerCycle (Or.inr ⟨_, rfl, "\x7bzz".data, by decide, by decide⟩)⟩

/-! ## The toolchain module -/

theorem tally_spec (env : Env) (cs : List (List Char)) :
    ∀ (t0 t : Tally),
      cs.foldlM (fun t1 c => (env.unmarshal c).map (tallyRecord env.toolchainPath t1)) t0
        = some t →
      t.pkgs = t0.pkgs ++ cs.filterMap env.unmarshal ∧
      t.numToolchainPkgs = t0.numToolchainPkgs +
        ((cs.filterMap env.unmarshal).filter (isToolchainRecord env.toolchainPath)).length := by
  induction cs with
  | nil =>
    intro t0 t h
    simp only [List.foldlM_nil, pure, Option.some.injEq] at h
    subst h
    simp
  | cons c cs ih =>
    intro t0 t h
    simp only [List.foldlM_cons] at h
    cases hu : env.unmarshal c with
    | none => simp [hu] at h
    | some p =>
      simp only [hu, Option.map_some', Option.some_bind, Option.bind_eq_bind] at h
      obtain ⟨h1, h2⟩ := ih _ t h
      rw [h1, h2]
      simp only [List.filterMap_cons, hu]
      unfold tallyRecord
      by_cases hp : p.Module.Path = ""
      · by_cases hd : HasPrefix p.Dir env.toolchainPath = true
        · simp [hp, hd, isToolchainRecord, List.filter_cons]
          omega
        · simp [hp, hd, isToolchainRecord, List.filter_cons]
      · simp [hp, isToolchainRecord, List.filter_cons]

theorem decodeListing_spec (env : Env) (output : List Char) (t : Tally)
    (h : decodeListing env output = some t) :
    (∀ p, p ∈ t.pkgs ↔ Listed env output p) ∧
    (t.numToolchainPkgs = 0 ↔
      ¬ ∃ p, Listed env output p ∧ isToolchainRecord env.toolchainPath p = true) := by
  rw [decodeListing_eq] at h
  obtain ⟨h1, h2⟩ := tally_spec env _ _ t h
  simp only [List.nil_append, Nat.zero_add] at h1 h2
  have hmem : ∀ p, p ∈ t.pkgs ↔ Listed env output p := by
    intro p
    rw [h1, List.mem_filterMap]
    rfl
  refine ⟨hmem, ?_⟩
  rw [h2, ← h1, List.length_eq_zero, List.filter_eq_nil_iff]
  constructor
  · rintro hall ⟨p, hp, hc⟩
    exact hall p ((hmem p).mpr hp) hc
  · intro hno p hp hc
    exact hno ⟨p, (hmem p).mp hp, hc⟩

theorem toolchainModule_modifyModule {n : Nat} (d : CodeAnalyzer n) (f : Module → Module)
    (p : ModulePtr) (hp : p ≠ ModulePtr.cmd) :
    (d.modifyModule f p).toolchainModule = d.toolchainModule := by
  cases p with
  | std => rfl
  | cmd => exact absurd rfl hp
  | ext i => rfl

/-- Without a toolchain record the second pass never touches the toolchain module. -/
theorem secondPass_toolchainModule {n : Nat} (env : Env) (rs : List ListedPkg)
    (hrs : ∀ p ∈ rs, isToolchainRecord env.toolchainPath p = false) :
    ∀ (d d' : CodeAnalyzer n), rs.foldlM (reconcileRecord env) d = some d' → ModInv false d →
      d'.toolchainModule = d.toolchainModule := by
  induction rs with
  | nil =>
    intro d d' h _
    simp only [List.foldlM_nil, pure, Option.some.injEq] at h
    rw [h]
  | cons p rs ih =>
    intro d d' h hinv
    simp only [List.foldlM_cons] at h
    cases h1 : reconcileRecord env d p with
    | none => simp [h1] at h
    | some d1 =>
      rw [h1] at h
      rw [ih (fun q hq => hrs q (List.mem_cons_of_mem p hq)) d1 d' h
        (reconcileRecord_modInv env false d d1 p h1 hinv)]
      rcases reconcileRecord_cases env d d1 p h1 with h2 | ⟨pk, ptr, _, _, hget, h2⟩ |
        ⟨pk, _, _, hget, h2⟩ | ⟨pk, P, wd, _, hpath, hpre, _, _, _, _, h2⟩
      · rw [h2]
      · rw [h2]
        have hne : ptr ≠ ModulePtr.cmd := by
          rintro rfl
          rcases (hinv.get_iff _ _).mp hget with ⟨_, hc⟩ | ⟨hc, _⟩ | ⟨i, m, _, _, hc⟩
          · cases hc
          · cases hc
          · cases hc
        unfold assignModule
        rw [toolchainModule_modifyModule _ _ _ hne]
        rfl
      · rw [h2]
        unfold assignModule
        rw [toolchainModule_modifyModule _ _ _ (by simp)]
        rfl
      · have := hrs p (List.mem_cons_self p rs)
        simp [isToolchainRecord, hpath, hpre] at this

/-- The toolchain module in terms of the test of the code: it is created and registered, once
and under `cmd`, exactly when a listed record without a module path has a directory that
starts with the toolchain path. -/
theorem toolchainModule_of_records {n : Nat} (env : Env) (output : List Char)
    (hasToolchain : Bool) (completeModuleInfo : Option (Module → Module)) (verboseLogs : Bool)
    (d d' : CodeAnalyzer n)
    (hdec : (decodeListing env output).isSome = true)
    (h : confirmPackageModules env (some output) hasToolchain completeModuleInfo verboseLogs d
      = some d') :
    ((¬ ∃ p, Listed env output p ∧ isToolchainRecord env.toolchainPath p = true) →
      (∀ k, d'.modulesByPath.get k ≠ some ModulePtr.cmd) ∧
      d'.toolchainModule = d.toolchainModule) ∧
    ((∃ p, Listed env output p ∧ isToolchainRecord env.toolchainPath p = true) →
      d'.modulesByPath.get "cmd" = some ModulePtr.cmd ∧
      (∀ k, d'.modulesByPath.get k = some ModulePtr.cmd → k = "cmd") ∧
      ∃ w, d'.toolchainModule = some w ∧ w.Path = "cmd") := by
  rcases confirmPackageModules_cases env (some output) hasToolchain completeModuleInfo
    verboseLogs d d' h with ⟨hdeg, _⟩ | ⟨output1, t, tc, d1, d2, gv, d3, ho, ht, hr, h2, _, _,
      h3, hd'⟩
  · rcases hdeg with hdeg | ⟨o, ho, hn⟩
    · cases hdeg
    · cases ho
      rw [hn] at hdec
      cases hdec
  · cases ho
    obtain ⟨hmem, hnum⟩ := decodeListing_spec env output t ht
    obtain ⟨htc, hinv1, _, _, _, _, hwd1, hno1⟩ :=
      registerFixedModules_spec env hasToolchain t d d1 tc hr
    have hinv2 := secondPass_modInv env tc t.pkgs d1 d2 h2 hinv1
    have hwd2 : tc = true → d2.wdModule = some ModulePtr.cmd := by
      intro htc1
      rw [secondPass_wdModule env t.pkgs d1 d2 h2]
      exact (hwd1 htc1).1
    obtain ⟨_, _, f3, _, f5, _⟩ := finish_spec env gv tc completeModuleInfo d2 d3 h3 hwd2
    rw [← hd'] at f3 f5
    constructor
    · intro hnone
      have htcf : tc = false := by
        rw [htc]
        simp [hnum.mpr hnone]
      subst htcf
      refine ⟨fun k hk => ?_, ?_⟩
      · rw [f3] at hk
        rcases (hinv2.get_iff _ _).mp hk with ⟨_, hc⟩ | ⟨hc, _⟩ | ⟨i, m, _, _, hc⟩
        · cases hc
        · cases hc
        · cases hc
      · rw [f5]
        simp only [Bool.false_eq_true, if_false]
        rw [secondPass_toolchainModule env t.pkgs ?_ d1 d2 h2 hinv1, (hno1 rfl).2]
        intro p hp
        cases hc : isToolchainRecord env.toolchainPath p with
        | false => rfl
        | true => exact absurd ⟨p, (hmem p).mp hp, hc⟩ hnone
    · intro hsome
      have htct : tc = true := by
        rw [htc]
        have : t.numToolchainPkgs ≠ 0 := fun h0 => hnum.mp h0 hsome
        simp [this]
      subst htct
      refine ⟨?_, fun k hk => ?_, ?_⟩
      · rw [f3]
        exact (hinv2.get_iff _ _).mpr (Or.inr (Or.inl ⟨rfl, rfl, rfl⟩))
      · rw [f3] at hk
        rcases (hinv2.get_iff _ _).mp hk with ⟨_, hc⟩ | ⟨_, hk1, _⟩ | ⟨i, m, _, _, hc⟩
        · cases hc
        · exact hk1
        · cases hc
      · obtain ⟨w, hw, hp, _⟩ := hinv2.cmd rfl
        exact ⟨fillModule gv env.toolchainPath env.GOROOT "/src/cmd" w, by simp [f5, hw], hp⟩

theorem underDir_hasPrefix (root dir : String) (h : underDir root dir = true) :
    HasPrefix dir root = true := by
  unfold underDir at h
  unfold HasPrefix at h ⊢
  rw [Bool.or_eq_true] at h
  rcases h with h | h
  · have hd : dir = root := of_decide_eq_true h
    rw [hd, List.isPrefixOf_iff_prefix]
  · rw [List.isPrefixOf_iff_prefix] at h ⊢
    rw [String.data_append] at h
    exact (List.prefix_append _ _).trans h

/-- The test of the code accepts a directory next to the toolchain root whose name starts
with `cmd`, which does not lie under the root. -/
theorem hasPrefix_sibling_directory :
    HasPrefix "/go/src/cmdline/b" envSample.toolchainPath = true ∧
    underDir envSample.toolchainPath "/go/src/cmdline/b" = false :=
  ⟨by decide, by decide⟩

/-- C7 (as amended).  Toolchain detection: for every listing that decodes, in which every
record without a module path whose directory starts with the toolchain path lies under the
toolchain root, and for either value of the caller's `hasToolchain` flag, when
`confirmPackageModules` completes it has created and registered no toolchain module if no
listed record without a module path has its directory under the toolchain root, and it has
created exactly one toolchain module, registered under the path `cmd` and under no other path,
if at least one listed record without a module path has its directory under the toolchain
root. -/
theorem toolchain_module_iff {n : Nat} (env : Env) (output : List Char)
    (hasToolchain : Bool) (completeModuleInfo : Option (Module → Module)) (verboseLogs : Bool)
    (d d' : CodeAnalyzer n)
    (hdec : (decodeListing env output).isSome = true)
    (hdir : ∀ p, Listed env output p → p.Module.Path = "" →
      HasPrefix p.Dir env.toolchainPath = true → underDir env.toolchainPath p.Dir = true)
    (h : confirmPackageModules env (some output) hasToolchain completeModuleInfo verboseLogs d
      = some d') :
    ((¬ ∃ p, Listed env output p ∧ p.Module.Path = "" ∧
        underDir env.toolchainPath p.Dir = true) →
      (∀ k, d'.modulesByPath.get k ≠ some ModulePtr.cmd) ∧
      d'.toolchainModule = d.toolchainModule) ∧
    ((∃ p, Listed env output p ∧ p.Module.Path = "" ∧
        underDir env.toolchainPath p.Dir = true) →
      d'.modulesByPath.get "cmd" = some ModulePtr.cmd ∧
      (∀ k, d'.modulesByPath.get k = some ModulePtr.cmd → k = "cmd") ∧
      ∃ w, d'.toolchainModule = some w ∧ w.Path = "cmd") := by
  have hequiv : ∀ p, Listed env output p →
      (isToolchainRecord env.toolchainPath p = true ↔
        (p.Module.Path = "" ∧ underDir env.toolchainPath p.Dir = true)) := by
    intro p hp
    unfold isToolchainRecord
    rw [Bool.and_eq_true, decide_eq_true_iff]
    constructor
    · rintro ⟨h1, h2⟩
      exact ⟨h1, hdir p hp h1 h2⟩
    · rintro ⟨h1, h2⟩
      exact ⟨h1, underDir_hasPrefix _ _ h2⟩
  obtain ⟨h1, h2⟩ := toolchainModule_of_records env output hasToolchain completeModuleInfo
    verboseLogs d d' hdec h
  constructor
  · intro hn
    apply h1
    rintro ⟨p, hp, hc⟩
    exact hn ⟨p, hp, (hequiv p hp).mp hc⟩
  · rintro ⟨p, hp, hc⟩
    exact h2 ⟨p, hp, (hequiv p hp).mpr hc⟩

/-- Witness of C7: the caller passes `hasToolchain = false`, the listing holds the toolchain
package `b` in the directory `/go/src/cmd/b`, and the toolchain module is created and
registered under `cmd`. -/
theorem toolchain_module_iff_witness :
    (decodeListing envSample listingSample).isSome = true ∧
    (∀ p, Listed envSample listingSample p → p.Module.Path = "" →
      HasPrefix p.Dir envSample.toolchainPath = true →
      underDir envSample.toolchainPath p.Dir = true) ∧
    confirmPackageModules envSample (some listingSample) false (some callbackSample) true
      analyzerCycle = some analyzerDone ∧
    (∃ p, Listed envSample listingSample p ∧ p.Module.Path = "" ∧
      underDir envSample.toolchainPath p.Dir = true) ∧
    analyzerDone.modulesByPath.get "cmd" = some ModulePtr.cmd ∧
    (∀ k, analyzerDone.modulesByPath.get k = some ModulePtr.cmd → k = "cmd") ∧
    ∃ w, analyzerDone.toolchainModule = some w ∧ w.Path = "cmd" :=
  ⟨by decide,
    (by decide : ∀ p ∈ decodedRecords envSample listingSample, p.Module.Path = "" →
      HasPrefix p.Dir envSample.toolchainPath = true →
      underDir envSample.toolchainPath p.Dir = true) |> fun hall p hp =>
        hall p (List.mem_filterMap.mpr hp),
    by decide,
    ⟨⟨"b", "/go/src/cmd/b", Module.zero, true, false⟩, ⟨"\x7bb\x7d".data, by decide, by decide⟩,
      by decide, by decide⟩,
    (toolchain_module_iff envSample listingSample false (some callbackSample) true analyzerCycle
      analyzerDone (by decide)
      ((by decide : ∀ p ∈ decodedRecords envSample listingSample, p.Module.Path = "" →
        HasPrefix p.Dir envSample.toolchainPath = true →
        underDir envSample.toolchainPath p.Dir = true) |> fun hall p hp =>
          hall p (List.mem_filterMap.mpr hp))
      (by decide)).2
      ⟨⟨"b", "/go/src/cmd/b", Module.zero, true, false⟩,
        ⟨"\x7bb\x7d".data, by decide, by decide⟩, by decide, by decide⟩⟩

/-- Counterexample to C7 as stated: the listed package `b` has its directory under the
toolchain root, but it carries a module path, so it is counted for its module; the caller
passes `hasToolchain = true`, and still no toolchain module is created or registered. -/
theorem toolchain_module_counterexample :
    (∃ p, Listed envSample listingModuleUnderToolchain p ∧
      underDir envSample.toolchainPath p.Dir = true) ∧
    confirmPackageModules envSample (some listingModuleUnderToolchain) true none false
      analyzerCycle = some analyzerNoToolchain ∧
    analyzerNoToolchain.toolchainModule = none ∧
    analyzerNoToolchain.modulesByPath.get "cmd" = none ∧
    ∀ k, analyzerNoToolchain.modulesByPath.get k ≠ some ModulePtr.cmd := by
  refine ⟨⟨⟨"b", "/go/src/cmd/b", { Module.zero with Path := "m", Version := "v1.2.3" },
    false, false⟩, ⟨"\x7bt\x7d".data, by decide, by decide⟩, by decide⟩, by decide, rfl,
    by decide, ?_⟩
  intro k hk
  have h1 := GoMap.mem_of_get _ k _ hk
  simp [analyzerNoToolchain] at h1

/-! ## The partition of the packages among the modules -/

theorem partInv_modifyPackage {n : Nat} {d : CodeAnalyzer n} (h : PartInv d)
    (f : Package n → Package n) (pk : Nat) (hf : ∀ q, (f q).Module = q.Module) :
    PartInv (d.modifyPackage f pk) := by
  have hget : ∀ (i : Nat) (P : Package n), (d.modifyPackage f pk).packageList[i]? = some P →
      ∃ P0, d.packageList[i]? = some P0 ∧ P.Module = P0.Module := by
    intro i P hP
    have hP1 : (modifyAt f pk d.packageList)[i]? = some P := hP
    rw [getElem?_modifyAt] at hP1
    split at hP1
    · cases hx : d.packageList[i]? with
      | none => simp [hx] at hP1
      | some x =>
        simp only [hx, Option.map_some', Option.some.injEq] at hP1
        exact ⟨x, rfl, by rw [← hP1, hf]⟩
    · exact ⟨P, hP1, rfl⟩
  constructor
  · intro k ptr hk
    obtain ⟨M, hM, hlt, hcount⟩ := h.lists k ptr hk
    refine ⟨M, by rw [getModule_modifyPackage]; exact hM, ?_, ?_⟩
    · intro x hx
      have : (d.modifyPackage f pk).packageList.length = d.packageList.length :=
        length_modifyAt f pk d.packageList
      rw [this]
      exact hlt x hx
    · intro i P hP
      obtain ⟨P0, hP0, hm⟩ := hget i P hP
      rw [hm]
      exact hcount i P0 hP0
  · intro i P ptr hP hm
    obtain ⟨P0, hP0, hm0⟩ := hget i P hP
    exact h.owned i P0 ptr hP0 (hm0 ▸ hm)

theorem partInv_assignModule {n : Nat} {d : CodeAnalyzer n} (h : PartInv d) (pk : Nat)
    (ptr : ModulePtr) (P : Package n) (hreg : ∃ k, d.modulesByPath.get k = some ptr)
    (hP : d.packageList[pk]? = some P) (hnone : P.Module = none) :
    PartInv (assignModule d pk ptr) := by
  have hlist : (assignModule d pk ptr).packageList =
      modifyAt (fun q => { q with Module := some ptr }) pk d.packageList := by
    unfold assignModule
    rw [packageList_modifyModule]
    rfl
  have hmap : (assignModule d pk ptr).modulesByPath = d.modulesByPath := by
    unfold assignModule
    rw [modulesByPath_modifyModule]
    rfl
  have hmod : ∀ q, (assignModule d pk ptr).getModule q =
      if ptr = q then (d.getModule q).map (fun m1 => { m1 with Pkgs := m1.Pkgs ++ [pk] })
      else d.getModule q := by
    intro q
    unfold assignModule
    rw [getModule_modifyModule, getModule_modifyPackage]
  have hpk : pk < d.packageList.length := by
    rcases Nat.lt_or_ge pk d.packageList.length with hlt | hge
    · exact hlt
    · rw [List.getElem?_eq_none hge] at hP
      cases hP
  have hget : ∀ (i : Nat) (Q : Package n), (assignModule d pk ptr).packageList[i]? = some Q →
      (i = pk ∧ Q = { P with Module := some ptr }) ∨ (i ≠ pk ∧ d.packageList[i]? = some Q) := by
    intro i Q hQ
    rw [hlist, getElem?_modifyAt] at hQ
    split at hQ
    · rename_i hi
      subst hi
      rw [hP] at hQ
      simp only [Option.map_some', Option.some.injEq] at hQ
      exact Or.inl ⟨rfl, hQ.symm⟩
    · rename_i hi
      exact Or.inr ⟨fun hh => hi hh.symm, hQ⟩
  constructor
  · intro k q hk
    rw [hmap] at hk
    obtain ⟨M, hM, hlt, hcount⟩ := h.lists k q hk
    rw [hlist, length_modifyAt]
    by_cases hq : ptr = q
    · subst hq
      refine ⟨{ M with Pkgs := M.Pkgs ++ [pk] }, by rw [hmod]; simp [hM], ?_, ?_⟩
      · intro x hx
        rcases List.mem_append.mp hx with hx | hx
        · exact hlt x hx
        · rw [List.mem_singleton.mp hx]
          exact hpk
      · intro i Q hQ
        rw [← hlist] at hQ
        rcases hget i Q hQ with ⟨hi, hQe⟩ | ⟨hi, hQ0⟩
        · subst hi
          subst hQe
          have h0 := hcount i P hP
          rw [hnone] at h0
          simp only [List.count_append, h0]
          simp
        · have h0 := hcount i Q hQ0
          simp only [List.count_append, h0]
          have : ¬ pk = i := fun hh => hi hh.symm
          simp [List.count_singleton, this]
    · refine ⟨M, by rw [hmod]; simp [hq, hM], hlt, ?_⟩
      intro i Q hQ
      rw [← hlist] at hQ
      rcases hget i Q hQ with ⟨hi, hQe⟩ | ⟨hi, hQ0⟩
      · subst hi
        subst hQe
        have h0 := hcount i P hP
        rw [hnone] at h0
        rw [h0]
        simp [hq]
      · exact hcount i Q hQ0
  · intro i Q q hQ hm
    rw [hmap]
    rcases hget i Q hQ with ⟨hi, hQe⟩ | ⟨hi, hQ0⟩
    · subst hQe
      simp only [Option.some.injEq] at hm
      subst hm
      exact hreg
    · exact h.owned i Q q hQ0 hm

theorem partInv_addExtModule {n : Nat} {tc : Bool} {d : CodeAnalyzer n} (h : PartInv d)
    (hinv : ModInv tc d) (m : Module) (hget : d.modulesByPath.get m.Path = none) :
    PartInv (addExtModule d m) := by
  have hlist : (addExtModule d m).packageList = d.packageList := rfl
  have hmap : (addExtModule d m).modulesByPath =
      d.modulesByPath.set m.Path (ModulePtr.ext d.nonToolchainModules.length) := rfl
  have hold : ∀ k q, d.modulesByPath.get k = some q →
      (addExtModule d m).getModule q = d.getModule q := by
    intro k q hk
    cases q with
    | std => rfl
    | cmd => rfl
    | ext i =>
      rcases (hinv.get_iff _ _).mp hk with ⟨_, hc⟩ | ⟨_, _, hc⟩ | ⟨j, x, hx, _, hc⟩
      · cases hc
      · cases hc
      · cases hc
        have hlt : i < d.nonToolchainModules.length := by
          rcases Nat.lt_or_ge i d.nonToolchainModules.length with hlt | hge
          · exact hlt
          · rw [List.getElem?_eq_none hge] at hx
            cases hx
        show (d.nonToolchainModules ++ _)[i]? = d.nonToolchainModules[i]?
        rw [List.getElem?_append_left hlt]
  constructor
  · intro k q hk
    rw [hmap, GoMap.get_set] at hk
    rw [hlist]
    split at hk
    · cases hk
      refine ⟨{ m with Index := d.modulesByPath.length, Pkgs := [] }, ?_, by simp, ?_⟩
      · show (d.nonToolchainModules ++ _)[d.nonToolchainModules.length]? = _
        simp
      · intro i P hP
        have hne : P.Module ≠ some (ModulePtr.ext d.nonToolchainModules.length) := by
          intro hm
          obtain ⟨k1, hk1⟩ := h.owned i P _ hP hm
          rcases (hinv.get_iff _ _).mp hk1 with ⟨_, hc⟩ | ⟨_, _, hc⟩ | ⟨j, x, hx, _, hc⟩
          · cases hc
          · cases hc
          · cases hc
            rw [List.getElem?_eq_none (Nat.le_refl _)] at hx
            cases hx
        simp [hne]
    · obtain ⟨M, hM, hlt, hcount⟩ := h.lists k q hk
      exact ⟨M, by rw [hold k q hk]; exact hM, hlt, hcount⟩
  · intro i P q hP hm
    obtain ⟨k, hk⟩ := h.owned i P q hP hm
    refine ⟨k, ?_⟩
    rw [hmap, GoMap.get_set]
    split
    · rename_i hkk
      rw [← hkk, hget] at hk
      cases hk
    · exact hk

theorem packageList_assignModule {n : Nat} (d : CodeAnalyzer n) (pk : Nat) (ptr : ModulePtr) :
    (assignModule d pk ptr).packageList =
      modifyAt (fun q => { q with Module := some ptr }) pk d.packageList := by
  unfold assignModule
  rw [packageList_modifyModule]
  rfl

theorem packageTable_assignModule {n : Nat} (d : CodeAnalyzer n) (pk : Nat) (ptr : ModulePtr) :
    (assignModule d pk ptr).packageTable = d.packageTable := by
  unfold assignModule
  rw [packageTable_modifyModule]
  rfl

theorem getElem?_modifyAt_some {α : Type} (f : α → α) (pk i : Nat) (l : List α) (a : α)
    (h : (modifyAt f pk l)[i]? = some a) :
    (i = pk ∧ ∃ b, l[i]? = some b ∧ a = f b) ∨ (i ≠ pk ∧ l[i]? = some a) := by
  rw [getElem?_modifyAt] at h
  split at h
  · rename_i hi
    cases hb : l[i]? with
    | none => simp [hb] at h
    | some b =>
      simp only [hb, Option.map_some', Option.some.injEq] at h
      exact Or.inl ⟨hi.symm, b, rfl, h.symm⟩
  · rename_i hi
    exact Or.inr ⟨fun hh => hi hh.symm, h⟩

/-- One step of the second pass keeps the partition, provided a record with a module path
names a package that has no module yet. -/
theorem reconcileRecord_partInv {n : Nat} (env : Env) (tc : Bool) (d d' : CodeAnalyzer n)
    (p : ListedPkg) (h : reconcileRecord env d p = some d')
    (hinv : ModInv tc d) (hpart : PartInv d)
    (hvalid : ∀ k i, d.packageTable.get k = some i → i < d.packageList.length)
    (hwd : tc = true → d.wdModule = some ModulePtr.cmd)
    (htc : isToolchainRecord env.toolchainPath p = true → tc = true)
    (hfree : p.Module.Path ≠ "" → ∀ (i : Nat) (P : Package n),
      d.packageTable.get p.ImportPath = some i → d.packageList[i]? = some P →
      P.Module = none) :
    PartInv d' ∧ d'.packageTable = d.packageTable ∧
    d'.packageList.length = d.packageList.length ∧
    ∀ (i : Nat) (Q : Package n), d'.packageList[i]? = some Q →
      ∃ P, d.packageList[i]? = some P ∧
        (Q.Module = P.Module ∨ d.packageTable.get p.ImportPath = some i) := by
  rcases reconcileRecord_cases env d d' p h with h1 | ⟨pk, ptr, hpk, hpath, hget, h1⟩ |
    ⟨pk, hpk, hpath, hget, h1⟩ | ⟨pk, P, wd, hpk, hpath, hpre, hP, hnone, hwd1, _, h1⟩
  · subst h1
    exact ⟨hpart, rfl, rfl, fun i Q hQ => ⟨Q, hQ, Or.inl rfl⟩⟩
  · subst h1
    have hlt := hvalid _ _ hpk
    have hP : d.packageList[pk]? = some d.packageList[pk] := List.getElem?_eq_getElem hlt
    have hnone := hfree hpath pk _ hpk hP
    have hP1 : (d.modifyPackage (fun q => { q with Directory := p.Dir }) pk).packageList[pk]?
        = some { d.packageList[pk] with Directory := p.Dir } := by
      show (modifyAt _ pk d.packageList)[pk]? = _
      rw [getElem?_modifyAt_self, hP]
      rfl
    refine ⟨partInv_assignModule (partInv_modifyPackage hpart (fun q => { q with Directory := p.Dir }) pk (fun _ => rfl)) pk ptr _
      ⟨_, hget⟩ hP1 hnone, ?_, ?_, ?_⟩
    · rw [packageTable_assignModule]
      rfl
    · rw [packageList_assignModule, length_modifyAt]
      exact length_modifyAt _ pk d.packageList
    · intro i Q hQ
      rw [packageList_assignModule] at hQ
      rcases getElem?_modifyAt_some _ pk i _ Q hQ with ⟨hi, _⟩ | ⟨hi, hQ1⟩
      · subst hi
        exact ⟨_, hP, Or.inr hpk⟩
      · rcases getElem?_modifyAt_some _ pk i _ Q hQ1 with ⟨hi1, _⟩ | ⟨_, hQ2⟩
        · exact absurd hi1 hi
        · exact ⟨Q, hQ2, Or.inl rfl⟩
  · subst h1
    have hlt := hvalid _ _ hpk
    have hP : d.packageList[pk]? = some d.packageList[pk] := List.getElem?_eq_getElem hlt
    have hnone := hfree hpath pk _ hpk hP
    have hP1 : (addExtModule (d.modifyPackage (fun q => { q with Directory := p.Dir }) pk)
        p.Module).packageList[pk]? = some { d.packageList[pk] with Directory := p.Dir } := by
      show (modifyAt _ pk d.packageList)[pk]? = _
      rw [getElem?_modifyAt_self, hP]
      rfl
    have hreg : ∃ k, (addExtModule (d.modifyPackage (fun q => { q with Directory := p.Dir }) pk)
        p.Module).modulesByPath.get k = some (ModulePtr.ext d.nonToolchainModules.length) :=
      ⟨p.Module.Path, GoMap.get_set_self _ _ _⟩
    refine ⟨partInv_assignModule (partInv_addExtModule
      (partInv_modifyPackage hpart (fun q => { q with Directory := p.Dir }) pk (fun _ => rfl)) (hinv.modifyPackage (fun q => { q with Directory := p.Dir }) pk) p.Module hget)
      pk _ _ hreg hP1 hnone, ?_, ?_, ?_⟩
    · rw [packageTable_assignModule]
      rfl
    · rw [packageList_assignModule, length_modifyAt]
      exact length_modifyAt _ pk d.packageList
    · intro i Q hQ
      rw [packageList_assignModule] at hQ
      rcases getElem?_modifyAt_some _ pk i _ Q hQ with ⟨hi, _⟩ | ⟨hi, hQ1⟩
      · subst hi
        exact ⟨_, hP, Or.inr hpk⟩
      · have hQ2 : (modifyAt (fun q => { q with Directory := p.Dir }) pk d.packageList)[i]?
            = some Q := hQ1
        rcases getElem?_modifyAt_some _ pk i _ Q hQ2 with ⟨hi1, _⟩ | ⟨_, hQ3⟩
        · exact absurd hi1 hi
        · exact ⟨Q, hQ3, Or.inl rfl⟩
  · subst h1
    have htc1 : tc = true := htc (by simp [isToolchainRecord, hpath, hpre])
    have hwd2 := hwd htc1
    rw [hwd1] at hwd2
    cases hwd2
    have hreg : ∃ k, d.modulesByPath.get k = some ModulePtr.cmd :=
      ⟨"cmd", (hinv.get_iff _ _).mpr (Or.inr (Or.inl ⟨htc1, rfl, rfl⟩))⟩
    refine ⟨partInv_assignModule hpart pk _ P hreg hP hnone, packageTable_assignModule _ _ _,
      ?_, ?_⟩
    · rw [packageList_assignModule, length_modifyAt]
    · intro i Q hQ
      rw [packageList_assignModule] at hQ
      rcases getElem?_modifyAt_some _ pk i _ Q hQ with ⟨hi, _⟩ | ⟨hi, hQ1⟩
      · subst hi
        exact ⟨P, hP, Or.inr hpk⟩
      · exact ⟨Q, hQ1, Or.inl rfl⟩

/-- The second pass keeps the partition when no package is named by two records and no record
with a module path names a package that had a module before the pass. -/
theorem secondPass_partInv {n : Nat} (env : Env) (tc : Bool) (T : GoMap Nat) (L : Nat)
    (std0 : Nat → Prop) (hvalid : ∀ k i, T.get k = some i → i < L) (rs : List ListedPkg) :
    ∀ (done : List Nat) (d d' : CodeAnalyzer n),
      rs.foldlM (reconcileRecord env) d = some d' →
      ModInv tc d → PartInv d → d.packageTable = T → d.packageList.length = L →
      (tc = true → d.wdModule = some ModulePtr.cmd) →
      (∀ p ∈ rs, isToolchainRecord env.toolchainPath p = true → tc = true) →
      (∀ (i : Nat) (P : Package n), d.packageList[i]? = some P → P.Module ≠ none →
        std0 i ∨ i ∈ done) →
      (∀ p ∈ rs, p.Module.Path ≠ "" → ∀ i, T.get p.ImportPath = some i → ¬ std0 i) →
      (done ++ rs.filterMap (fun p => T.get p.ImportPath)).Nodup →
      PartInv d' ∧ d'.packageTable = T ∧ d'.packageList.length = L := by
  induction rs with
  | nil =>
    intro done d d' h _ hpart hT hL _ _ _ _ _
    simp only [List.foldlM_nil, pure, Option.some.injEq] at h
    subst h
    exact ⟨hpart, hT, hL⟩
  | cons p rs ih =>
    intro done d d' h hinv hpart hT hL hwd htc htrack hstd hnd
    simp only [List.foldlM_cons] at h
    cases h1 : reconcileRecord env d p with
    | none => simp [h1] at h
    | some d1 =>
      rw [h1] at h
      have hfree : p.Module.Path ≠ "" → ∀ (i : Nat) (P : Package n),
          d.packageTable.get p.ImportPath = some i → d.packageList[i]? = some P →
          P.Module = none := by
        intro hpath i P hi hP
        by_contra hne
        rw [hT] at hi
        rcases htrack i P hP hne with hs | hd
        · exact hstd p (List.mem_cons_self p rs) hpath i hi hs
        · rw [List.nodup_append] at hnd
          apply hnd.2.2 hd
          simp only [List.filterMap_cons, hi]
          exact List.mem_cons_self _ _
      obtain ⟨hpart1, hT1, hL1, hch⟩ := reconcileRecord_partInv env tc d d1 p h1 hinv hpart
        (by rw [hT, hL]; exact hvalid) hwd (htc p (List.mem_cons_self p rs)) hfree
      apply ih (done ++ (T.get p.ImportPath).toList) d1 d' h
        (reconcileRecord_modInv env tc d d1 p h1 hinv) hpart1 (hT1.trans hT) (hL1.trans hL)
      · intro htc1
        rw [reconcileRecord_wdModule env d d1 p h1]
        exact hwd htc1
      · exact fun q hq => htc q (List.mem_cons_of_mem p hq)
      · intro i Q hQ hne
        obtain ⟨P, hP, hor⟩ := hch i Q hQ
        rcases hor with hsame | hres
        · rcases htrack i P hP (hsame ▸ hne) with hs | hd
          · exact Or.inl hs
          · exact Or.inr (List.mem_append_left _ hd)
        · rw [hT] at hres
          exact Or.inr (List.mem_append_right _ (by simp [hres]))
      · exact fun q hq => hstd q (List.mem_cons_of_mem p hq)
      · cases hres : T.get p.ImportPath with
        | none =>
          simp only [List.filterMap_cons, hres] at hnd
          simpa using hnd
        | some i =>
          simp only [List.filterMap_cons, hres] at hnd
          simpa using hnd

/-- The standard module receives each of its packages once when the paths of `stdPkgs` name
pairwise distinct packages: with the standard module as the only registered module, the
packages are partitioned, and only packages named by `stdPkgs` have a module. -/
theorem assignStdModule_spec {n : Nat} (stdPkgs : List String) (g : CodeAnalyzer n)
    (hfresh : ∀ (i : Nat) (P : Package n), g.packageList[i]? = some P → P.Module = none)
    (hvalid : ∀ k i, g.packageTable.get k = some i → i < g.packageList.length)
    (hnd : (stdPkgs.filterMap g.packageTable.get).Nodup) :
    (assignStdModule stdPkgs g).packageTable = g.packageTable ∧
    (assignStdModule stdPkgs g).packageList.length = g.packageList.length ∧
    PartInv { assignStdModule stdPkgs g with modulesByPath := [("std", ModulePtr.std)] } ∧
    (∀ (i : Nat) (P : Package n), (assignStdModule stdPkgs g).packageList[i]? = some P →
      P.Module ≠ none → i ∈ stdPkgs.filterMap g.packageTable.get) ∧
    (assignStdModule stdPkgs g).wdModule = g.wdModule ∧
    (assignStdModule stdPkgs g).toolchainModule = g.toolchainModule := by
  have hreg : ∀ (d : CodeAnalyzer n),
      ∃ k, ({ d with modulesByPath := [("std", ModulePtr.std)] } :
        CodeAnalyzer n).modulesByPath.get k = some ModulePtr.std :=
    fun d => ⟨"std", by simp [GoMap.get]⟩
  have key : ∀ (ks : List String) (done : List Nat) (d : CodeAnalyzer n),
      d.packageTable = g.packageTable → d.packageList.length = g.packageList.length →
      PartInv { d with modulesByPath := [("std", ModulePtr.std)] } →
      (∀ (i : Nat) (P : Package n), d.packageList[i]? = some P → P.Module ≠ none →
        i ∈ done) →
      (done ++ ks.filterMap g.packageTable.get).Nodup →
      let r := ks.foldl (fun d1 path =>
        match d1.packageTable.get path with
        | none => d1
        | some pk =>
          (d1.modifyPackage (fun p => { p with Module := some ModulePtr.std }) pk).modifyModule
            (fun m => { m with Pkgs := m.Pkgs ++ [pk] }) ModulePtr.std) d
      r.packageTable = g.packageTable ∧ r.packageList.length = g.packageList.length ∧
      PartInv { r with modulesByPath := [("std", ModulePtr.std)] } ∧
      (∀ (i : Nat) (P : Package n), r.packageList[i]? = some P → P.Module ≠ none →
        i ∈ done ++ ks.filterMap g.packageTable.get) ∧
      r.wdModule = d.wdModule ∧ r.toolchainModule = d.toolchainModule := by
    intro ks
    induction ks with
    | nil =>
      intro done d hT hL hpart htrack _
      exact ⟨hT, hL, hpart, fun i P hP hne => by simpa using htrack i P hP hne, rfl, rfl⟩
    | cons k ks ih =>
      intro done d hT hL hpart htrack hnd1
      simp only [List.foldl_cons]
      cases hk : d.packageTable.get k with
      | none =>
        have hk1 : g.packageTable.get k = none := hT ▸ hk
        simp only [List.filterMap_cons, hk1] at hnd1 ⊢
        exact ih done d hT hL hpart htrack hnd1
      | some pk =>
        have hk1 : g.packageTable.get k = some pk := hT ▸ hk
        simp only [List.filterMap_cons, hk1] at hnd1 ⊢
        have hlt : pk < d.packageList.length := by
          rw [hL]
          exact hvalid k pk hk1
        have hP : d.packageList[pk]? = some d.packageList[pk] := List.getElem?_eq_getElem hlt
        have hnone : d.packageList[pk].Module = none := by
          by_contra hne
          have hmem := htrack pk _ hP hne
          rw [List.nodup_append] at hnd1
          exact hnd1.2.2 hmem (List.mem_cons_self _ _)
        have hstep := partInv_assignModule hpart pk ModulePtr.std _ (hreg d) hP hnone
        have hnd2 : ((done ++ [pk]) ++ ks.filterMap g.packageTable.get).Nodup := by
          simpa using hnd1
        obtain ⟨r1, r2, r3, r4, r5, r6⟩ := ih (done ++ [pk]) (assignModule d pk ModulePtr.std)
          (by rw [packageTable_assignModule]; exact hT)
          (by rw [packageList_assignModule, length_modifyAt]; exact hL)
          hstep
          (by
            intro i Q hQ hne
            rw [packageList_assignModule] at hQ
            rcases getElem?_modifyAt_some _ pk i _ Q hQ with ⟨hi, _⟩ | ⟨_, hQ1⟩
            · simp [hi]
            · exact List.mem_append_left _ (htrack i Q hQ1 hne))
          hnd2
        refine ⟨r1, r2, r3, ?_, r5, r6⟩
        intro i Q hQ hne
        have := r4 i Q hQ hne
        simpa using this
  have hstart : PartInv ({ ({ g with stdModule := some ⟨"", "", "", [], 0, "", "", "", ""⟩ } :
      CodeAnalyzer n) with modulesByPath := [("std", ModulePtr.std)] } : CodeAnalyzer n) := by
    constructor
    · intro k ptr hk
      have hk1 := GoMap.mem_of_get _ k ptr hk
      simp only [List.mem_singleton, Prod.mk.injEq] at hk1
      obtain ⟨_, hp⟩ := hk1
      subst hp
      refine ⟨⟨"", "", "", [], 0, "", "", "", ""⟩, rfl, by simp, ?_⟩
      intro i P hP
      have := hfresh i P hP
      simp [this]
    · intro i P ptr hP hm
      have := hfresh i P hP
      rw [this] at hm
      cases hm
  have := key stdPkgs [] { g with stdModule := some ⟨"", "", "", [], 0, "", "", "", ""⟩ }
    rfl rfl hstart
    (fun i P hP hne => absurd (hfresh i P hP) hne) (by simpa using hnd)
  simpa [assignStdModule] using this

/-- After the fixed modules are registered the packages are partitioned among the standard
module and the still empty toolchain module. -/
theorem registerFixedModules_partInv {n : Nat} (env : Env) (hasToolchain : Bool) (t : Tally)
    (d d1 : CodeAnalyzer n) (tc : Bool)
    (h : registerFixedModules env hasToolchain t d = some (tc, d1))
    (hpart : PartInv { d with modulesByPath := [("std", ModulePtr.std)] }) : PartInv d1 := by
  obtain ⟨_, hinv, hl, _, hnt, ⟨s, hs, hs1⟩, htrue, _⟩ :=
    registerFixedModules_spec env hasToolchain t d d1 tc h
  have hstd : ∀ (i : Nat) (P : Package n) (ptr : ModulePtr), d.packageList[i]? = some P →
      P.Module = some ptr → ptr = ModulePtr.std := by
    intro i P ptr hP hm
    obtain ⟨k, hk⟩ := hpart.owned i P ptr hP hm
    have hk1 := GoMap.mem_of_get _ k ptr hk
    simp only [List.mem_singleton, Prod.mk.injEq] at hk1
    exact hk1.2
  obtain ⟨M, hM, hlt, hcount⟩ := hpart.lists "std" ModulePtr.std (by simp [GoMap.get])
  have hMs : M = s := by
    have : d.stdModule = some M := hM
    rw [hs] at this
    exact (Option.some.inj this).symm
  subst hMs
  constructor
  · intro k ptr hk
    rw [hl]
    rcases (hinv.get_iff _ _).mp hk with ⟨_, hp⟩ | ⟨htc, _, hp⟩ | ⟨i, m, hm, _, _⟩
    · subst hp
      exact ⟨{ M with Index := 0 }, hs1, hlt, hcount⟩
    · subst hp
      refine ⟨_, (htrue htc).2, by simp, ?_⟩
      intro i P hP
      have hne : P.Module ≠ some ModulePtr.cmd := by
        intro hm
        have := hstd i P _ hP hm
        cases this
      simp [hne]
    · rw [hnt] at hm
      simp at hm
  · intro i P ptr hP hm
    rw [hl] at hP
    have := hstd i P ptr hP hm
    subst this
    exact ⟨"std", (hinv.get_iff _ _).mpr (Or.inl ⟨rfl, rfl⟩)⟩

/-- The steps after the second pass keep the partition when the callback leaves the package
lists alone. -/
theorem finish_partInv {n : Nat} (env : Env) (goVersion : String) (tc : Bool)
    (completeModuleInfo : Option (Module → Module)) (d2 d3 : CodeAnalyzer n)
    (hcb : ∀ f, completeModuleInfo = some f → ∀ m, (f m).Pkgs = m.Pkgs)
    (h : fillFixedModules env goVersion tc d2 = some d3)
    (hwd : tc = true → d2.wdModule = some ModulePtr.cmd)
    (hinv : ModInv tc d2) (hpart : PartInv d2) :
    PartInv (completeModules completeModuleInfo (selectWdModule d3)) := by
  obtain ⟨f1, _, f3, f4, f5, f6⟩ := finish_spec env goVersion tc completeModuleInfo d2 d3 h hwd
  constructor
  · intro k ptr hk
    rw [f3] at hk
    rw [f1]
    obtain ⟨M, hM, hlt, hcount⟩ := hpart.lists k ptr hk
    cases ptr with
    | std =>
      refine ⟨fillModule goVersion env.stdDir env.GOROOT "/src/" M, ?_, hlt, hcount⟩
      have hM1 : d2.stdModule = some M := hM
      simp [CodeAnalyzer.getModule, f4, hM1]
    | cmd =>
      have htc : tc = true := by
        rcases (hinv.get_iff _ _).mp hk with ⟨_, hc⟩ | ⟨htc, _⟩ | ⟨i, m, _, _, hc⟩
        · cases hc
        · exact htc
        · cases hc
      refine ⟨fillModule goVersion env.toolchainPath env.GOROOT "/src/cmd" M, ?_, hlt, hcount⟩
      have hM1 : d2.toolchainModule = some M := hM
      simp [CodeAnalyzer.getModule, f5, hM1, htc]
    | ext i =>
      refine ⟨completeModule completeModuleInfo M, ?_, ?_, ?_⟩
      · have hM1 : d2.nonToolchainModules[i]? = some M := hM
        simp [CodeAnalyzer.getModule, f6, hM1]
      · rw [completeModule_pkgs completeModuleInfo hcb]
        exact hlt
      · rw [completeModule_pkgs completeModuleInfo hcb]
        exact hcount
  · intro i P ptr hP hm
    rw [f1] at hP
    rw [f3]
    exact hpart.owned i P ptr hP hm

theorem decodeListing_pkgs (env : Env) (output : List Char) (t : Tally)
    (h : decodeListing env output = some t) : t.pkgs = decodedRecords env output := by
  rw [decodeListing_eq] at h
  obtain ⟨h1, _⟩ := tally_spec env _ _ t h
  simpa [decodedRecords] using h1

/-- The partition of the packages among the modules, where the defect of the branch for
records with a module path is not reached: after `ParsePackages` has assigned the standard
packages (from a list `stdPkgs` without duplicates) and `confirmPackageModules` has reconciled a
listing that decodes, names no package of the table twice and gives no module path to a
package of `stdPkgs`, with a callback that leaves the package lists alone, the package lists of
the registered modules together hold exactly the packages whose `Module` is set: such a
package occurs once in the list of the module its `Module` points to and in no other list, a
package without `Module` occurs in no list, and every `Module` points to a registered
module. -/
theorem module_partition {n : Nat} (heap : Fin n → PPackage n)
    (shuffle : GoMap (Fin n) → GoMap (Fin n)) (ppkgs : List (Fin n)) (builtinPPkg : Fin n)
    (d0 g : CodeAnalyzer n) (stdPkgs : List String) (env : Env) (output : List Char)
    (hasToolchain : Bool) (completeModuleInfo : Option (Module → Module)) (verboseLogs : Bool)
    (d' : CodeAnalyzer n)
    (hperm : ∀ m, (shuffle m).Perm m)
    (hg : buildPackageGraph heap shuffle ppkgs builtinPPkg d0 = some g)
    (hstd : stdPkgs.Nodup)
    (hcb : ∀ f, completeModuleInfo = some f → ∀ m, (f m).Pkgs = m.Pkgs)
    (hdec : (decodeListing env output).isSome = true)
    (hnames : ((decodedRecords env output).filterMap
      (fun p => g.packageTable.get p.ImportPath)).Nodup)
    (hnostd : ∀ p ∈ decodedRecords env output, p.Module.Path ≠ "" → p.ImportPath ∉ stdPkgs)
    (h : confirmPackageModules env (some output) hasToolchain completeModuleInfo verboseLogs
      (assignStdModule stdPkgs g) = some d') :
    (∀ (k : String) (ptr : ModulePtr), d'.modulesByPath.get k = some ptr →
      ∃ M, d'.getModule ptr = some M ∧ (∀ x ∈ M.Pkgs, x < d'.packageList.length) ∧
        ∀ (i : Nat) (P : Package n), d'.packageList[i]? = some P →
          M.Pkgs.count i = if P.Module = some ptr then 1 else 0) ∧
    (∀ (i : Nat) (P : Package n) (ptr : ModulePtr), d'.packageList[i]? = some P →
      P.Module = some ptr → ∃ k, d'.modulesByPath.get k = some ptr) := by
  obtain ⟨hinvT, hpk, _⟩ := buildPackageGraph_spec heap shuffle ppkgs builtinPPkg d0 g hperm hg
  have hvalid : ∀ k i, g.packageTable.get k = some i → i < g.packageList.length := by
    intro k i hk
    obtain ⟨P, hP, _⟩ := hinvT.entry k i hk
    rcases Nat.lt_or_ge i g.packageList.length with hlt | hge
    · exact hlt
    · rw [List.getElem?_eq_none hge] at hP
      cases hP
  have hinj : ∀ k1 k2 i, g.packageTable.get k1 = some i → g.packageTable.get k2 = some i →
      k1 = k2 := by
    intro k1 k2 i h1 h2
    obtain ⟨P1, hP1, hk1⟩ := hinvT.entry k1 i h1
    obtain ⟨P2, hP2, hk2⟩ := hinvT.entry k2 i h2
    rw [hP1] at hP2
    cases hP2
    rw [← hk1, hk2]
  have hndstd : (stdPkgs.filterMap g.packageTable.get).Nodup :=
    List.Nodup.filterMap (fun a a1 b hb hb1 => hinj a a1 b (by simpa using hb)
      (by simpa using hb1)) hstd
  obtain ⟨sT, sL, spart, strack, _, _⟩ := assignStdModule_spec stdPkgs g
    (fun i P hP => (hpk i P hP).1) hvalid hndstd
  rcases confirmPackageModules_cases env (some output) hasToolchain completeModuleInfo
    verboseLogs _ d' h with ⟨hdeg, _⟩ | ⟨output1, t, tc, d1, d2, gv, d3, ho, ht, hr, h2, _, _,
      h3, hd'⟩
  · rcases hdeg with hdeg | ⟨o, ho, hn⟩
    · cases hdeg
    · cases ho
      rw [hn] at hdec
      cases hdec
  · cases ho
    have hpkgs := decodeListing_pkgs env output t ht
    obtain ⟨hmem, hnum⟩ := decodeListing_spec env output t ht
    obtain ⟨htc, hinv1, hl1, hT1, _, _, hwd1, _⟩ :=
      registerFixedModules_spec env hasToolchain t _ d1 tc hr
    have hpart1 := registerFixedModules_partInv env hasToolchain t _ d1 tc hr spart
    obtain ⟨hpart2, _, _⟩ := secondPass_partInv env tc g.packageTable g.packageList.length
      (fun i => i ∈ stdPkgs.filterMap g.packageTable.get) hvalid t.pkgs [] d1 d2 h2 hinv1 hpart1
      (hT1.trans sT) (by rw [hl1]; exact sL) (fun htc1 => (hwd1 htc1).1)
      (by
        intro p hp hc
        rw [htc]
        have : t.numToolchainPkgs ≠ 0 := fun h0 => hnum.mp h0 ⟨p, (hmem p).mp hp, hc⟩
        simp [this])
      (by
        intro i P hP hne
        rw [hl1] at hP
        exact Or.inl (strack i P hP hne))
      (by
        intro p hp hpath i hi hs
        obtain ⟨k, hk, hki⟩ := List.mem_filterMap.mp hs
        have hkk := hinj k p.ImportPath i hki hi
        rw [hpkgs] at hp
        exact hnostd p hp hpath (hkk ▸ hk))
      (by
        rw [hpkgs]
        simpa using hnames)
    have hinv2 := secondPass_modInv env tc t.pkgs d1 d2 h2 hinv1
    have hwd2 : tc = true → d2.wdModule = some ModulePtr.cmd := by
      intro htc1
      rw [secondPass_wdModule env t.pkgs d1 d2 h2]
      exact (hwd1 htc1).1
    have hfin := finish_partInv env gv tc completeModuleInfo d2 d3 hcb h3 hwd2 hinv2 hpart2
    rw [← hd'] at hfin
    exact ⟨hfin.lists, hfin.owned⟩

/-- The partition holds for the sample listing reconciled with the graph of `heapCycle`. -/
theorem module_partition_witness :
    buildPackageGraph heapCycle id [0] 3 (CodeAnalyzer.empty 4) = some graphCycle ∧
    ["builtin", "c"].Nodup ∧
    ((decodedRecords envSample listingSample).filterMap
      (fun p => graphCycle.packageTable.get p.ImportPath)).Nodup ∧
    (∀ p ∈ decodedRecords envSample listingSample, p.Module.Path ≠ "" →
      p.ImportPath ∉ ["builtin", "c"]) ∧
    confirmPackageModules envSample (some listingSample) false (some callbackSample) true
      (assignStdModule ["builtin", "c"] graphCycle) = some analyzerDone ∧
    ((∀ (k : String) (ptr : ModulePtr), analyzerDone.modulesByPath.get k = some ptr →
      ∃ M, analyzerDone.getModule ptr = some M ∧
        (∀ x ∈ M.Pkgs, x < analyzerDone.packageList.length) ∧
        ∀ (i : Nat) (P : Package 4), analyzerDone.packageList[i]? = some P →
          M.Pkgs.count i = if P.Module = some ptr then 1 else 0) ∧
    (∀ (i : Nat) (P : Package 4) (ptr : ModulePtr), analyzerDone.packageList[i]? = some P →
      P.Module = some ptr → ∃ k, analyzerDone.modulesByPath.get k = some ptr)) :=
  ⟨by decide, by decide, by decide, by decide, by decide,
    module_partition heapCycle id [0] 3 (CodeAnalyzer.empty 4) graphCycle ["builtin", "c"]
      envSample listingSample false (some callbackSample) true analyzerDone
      (fun m => List.Perm.refl m) (by decide) (by decide) (fun f hf m => by cases hf; rfl)
      (by decide) (by decide) (by decide) (by decide)⟩

/-- C6 (code defect).  A listing that names a package twice.  In the branch for records with
a module path (lines 449-464) the package `a` is appended twice to the package list of its
module `m`, so it does not occur only once there; in the sibling branch for toolchain records
(lines 465-471), which skips a package whose `Module` is already set, the package `b` named
twice is appended once to the package list of the toolchain module. -/
theorem module_pkgs_repeated_record :
    (confirmPackageModules envSample (some listingTwice) false none false analyzerCycle
        = some analyzerTwice ∧
      analyzerTwice.modulesByPath.get "m" = some (ModulePtr.ext 0) ∧
      ∃ (M : Module) (P : Package 4), analyzerTwice.getModule (ModulePtr.ext 0) = some M ∧
        analyzerTwice.packageList[0]? = some P ∧ P.Module = some (ModulePtr.ext 0) ∧
        M.Pkgs.count 0 = 2) ∧
    ∃ (d' : CodeAnalyzer 4) (W : Module) (P : Package 4),
      confirmPackageModules envSample (some listingToolchainTwice) false none false
        analyzerCycle = some d' ∧
      d'.modulesByPath.get "cmd" = some ModulePtr.cmd ∧
      d'.getModule ModulePtr.cmd = some W ∧
      d'.packageList[1]? = some P ∧ P.Module = some ModulePtr.cmd ∧
      W.Pkgs.count 1 = 1 :=
  ⟨⟨by decide, by decide, ⟨"m", "v1.2.3", "/w", [0, 0], 1, "v1.2.3", "", "", ""⟩,
      ⟨0, [1], [1], some (ModulePtr.ext 0), "/w/a"⟩, by decide, by decide, by decide,
      by decide⟩,
    { analyzerDone with
      packageList := [⟨0, [1], [1], none, ""⟩, ⟨1, [0, 2], [0], some ModulePtr.cmd, ""⟩,
        ⟨2, [], [1], some ModulePtr.std, ""⟩, ⟨3, [], [], some ModulePtr.std, ""⟩]
      nonToolchainModules := []
      modulesByPath := [("std", ModulePtr.std), ("cmd", ModulePtr.cmd)] },
    ⟨"cmd", "go1.16", "/go/src/cmd", [1], 1, "go1.16", "/go", "https://github.com/golang/go",
      "/src/cmd"⟩,
    ⟨1, [0, 2], [0], some ModulePtr.cmd, ""⟩,
    by decide, by decide, rfl, rfl, rfl, by decide⟩

/-! ## The missing-dependency panic -/

theorem mem_modifyAt {α : Type} (f : α → α) (i : Nat) (l : List α) (a : α)
    (h : a ∈ modifyAt f i l) : a ∈ l ∨ ∃ b ∈ l, a = f b := by
  induction l generalizing i with
  | nil => simp [modifyAt] at h
  | cons x l ih =>
    cases i with
    | zero =>
      simp only [modifyAt, List.mem_cons] at h
      rcases h with h | h
      · exact Or.inr ⟨x, List.mem_cons_self x l, h⟩
      · exact Or.inl (List.mem_cons_of_mem x h)
    | succ i =>
      simp only [modifyAt, List.mem_cons] at h
      rcases h with h | h
      · exact Or.inl (h ▸ List.mem_cons_self x l)
      · rcases ih i h with h1 | ⟨b, hb, h1⟩
        · exact Or.inl (List.mem_cons_of_mem x h1)
        · exact Or.inr ⟨b, List.mem_cons_of_mem x hb, h1⟩

/-- Every package of the list carries the oracle package of one of the visited entries. -/
theorem registerPackages_ppkg {n : Nat} (heap : Fin n → PPackage n)
    (E : List (String × Fin n)) (es : List (String × Fin n)) :
    ∀ (st : GoMap Nat × List (Package n)), (∀ e ∈ es, e ∈ E) →
      (∀ pk ∈ st.2, ∃ e ∈ E, pk.PPkg = e.2) →
      ∀ pk ∈ (es.foldl (registerPackage heap) st).2, ∃ e ∈ E, pk.PPkg = e.2 := by
  induction es with
  | nil =>
    intro st _ h
    exact h
  | cons e es ih =>
    intro st hE h
    simp only [List.foldl_cons]
    apply ih _ (fun x hx => hE x (List.mem_cons_of_mem e hx))
    intro pk hpk
    unfold registerPackage at hpk
    cases hget : st.1.get (heap e.2).PkgPath with
    | none =>
      simp only [hget] at hpk
      rcases List.mem_append.mp hpk with hpk | hpk
      · exact h pk hpk
      · rw [List.mem_singleton.mp hpk]
        exact ⟨e, hE e (List.mem_cons_self e es), rfl⟩
    | some i =>
      simp only [hget] at hpk
      rcases mem_modifyAt _ i st.2 pk hpk with hpk | ⟨b, _, hpk⟩
      · exact h pk hpk
      · rw [hpk]
        exact ⟨e, hE e (List.mem_cons_self e es), rfl⟩

/-- C13.  The missing-dependency panic is unreachable for a consistent oracle: for every list
of root packages and every separately loaded builtin package whose imports all have their
paths among the keys collected by `collectPPackages`, the graph-building step completes, and
every import of every package of the table is found in `packageTable`. -/
theorem dependency_panic_unreachable {n : Nat} (heap : Fin n → PPackage n)
    (shuffle : GoMap (Fin n) → GoMap (Fin n)) (ppkgs : List (Fin n)) (builtinPPkg : Fin n)
    (d0 : CodeAnalyzer n) (hperm : ∀ m, (shuffle m).Perm m)
    (hb : ∀ m, collectPPackages heap ppkgs = some m →
      ∀ q ∈ (heap builtinPPkg).Imports, (m.get (heap q).PkgPath).isSome) :
    ∃ d, buildPackageGraph heap shuffle ppkgs builtinPPkg d0 = some d ∧
      ∀ (i : Nat) (P : Package n), d.packageList[i]? = some P →
        ∀ q ∈ (heap P.PPkg).Imports, (d.packageTable.get (heap q).PkgPath).isSome := by
  have hex : ∃ d, buildPackageGraph heap shuffle ppkgs builtinPPkg d0 = some d := by
    obtain ⟨m, hm, _, hent⟩ := collectPPackages_spec heap ppkgs
    have hnd := collectPPackages_nodup heap ppkgs m hm
    have hall : ∀ e ∈ m.set (heap builtinPPkg).PkgPath builtinPPkg,
        (heap e.2).PkgPath = e.1 ∧
        ∀ q ∈ (heap e.2).Imports, (heap q).PkgPath ∈
          (m.set (heap builtinPPkg).PkgPath builtinPPkg).keys := by
      intro e he
      have he2 := GoMap.get_of_mem _ (GoMap.nodup_keys_set m _ builtinPPkg hnd) e.1 e.2 he
      have hkeys : ∀ k, (m.get k).isSome → k ∈
          (m.set (heap builtinPPkg).PkgPath builtinPPkg).keys := by
        intro k hk
        obtain ⟨v, hv⟩ := Option.isSome_iff_exists.mp hk
        rw [GoMap.keys_set]
        split
        · exact (GoMap.mem_keys_iff m k).mpr ⟨v, hv⟩
        · exact List.mem_append_left _ ((GoMap.mem_keys_iff m k).mpr ⟨v, hv⟩)
      rw [GoMap.get_set] at he2
      split at he2
      · rename_i hk
        cases he2
        exact ⟨hk, fun q hq => hkeys _ (hb m hm q hq)⟩
      · exact ⟨(hent _ _ he2).1, fun q hq => hkeys _ ((hent _ _ he2).2.2 q hq)⟩
    have hes : ∀ e ∈ shuffle (m.set (heap builtinPPkg).PkgPath builtinPPkg),
        (heap e.2).PkgPath = e.1 := fun e he => (hall e ((hperm _).mem_iff.mp he)).1
    obtain ⟨_, hkeys⟩ := registerPackages_spec heap _ hes ([], []) (TableInv.nil heap)
    have hppkg := registerPackages_ppkg heap
      (m.set (heap builtinPPkg).PkgPath builtinPPkg)
      (shuffle (m.set (heap builtinPPkg).PkgPath builtinPPkg)) ([], [])
      (fun e he => (hperm _).mem_iff.mp he) (fun pk hpk => by simp at hpk)
    have hdeps := buildDeps_isSome heap
      ((shuffle (m.set (heap builtinPPkg).PkgPath builtinPPkg)).foldl
        (registerPackage heap) ([], [])).1
      ((shuffle (m.set (heap builtinPPkg).PkgPath builtinPPkg)).foldl
        (registerPackage heap) ([], [])).2
      (by
        intro pk hpk q hq
        obtain ⟨e, he, hpe⟩ := hppkg pk hpk
        rw [hpe] at hq
        apply hkeys
        right
        have hk := (hall e he).2 q hq
        obtain ⟨v, hv⟩ := (GoMap.mem_keys_iff _ _).mp hk
        exact List.mem_map.mpr
          ⟨((heap q).PkgPath, v), (hperm _).mem_iff.mpr (GoMap.mem_of_get _ _ v hv), rfl⟩)
    obtain ⟨l, hl⟩ := Option.isSome_iff_exists.mp hdeps
    unfold buildPackageGraph
    simp only [hm, hl]
    exact ⟨_, rfl⟩
  obtain ⟨d, hd⟩ := hex
  refine ⟨d, hd, ?_⟩
  obtain ⟨_, hpk, _⟩ := buildPackageGraph_spec heap shuffle ppkgs builtinPPkg d0 d hperm hd
  intro i P hP q hq
  have hmem : d.packageTable.get (heap q).PkgPath ∈ P.Deps.map some := by
    rw [(hpk i P hP).2.2]
    exact List.mem_map.mpr ⟨q, hq, rfl⟩
  obtain ⟨x, _, hx⟩ := List.mem_map.mp hmem
  rw [← hx]
  rfl

/-- Witness of C13: the cyclic graph `heapCycle`, whose builtin package imports nothing. -/
theorem dependency_panic_unreachable_witness :
    (∀ m : GoMap (Fin 4), (id m).Perm m) ∧
    (∀ m, collectPPackages heapCycle [0] = some m →
      ∀ q ∈ (heapCycle 3).Imports, (m.get (heapCycle q).PkgPath).isSome) ∧
    ∃ d, buildPackageGraph heapCycle id [0] 3 (CodeAnalyzer.empty 4) = some d ∧
      ∀ (i : Nat) (P : Package 4), d.packageList[i]? = some P →
        ∀ q ∈ (heapCycle P.PPkg).Imports, (d.packageTable.get (heapCycle q).PkgPath).isSome :=
  ⟨fun m => List.Perm.refl m,
    fun _ _ q hq => ((by decide : ∀ q ∈ (heapCycle 3).Imports, False) q hq).elim,
    dependency_panic_unreachable heapCycle id [0] 3 (CodeAnalyzer.empty 4)
      (fun m => List.Perm.refl m)
      (fun _ _ q hq => ((by decide : ∀ q ∈ (heapCycle 3).Imports, False) q hq).elim)⟩

/-! ## The working module -/

/-- The loop of lines 515-520 over the first `k` modules: the working module is the last of
them without a version, when there is one. -/
theorem selectWdModule_upTo {n : Nat} (d : CodeAnalyzer n) (k : Nat) :
    ((List.range k).foldl (fun d1 i =>
        match d1.nonToolchainModules[i]? with
        | none => d1
        | some m => if m.Version = "" then { d1 with wdModule := some (ModulePtr.ext i) }
          else d1) d).nonToolchainModules = d.nonToolchainModules ∧
    ((∃ (i : Nat) (m : Module), i < k ∧ d.nonToolchainModules[i]? = some m ∧ m.Version = "") →
      ∃ (i : Nat) (m : Module), i < k ∧
        ((List.range k).foldl (fun d1 i =>
          match d1.nonToolchainModules[i]? with
          | none => d1
          | some m => if m.Version = "" then { d1 with wdModule := some (ModulePtr.ext i) }
            else d1) d).wdModule = some (ModulePtr.ext i) ∧
        d.nonToolchainModules[i]? = some m ∧ m.Version = "" ∧
        ∀ (j : Nat) (m1 : Module), j < k → d.nonToolchainModules[j]? = some m1 →
          m1.Version = "" → j ≤ i) := by
  induction k with
  | zero =>
    refine ⟨rfl, ?_⟩
    rintro ⟨i, _, hi, _⟩
    exact absurd hi (Nat.not_lt_zero i)
  | succ k ih =>
    rw [List.range_succ, List.foldl_append]
    simp only [List.foldl_cons, List.foldl_nil]
    obtain ⟨hnt, hwd⟩ := ih
    generalize (List.range k).foldl (fun d1 i =>
        match d1.nonToolchainModules[i]? with
        | none => d1
        | some m => if m.Version = "" then { d1 with wdModule := some (ModulePtr.ext i) }
          else d1) d = r at hnt hwd ⊢
    have keep : (∃ (i : Nat) (m : Module), i < k + 1 ∧ d.nonToolchainModules[i]? = some m ∧
          m.Version = "") →
        (∀ m, d.nonToolchainModules[k]? = some m → m.Version ≠ "") →
        ∃ (i : Nat) (m : Module), i < k + 1 ∧ r.wdModule = some (ModulePtr.ext i) ∧
          d.nonToolchainModules[i]? = some m ∧ m.Version = "" ∧
          ∀ (j : Nat) (m1 : Module), j < k + 1 → d.nonToolchainModules[j]? = some m1 →
            m1.Version = "" → j ≤ i := by
      rintro ⟨i, m, hi, him, hv⟩ hk
      have hik : i < k := by
        rcases Nat.lt_succ_iff_lt_or_eq.mp hi with h1 | h1
        · exact h1
        · subst h1
          exact absurd hv (hk m him)
      obtain ⟨i1, m1, h1, h2, h3, h4, h5⟩ := hwd ⟨i, m, hik, him, hv⟩
      refine ⟨i1, m1, Nat.lt_succ_of_lt h1, h2, h3, h4, ?_⟩
      intro j mj hj hjm hjv
      rcases Nat.lt_succ_iff_lt_or_eq.mp hj with h6 | h6
      · exact h5 j mj h6 hjm hjv
      · subst h6
        exact absurd hjv (hk mj hjm)
    rw [hnt]
    cases hm : d.nonToolchainModules[k]? with
    | none =>
      refine ⟨hnt, fun hex => ?_⟩
      exact keep hex (fun m hmk => by rw [hm] at hmk; cases hmk)
    | some m =>
      by_cases hv : m.Version = ""
      · simp only [hv, if_true]
        refine ⟨trivial, fun _ => ⟨k, m, Nat.lt_succ_self k, rfl, hm, hv, ?_⟩⟩
        intro j _ hj _ _
        exact Nat.lt_succ_iff.mp hj
      · simp only [hv, if_false]
        refine ⟨hnt, fun hex => ?_⟩
        exact keep hex (fun m1 hmk => by rw [hm] at hmk; cases hmk; exact hv)

/-- The loop of lines 515-520: when a listed module has no version, the working module is the
last such module. -/
theorem selectWdModule_spec {n : Nat} (d : CodeAnalyzer n)
    (hex : ∃ (i : Nat) (m : Module), d.nonToolchainModules[i]? = some m ∧ m.Version = "") :
    ∃ (i : Nat) (m : Module), (selectWdModule d).wdModule = some (ModulePtr.ext i) ∧
      d.nonToolchainModules[i]? = some m ∧ m.Version = "" ∧
      ∀ (j : Nat) (m1 : Module), d.nonToolchainModules[j]? = some m1 → m1.Version = "" →
        j ≤ i := by
  have hlt : ∀ (j : Nat) (m1 : Module), d.nonToolchainModules[j]? = some m1 →
      j < d.nonToolchainModules.length := by
    intro j m1 hj
    by_contra hge
    rw [List.getElem?_eq_none (Nat.le_of_not_lt hge)] at hj
    cases hj
  obtain ⟨i, m, him, hv⟩ := hex
  obtain ⟨i1, m1, _, h2, h3, h4, h5⟩ :=
    (selectWdModule_upTo d d.nonToolchainModules.length).2 ⟨i, m, hlt i m him, him, hv⟩
  exact ⟨i1, m1, h2, h3, h4, fun j mj hj hjv => h5 j mj (hlt j mj hj) hj hjv⟩

theorem completeModule_version (completeModuleInfo : Option (Module → Module))
    (hcb : ∀ f, completeModuleInfo = some f → ∀ m, ((f m).Version = "" ↔ m.Version = ""))
    (m : Module) : (completeModule completeModuleInfo m).Version = "" ↔ m.Version = "" := by
  unfold completeModule
  cases hc : completeModuleInfo with
  | none =>
    simp only
    split_ifs
    · rfl
    · rw [(confirmModuleReposotoryCommit_frame m).2.2.2.1]
  | some f =>
    simp only
    split_ifs
    · exact hcb f hc m
    · rw [(confirmModuleReposotoryCommit_frame (f m)).2.2.2.1]
      exact hcb f hc m

/-- C11 (amended).  Working-module selection: when `confirmPackageModules`, started on an
analyzer without listed modules, completes with a callback that leaves alone whether a version
is empty, and at least one listed module has an empty version string, `wdModule` refers to the
last such module in registration order: that module has an empty version, and every listed
module with an empty version was registered no later. -/
theorem wdModule_last_unversioned {n : Nat} (env : Env) (listing : Option (List Char))
    (hasToolchain : Bool) (completeModuleInfo : Option (Module → Module)) (verboseLogs : Bool)
    (d d' : CodeAnalyzer n)
    (hcb : ∀ f, completeModuleInfo = some f → ∀ m, ((f m).Version = "" ↔ m.Version = ""))
    (h0 : d.nonToolchainModules = [])
    (h : confirmPackageModules env listing hasToolchain completeModuleInfo verboseLogs d
      = some d')
    (hex : ∃ (i : Nat) (m : Module), d'.nonToolchainModules[i]? = some m ∧ m.Version = "") :
    ∃ (i : Nat) (m : Module), d'.wdModule = some (ModulePtr.ext i) ∧
      d'.nonToolchainModules[i]? = some m ∧ m.Version = "" ∧
      ∀ (j : Nat) (m1 : Module), d'.nonToolchainModules[j]? = some m1 → m1.Version = "" →
        j ≤ i := by
  rcases confirmPackageModules_cases env listing hasToolchain completeModuleInfo
    verboseLogs d d' h with ⟨_, hd⟩ | ⟨_, _, _, _, _, _, d3, _, _, _, _, _, _, _, hd'⟩
  · obtain ⟨i, m, him, _⟩ := hex
    rw [hd, h0] at him
    simp at him
  · have hnt : d'.nonToolchainModules =
        d3.nonToolchainModules.map (completeModule completeModuleInfo) := by
      rw [hd', completeModules_eq]
      simp only
      rw [(selectWdModule_frame d3).2.2.2.2.1]
    have hwd : d'.wdModule = (selectWdModule d3).wdModule := by
      rw [hd', completeModules_eq]
    have hget : ∀ (j : Nat) (m1 : Module), d'.nonToolchainModules[j]? = some m1 →
        ∃ m0, d3.nonToolchainModules[j]? = some m0 ∧
          completeModule completeModuleInfo m0 = m1 := by
      intro j m1 hj
      rw [hnt, List.getElem?_map] at hj
      cases h3 : d3.nonToolchainModules[j]? with
      | none => simp [h3] at hj
      | some m0 =>
        simp only [h3, Option.map_some', Option.some.injEq] at hj
        exact ⟨m0, rfl, hj⟩
    obtain ⟨i, m, him, hv⟩ := hex
    obtain ⟨m0, hm0, hc0⟩ := hget i m him
    have hv0 : m0.Version = "" := by
      rw [← hc0] at hv
      exact (completeModule_version completeModuleInfo hcb m0).mp hv
    obtain ⟨i1, m1, h1, h2, h3, h4⟩ := selectWdModule_spec d3 ⟨i, m0, hm0, hv0⟩
    refine ⟨i1, completeModule completeModuleInfo m1, hwd.trans h1, ?_,
      (completeModule_version completeModuleInfo hcb m1).mpr h3, ?_⟩
    · rw [hnt, List.getElem?_map, h2]
      rfl
    · intro j mj hj hjv
      obtain ⟨mj0, hmj0, hcj0⟩ := hget j mj hj
      rw [← hcj0] at hjv
      exact h4 j mj0 hmj0 ((completeModule_version completeModuleInfo hcb mj0).mp hjv)

/-- Witness of C11: the workspace with the two local modules `m1` and `m2`; the working module
is `m2`, the second one. -/
theorem wdModule_last_unversioned_witness :
    (∀ f, some callbackSample = some f → ∀ m, ((f m).Version = "" ↔ m.Version = "")) ∧
    analyzerCycle.nonToolchainModules = [] ∧
    confirmPackageModules envWorkspace (some listingSample) false (some callbackSample) true
      analyzerCycle = some analyzerWorkspace ∧
    (∃ (i : Nat) (m : Module), analyzerWorkspace.nonToolchainModules[i]? = some m ∧
      m.Version = "") ∧
    ∃ (i : Nat) (m : Module), analyzerWorkspace.wdModule = some (ModulePtr.ext i) ∧
      analyzerWorkspace.nonToolchainModules[i]? = some m ∧ m.Version = "" ∧
      ∀ (j : Nat) (m1 : Module), analyzerWorkspace.nonToolchainModules[j]? = some m1 →
        m1.Version = "" → j ≤ i :=
  ⟨fun f hf m => by cases hf; rfl, by decide, by decide,
    ⟨0, _, rfl, rfl⟩,
    wdModule_last_unversioned envWorkspace (some listingSample) false (some callbackSample) true
      analyzerCycle analyzerWorkspace (fun f hf m => by cases hf; rfl) (by decide) (by decide)
      ⟨0, _, rfl, rfl⟩⟩

/-- Counterexample to C11 as stated: in the workspace with the two local modules `m1` and `m2`
the run completes, the first listed module without a version is `m1` (position 0), and
`wdModule` refers to `m2` (position 1), not to `m1`. -/
theorem wdModule_first_counterexample :
    ∃ d', confirmPackageModules envWorkspace (some listingSample) false none false
        analyzerCycle = some d' ∧
      (∃ m, d'.nonToolchainModules[0]? = some m ∧ m.Version = "") ∧
      d'.wdModule = some (ModulePtr.ext 1) ∧
      d'.wdModule ≠ some (ModulePtr.ext 0) :=
  ⟨{ analyzerWorkspace with
      nonToolchainModules := [⟨"m1", "", "/w/m1", [0], 1, "", "", "", ""⟩,
        ⟨"m2", "", "/w/m2", [1], 2, "", "", "", ""⟩] },
    by decide, ⟨_, rfl, rfl⟩, rfl, by decide⟩

/-! ## The capacity of the module array -/

theorem tallyRecord_modules (toolchainPath : String) (t : Tally) (p : ListedPkg)
    (hnd : t.modulesNumPkgs.keys.Nodup) :
    (tallyRecord toolchainPath t p).modulesNumPkgs.keys.Nodup ∧
    ∀ k, k ∈ (tallyRecord toolchainPath t p).modulesNumPkgs.keys ↔
      (k ∈ t.modulesNumPkgs.keys ∨ (p.Module.Path = k ∧ k ≠ "")) := by
  unfold tallyRecord
  by_cases hp : p.Module.Path = ""
  · have hkeep : ∀ k, k ∈ t.modulesNumPkgs.keys ↔
        (k ∈ t.modulesNumPkgs.keys ∨ (p.Module.Path = k ∧ k ≠ "")) := by
      intro k
      constructor
      · exact Or.inl
      · rintro (h | ⟨h1, h2⟩)
        · exact h
        · exact absurd (h1 ▸ hp) h2
    rw [if_neg (not_not.mpr hp)]
    by_cases hd : HasPrefix p.Dir toolchainPath = true
    · rw [if_pos hd]
      exact ⟨hnd, hkeep⟩
    · rw [if_neg hd]
      exact ⟨hnd, hkeep⟩
  · rw [if_pos hp]
    show (t.modulesNumPkgs.set p.Module.Path
        ((t.modulesNumPkgs.get p.Module.Path).getD 0 + 1)).keys.Nodup ∧
      ∀ k, k ∈ (t.modulesNumPkgs.set p.Module.Path
          ((t.modulesNumPkgs.get p.Module.Path).getD 0 + 1)).keys ↔
        (k ∈ t.modulesNumPkgs.keys ∨ (p.Module.Path = k ∧ k ≠ ""))
    refine ⟨GoMap.nodup_keys_set _ _ _ hnd, fun k => ?_⟩
    rw [GoMap.keys_set]
    split
    · rename_i hin
      constructor
      · exact Or.inl
      · rintro (h | ⟨h1, _⟩)
        · exact h
        · exact h1 ▸ hin
    · rw [List.mem_append, List.mem_singleton]
      constructor
      · rintro (h | h)
        · exact Or.inl h
        · exact Or.inr ⟨h.symm, h ▸ hp⟩
      · rintro (h | ⟨h1, _⟩)
        · exact Or.inl h
        · exact Or.inr h1.symm

/-- The keys of `modulesNumPkgs` after the first pass are the non-empty module paths of the
records, each once. -/
theorem tally_modules (env : Env) (cs : List (List Char)) :
    ∀ (t0 t : Tally),
      cs.foldlM (fun t1 c => (env.unmarshal c).map (tallyRecord env.toolchainPath t1)) t0
        = some t →
      t0.modulesNumPkgs.keys.Nodup →
      t.modulesNumPkgs.keys.Nodup ∧
      ∀ k, k ∈ t.modulesNumPkgs.keys ↔
        (k ∈ t0.modulesNumPkgs.keys ∨
          ∃ p ∈ cs.filterMap env.unmarshal, p.Module.Path = k ∧ k ≠ "") := by
  induction cs with
  | nil =>
    intro t0 t h hnd
    simp only [List.foldlM_nil, pure, Option.some.injEq] at h
    subst h
    exact ⟨hnd, fun k => by simp⟩
  | cons c cs ih =>
    intro t0 t h hnd
    simp only [List.foldlM_cons] at h
    cases hu : env.unmarshal c with
    | none => simp [hu] at h
    | some p =>
      simp only [hu, Option.map_some', Option.some_bind, Option.bind_eq_bind] at h
      obtain ⟨s1, s2⟩ := tallyRecord_modules env.toolchainPath t0 p hnd
      obtain ⟨h1, h2⟩ := ih _ t h s1
      refine ⟨h1, fun k => ?_⟩
      rw [h2, s2]
      simp only [List.filterMap_cons, hu, List.mem_cons]
      constructor
      · rintro ((h3 | h3) | ⟨q, hq, h3⟩)
        · exact Or.inl h3
        · exact Or.inr ⟨p, Or.inl rfl, h3⟩
        · exact Or.inr ⟨q, Or.inr hq, h3⟩
      · rintro (h3 | ⟨q, hq | hq, h3⟩)
        · exact Or.inl (Or.inl h3)
        · exact Or.inl (Or.inr (hq ▸ h3))
        · exact Or.inr ⟨q, hq, h3⟩

/-- The capacity `len(modulesNumPkgs)` is the number of distinct non-empty module paths of the
listed records. -/
theorem decodeListing_capacity (env : Env) (output : List Char) (t : Tally)
    (h : decodeListing env output = some t) :
    t.modulesNumPkgs.keys.Nodup ∧
    (∀ k, k ∈ t.modulesNumPkgs.keys ↔ ∃ p ∈ t.pkgs, p.Module.Path = k ∧ k ≠ "") ∧
    t.modulesNumPkgs.length = distinctModulePaths (decodedRecords env output) := by
  have hp := decodeListing_pkgs env output t h
  rw [decodeListing_eq] at h
  obtain ⟨h1, h2⟩ := tally_modules env _ _ t h List.nodup_nil
  have h3 : ∀ k, k ∈ t.modulesNumPkgs.keys ↔ ∃ p ∈ t.pkgs, p.Module.Path = k ∧ k ≠ "" := by
    intro k
    rw [h2, hp]
    simp [GoMap.keys, decodedRecords]
  refine ⟨h1, h3, ?_⟩
  have hlen : t.modulesNumPkgs.length = t.modulesNumPkgs.keys.length := by simp [GoMap.keys]
  rw [hlen, distinctModulePaths, ← hp]
  apply List.Perm.length_eq
  rw [List.perm_ext_iff_of_nodup h1 (List.nodup_dedup _)]
  intro k
  rw [h3, List.mem_dedup, List.mem_filter, List.mem_map]
  constructor
  · rintro ⟨p, hp1, hp2, hp3⟩
    exact ⟨⟨p, hp1, hp2⟩, by simpa using hp3⟩
  · rintro ⟨⟨p, hp1, hp2⟩, hp3⟩
    exact ⟨p, hp1, hp2, by simpa using hp3⟩

theorem paths_assignModule {n : Nat} (d : CodeAnalyzer n) (pk : Nat) (ptr : ModulePtr) :
    (assignModule d pk ptr).nonToolchainModules.map Module.Path =
      d.nonToolchainModules.map Module.Path := by
  unfold assignModule CodeAnalyzer.modifyModule CodeAnalyzer.modifyPackage
  cases ptr with
  | std => rfl
  | cmd => rfl
  | ext i => exact map_modifyAt _ Module.Path i _ (fun _ => rfl)

/-- One iteration of the second pass appends at most one module, that of the record, and only
for a record with a module path. -/
theorem reconcileRecord_paths {n : Nat} (env : Env) (d d' : CodeAnalyzer n) (p : ListedPkg)
    (h : reconcileRecord env d p = some d') :
    d'.nonToolchainModules.map Module.Path = d.nonToolchainModules.map Module.Path ∨
    (p.Module.Path ≠ "" ∧
      d'.nonToolchainModules.map Module.Path =
        d.nonToolchainModules.map Module.Path ++ [p.Module.Path]) := by
  rcases reconcileRecord_cases env d d' p h with h1 | ⟨pk, ptr, _, _, _, h1⟩ |
    ⟨pk, _, hne, _, h1⟩ | ⟨pk, P, wd, _, _, _, _, _, _, _, h1⟩
  · exact Or.inl (by rw [h1])
  · left
    rw [h1, paths_assignModule]
    rfl
  · right
    refine ⟨hne, ?_⟩
    rw [h1, paths_assignModule]
    simp [addExtModule, CodeAnalyzer.modifyPackage]
  · left
    rw [h1, paths_assignModule]

theorem secondPass_paths {n : Nat} (env : Env) (rs : List ListedPkg) :
    ∀ (d d' : CodeAnalyzer n), rs.foldlM (reconcileRecord env) d = some d' →
      ∀ k ∈ d'.nonToolchainModules.map Module.Path,
        k ∈ d.nonToolchainModules.map Module.Path ∨ ∃ p ∈ rs, p.Module.Path = k ∧ k ≠ "" := by
  induction rs with
  | nil =>
    intro d d' h k hk
    simp only [List.foldlM_nil, pure, Option.some.injEq] at h
    subst h
    exact Or.inl hk
  | cons p rs ih =>
    intro d d' h k hk
    simp only [List.foldlM_cons] at h
    cases h1 : reconcileRecord env d p with
    | none => simp [h1] at h
    | some d1 =>
      simp only [h1, Option.some_bind, Option.bind_eq_bind] at h
      rcases ih d1 d' h k hk with h2 | ⟨q, hq, h2⟩
      · rcases reconcileRecord_paths env d d1 p h1 with h3 | ⟨hne, h3⟩
        · exact Or.inl (h3 ▸ h2)
        · rw [h3, List.mem_append, List.mem_singleton] at h2
          rcases h2 with h2 | h2
          · exact Or.inl h2
          · exact Or.inr ⟨p, List.mem_cons_self p rs, h2.symm, h2 ▸ hne⟩
      · exact Or.inr ⟨q, List.mem_cons_of_mem p hq, h2⟩

theorem keys_moduleEntries (tc : Bool) (ms : List Module) :
    (moduleEntries tc ms).keys =
      "std" :: ((if tc then ["cmd"] else []) ++ ms.map Module.Path) := by
  have h : ∀ (l : List String) (k : Nat),
      ((l.enumFrom k).map (fun e => (e.2, ModulePtr.ext e.1))).map Prod.fst = l := by
    intro l
    induction l with
    | nil => intro k; rfl
    | cons a l ih =>
      intro k
      simp only [List.enumFrom_cons, List.map_cons, List.cons.injEq, true_and]
      exact ih (k + 1)
  unfold moduleEntries GoMap.keys
  cases tc
  · simp only [Bool.false_eq_true, if_false, List.nil_append, List.map_cons, List.enum]
    rw [h]
  · simp only [if_true, List.map_cons, List.map_append, List.enum, List.map_nil,
      List.singleton_append]
    rw [h]

/-- The listed modules of a well-formed module table have pairwise distinct paths. -/
theorem ModInv.paths_nodup {n : Nat} {tc : Bool} {d : CodeAnalyzer n} (h : ModInv tc d) :
    (d.nonToolchainModules.map Module.Path).Nodup := by
  have h1 := h.nodup
  rw [h.table, keys_moduleEntries] at h1
  exact (List.nodup_append.mp (List.nodup_cons.mp h1).2).2.1

theorem completeModule_path (completeModuleInfo : Option (Module → Module))
    (hcb : ∀ f, completeModuleInfo = some f → ∀ m, (f m).Path = m.Path) (m : Module) :
    (completeModule completeModuleInfo m).Path = m.Path := by
  unfold completeModule
  cases hc : completeModuleInfo with
  | none =>
    simp only
    split_ifs
    · rfl
    · rw [(confirmModuleReposotoryCommit_frame m).2.2.1]
  | some f =>
    simp only
    split_ifs
    · exact hcb f hc m
    · rw [(confirmModuleReposotoryCommit_frame (f m)).2.2.1]
      exact hcb f hc m

/-- C12 (as amended).  Exact-capacity module array: for a listing that decodes, the capacity
`len(modulesNumPkgs)` fixed after the first pass is the number of distinct non-empty module
paths among the listed records; after any number of iterations of the second pass the number
of entries of `nonToolchainModules` does not exceed it, the entries have pairwise distinct
paths and every reference to a listed module stored in `modulesByPath` points to the entry of
that path; and whenever the function completes, `nonToolchainModules` holds exactly that many
entries, `modulesByPath` holds exactly 1 + (1 if the toolchain module is registered under
`cmd`) + that many modules, and the paths of the entries are pairwise distinct provided the
caller's callback leaves the path of a module alone. -/
theorem exact_capacity {n : Nat} (env : Env) (output : List Char)
    (hasToolchain : Bool) (completeModuleInfo : Option (Module → Module)) (verboseLogs : Bool)
    (d : CodeAnalyzer n) (t : Tally)
    (hdec : decodeListing env output = some t) :
    t.modulesNumPkgs.length = distinctModulePaths (decodedRecords env output) ∧
    (∀ (k : Nat) (dk : CodeAnalyzer n), secondPassPrefix env hasToolchain t d k = some dk →
      dk.nonToolchainModules.length ≤ t.modulesNumPkgs.length ∧
      (dk.nonToolchainModules.map Module.Path).Nodup ∧
      ∀ (key : String) (i : Nat), dk.modulesByPath.get key = some (ModulePtr.ext i) →
        ∃ m, dk.nonToolchainModules[i]? = some m ∧ m.Path = key) ∧
    (∀ d' : CodeAnalyzer n,
      confirmPackageModules env (some output) hasToolchain completeModuleInfo verboseLogs d
        = some d' →
      d'.nonToolchainModules.length = t.modulesNumPkgs.length ∧
      d'.modulesByPath.length =
        1 + (if d'.modulesByPath.get "cmd" = some ModulePtr.cmd then 1 else 0) +
          t.modulesNumPkgs.length ∧
      ((∀ f, completeModuleInfo = some f → ∀ m, (f m).Path = m.Path) →
        (d'.nonToolchainModules.map Module.Path).Nodup)) := by
  obtain ⟨hknd, hkeys, hcap⟩ := decodeListing_capacity env output t hdec
  refine ⟨hcap, ?_, ?_⟩
  · intro k dk hk
    unfold secondPassPrefix at hk
    cases hr : registerFixedModules env hasToolchain t d with
    | none => simp [hr] at hk
    | some r =>
      obtain ⟨tc, d1⟩ := r
      simp only [hr] at hk
      obtain ⟨_, hinv1, _, _, hnil, _⟩ :=
        registerFixedModules_spec env hasToolchain t d d1 tc hr
      have hinv := secondPass_modInv env tc (t.pkgs.take k) d1 dk hk hinv1
      have hnd := hinv.paths_nodup
      refine ⟨?_, hnd, ?_⟩
      · have hsub : dk.nonToolchainModules.map Module.Path ⊆ t.modulesNumPkgs.keys := by
          intro key hkey
          rcases secondPass_paths env (t.pkgs.take k) d1 dk hk key hkey with h1 | ⟨p, hp, h1⟩
          · rw [hnil] at h1
            simp at h1
          · exact (hkeys key).mpr ⟨p, List.mem_of_mem_take hp, h1⟩
        have hle := (List.subperm_of_subset hnd hsub).length_le
        simpa [GoMap.keys] using hle
      · intro key i hget
        rcases (hinv.get_iff key (ModulePtr.ext i)).mp hget with ⟨_, hc⟩ | ⟨_, _, hc⟩ |
          ⟨j, m, hm, hkey, hc⟩
        · cases hc
        · cases hc
        · cases hc
          exact ⟨m, hm, hkey.symm⟩
  · intro d' h
    rcases confirmPackageModules_cases env (some output) hasToolchain completeModuleInfo
      verboseLogs d d' h with ⟨hdeg, _⟩ | ⟨output1, t1, tc, d1, d2, gv, d3, ho, ht1, hr, h2,
        hlen, _, h3, hd'⟩
    · rcases hdeg with hdeg | ⟨o, ho, hn⟩
      · cases hdeg
      · cases ho
        rw [hn] at hdec
        cases hdec
    · cases ho
      rw [hdec] at ht1
      cases ht1
      obtain ⟨_, hinv1, _, _, _, _, hwd1, _⟩ :=
        registerFixedModules_spec env hasToolchain t d d1 tc hr
      have hinv2 := secondPass_modInv env tc t.pkgs d1 d2 h2 hinv1
      have hwd2 : tc = true → d2.wdModule = some ModulePtr.cmd := by
        intro htc
        rw [secondPass_wdModule env t.pkgs d1 d2 h2]
        exact (hwd1 htc).1
      obtain ⟨_, _, f3, _, _, f6⟩ := finish_spec env gv tc completeModuleInfo d2 d3 h3 hwd2
      rw [← hd'] at f3 f6
      have hcmd : d'.modulesByPath.get "cmd" = some ModulePtr.cmd ↔ tc = true := by
        rw [f3, hinv2.get_iff]
        constructor
        · rintro (⟨_, hc⟩ | ⟨htc, _⟩ | ⟨_, _, _, _, hc⟩)
          · cases hc
          · exact htc
          · cases hc
        · intro htc
          exact Or.inr (Or.inl ⟨htc, rfl, rfl⟩)
      refine ⟨?_, ?_, ?_⟩
      · rw [f6, List.length_map]
        exact hlen
      · have hif : (if d'.modulesByPath.get "cmd" = some ModulePtr.cmd then 1 else 0) =
            (if tc = true then 1 else 0) := if_congr hcmd rfl rfl
        rw [hif, f3, hinv2.table, length_moduleEntries, hlen]
      · intro hcb
        have hpaths : d'.nonToolchainModules.map Module.Path =
            d2.nonToolchainModules.map Module.Path := by
          rw [f6, List.map_map]
          apply List.map_congr_left
          intro m _
          exact completeModule_path completeModuleInfo hcb m
        rw [hpaths]
        exact hinv2.paths_nodup

/-- Witness of C12: the workspace with the two local modules; the capacity is 2, one module is
registered after the first iteration, and the completed run holds two modules with distinct
paths and three entries of `modulesByPath`. -/
theorem exact_capacity_witness :
    decodeListing envWorkspace listingSample = some tallyWorkspace ∧
    secondPassPrefix envWorkspace false tallyWorkspace analyzerCycle 1
      = some analyzerWorkspaceFirst ∧
    confirmPackageModules envWorkspace (some listingSample) false (some callbackSample) true
      analyzerCycle = some analyzerWorkspace ∧
    (∀ f, some callbackSample = some f → ∀ m, (f m).Path = m.Path) ∧
    tallyWorkspace.modulesNumPkgs.length =
      distinctModulePaths (decodedRecords envWorkspace listingSample) ∧
    (analyzerWorkspaceFirst.nonToolchainModules.length ≤ tallyWorkspace.modulesNumPkgs.length ∧
      (analyzerWorkspaceFirst.nonToolchainModules.map Module.Path).Nodup ∧
      ∀ (key : String) (i : Nat),
        analyzerWorkspaceFirst.modulesByPath.get key = some (ModulePtr.ext i) →
        ∃ m, analyzerWorkspaceFirst.nonToolchainModules[i]? = some m ∧ m.Path = key) ∧
    analyzerWorkspace.nonToolchainModules.length = tallyWorkspace.modulesNumPkgs.length ∧
    analyzerWorkspace.modulesByPath.length =
      1 + (if analyzerWorkspace.modulesByPath.get "cmd" = some ModulePtr.cmd then 1 else 0) +
        tallyWorkspace.modulesNumPkgs.length ∧
    (analyzerWorkspace.nonToolchainModules.map Module.Path).Nodup :=
  ⟨by decide, by decide, by decide, fun f hf m => by cases hf; rfl,
    (exact_capacity envWorkspace listingSample false (some callbackSample) true analyzerCycle
      tallyWorkspace (by decide)).1,
    (exact_capacity envWorkspace listingSample false (some callbackSample) true analyzerCycle
      tallyWorkspace (by decide)).2.1 1 analyzerWorkspaceFirst (by decide),
    ((exact_capacity envWorkspace listingSample false (some callbackSample) true analyzerCycle
      tallyWorkspace (by decide)).2.2 analyzerWorkspace (by decide)).1,
    ((exact_capacity envWorkspace listingSample false (some callbackSample) true analyzerCycle
      tallyWorkspace (by decide)).2.2 analyzerWorkspace (by decide)).2.1,
    ((exact_capacity envWorkspace listingSample false (some callbackSample) true analyzerCycle
      tallyWorkspace (by decide)).2.2 analyzerWorkspace (by decide)).2.2
      (fun f hf m => by cases hf; rfl)⟩

/-- Counterexample to C12 as stated: the caller's callback writes the path of the module it
receives; the run completes with two listed modules, both with the path `x`. -/
theorem exact_capacity_counterexample :
    ∃ d' : CodeAnalyzer 4,
      confirmPackageModules envWorkspace (some listingSample) false (some callbackSamePath)
        false analyzerCycle = some d' ∧
      d'.nonToolchainModules.map Module.Path = ["x", "x"] ∧
      ¬ (d'.nonToolchainModules.map Module.Path).Nodup :=
  ⟨{ analyzerWorkspace with
      nonToolchainModules := [⟨"x", "", "/w/m1", [0], 1, "", "", "", ""⟩,
        ⟨"x", "", "/w/m2", [1], 2, "", "", "", ""⟩] },
    by decide, rfl, by decide⟩

end Golds
